import Mathlib

/-!
Verification of the maze library (`maze.py`): grid/cell data model, wall
removal (`Cell.connect`), cell lookup (`Maze.__getitem__`), neighbor
enumeration, text rendering (`Maze.__repr__`) and the randomized
depth-first maze generator (`Maze.randomize`).

The Python code is embedded shallowly: cells are records with integer
coordinates and a finite set of standing walls, the maze holds the flat
row-major cell list, mutation becomes explicit state passing, exceptions
become `Except` values that carry the (possibly partially mutated) state,
and the generator's `while` loop becomes a fuel-indexed step function
driven by an oracle `o : Nat → Nat` standing for the stream of
`random.choice` outcomes.
-/

set_option maxRecDepth 4000

instance {ε α} [DecidableEq ε] [DecidableEq α] : DecidableEq (Except ε α) := fun a b =>
  match a, b with
  | .error e1, .error e2 =>
    if h : e1 = e2 then isTrue (by rw [h]) else isFalse (fun hh => by cases hh; exact h rfl)
  | .ok v1, .ok v2 =>
    if h : v1 = v2 then isTrue (by rw [h]) else isFalse (fun hh => by cases hh; exact h rfl)
  | .error _, .ok _ => isFalse (fun hh => by cases hh)
  | .ok _, .error _ => isFalse (fun hh => by cases hh)

/-- The four cardinal directions `N, S, W, E` (`'n','s','w','e'` in the source). -/
inductive Dir where
  | N | S | W | E
deriving DecidableEq, Repr, Fintype

open Dir

/-- `class Cell`: knows its position and which walls are still standing. -/
structure Cell where
  x : Int
  y : Int
  walls : Finset Dir
deriving DecidableEq

/-- `Cell.is_full`: true iff all four walls are still standing. -/
def Cell.is_full (c : Cell) : Bool := c.walls.card = 4

/-- Manhattan distance between two cells' positions. -/
def Cell.dist (a b : Cell) : Nat := (a.x - b.x).natAbs + (a.y - b.y).natAbs

/-- `Cell._wall_to(other)`: the direction of the wall of `self` facing `other`.
`none` models the `assert` failing (distance ≠ 1; the final `assert False`
branch is unreachable at distance 1). -/
def Cell.wall_to (self other : Cell) : Option Dir :=
  if self.dist other ≠ 1 then none
  else if other.y < self.y then some N
  else if other.y > self.y then some S
  else if other.x < self.x then some W
  else if other.x > self.x then some E
  else none

/-- `Cell.connect(other)`: removes the mutual wall between two adjacent cells.
The source first runs `other.walls.remove(other._wall_to(self))` and then
`self.walls.remove(self._wall_to(other))`; an exception (failed assert or
`KeyError` on a missing wall) aborts the call, and the error value carries
the cells as they stand at that point (mutation already done is kept). -/
def Cell.connect (self other : Cell) : Except (Cell × Cell) (Cell × Cell) :=
  match other.wall_to self with
  | none => .error (self, other)
  | some d1 =>
    if d1 ∈ other.walls then
      let other' : Cell := ⟨other.x, other.y, other.walls.erase d1⟩
      match self.wall_to other with
      | none => .error (self, other')
      | some d2 =>
        if d2 ∈ self.walls then
          .ok (⟨self.x, self.y, self.walls.erase d2⟩, other')
        else .error (self, other')
    else .error (self, other)

/-- `class Maze`: width, height and the flat row-major list of cells. -/
structure Maze where
  width : Nat
  height : Nat
  cells : List Cell
deriving DecidableEq

/-- The cell list built by `Maze.__init__`: for `y in range(height)`,
for `x in range(width)`, append `Cell(x, y, [N, S, E, W])`. -/
def initCells (w h : Nat) : List Cell :=
  (List.range h).flatMap fun (y : Nat) => (List.range w).map fun (x : Nat) =>
    ⟨(x : Int), (y : Int), {N, S, E, W}⟩

/-- `Maze(width, height)`: a new maze with all walls standing. -/
def initMaze (w h : Nat) : Maze := ⟨w, h, initCells w h⟩

/-- `Maze.__getitem__((x, y))`: the cell at `(x, y)`, or `None` out of bounds. -/
def Maze.getItem (m : Maze) (x y : Int) : Option Cell :=
  if 0 ≤ x ∧ x < m.width ∧ 0 ≤ y ∧ y < m.height then
    m.cells.get? (x + y * m.width).toNat
  else none

/-- `Maze.neighbors(cell)`: the in-grid cells at `(x, y-1), (x, y+1),
(x-1, y), (x+1, y)`, in that order. -/
def Maze.neighbors (m : Maze) (c : Cell) : List Cell :=
  [(c.x, c.y - 1), (c.x, c.y + 1), (c.x - 1, c.y), (c.x + 1, c.y)].filterMap
    fun p => m.getItem p.1 p.2

/-- The initial `str_matrix` of `Maze.__repr__`: `(height*2+1)` rows of
`(width*2+1)` `'O'` characters. -/
def strMatrixInit (w h : Nat) : List (List Char) :=
  List.replicate (h * 2 + 1) (List.replicate (w * 2 + 1) 'O')

/-- `str_matrix[i][j] = c` (writes in bounds, as in every use by the source). -/
def setMat (mat : List (List Char)) (i j : Nat) (c : Char) : List (List Char) :=
  mat.set i ((mat.getD i []).set j c)

/-- The body of the `for cell in self.cells` loop of `Maze.__repr__`,
including the source's guards (`y+1 < self.width` and `x+1 < self.width`
are written exactly as in the source). -/
def renderCell (width : Nat) (mat : List (List Char)) (c : Cell) : List (List Char) :=
  let x : Int := c.x * 2 + 1
  let y : Int := c.y * 2 + 1
  let mat1 := setMat mat y.toNat x.toNat ' '
  let mat2 := if N ∉ c.walls ∧ y > 0 then setMat mat1 (y - 1).toNat x.toNat ' ' else mat1
  let mat3 := if S ∉ c.walls ∧ y + 1 < (width : Int) then setMat mat2 (y + 1).toNat x.toNat ' ' else mat2
  let mat4 := if W ∉ c.walls ∧ x > 0 then setMat mat3 y.toNat (x - 1).toNat ' ' else mat3
  if E ∉ c.walls ∧ x + 1 < (width : Int) then setMat mat4 y.toNat (x + 1).toNat ' ' else mat4

/-- The fully populated `str_matrix` of `Maze.__repr__`. -/
def Maze.renderMatrix (m : Maze) : List (List Char) :=
  m.cells.foldl (renderCell m.width) (strMatrixInit m.width m.height)

/-- `Maze.__repr__`: `'\n'.join(''.join(line) for line in str_matrix) + '\n'`. -/
def Maze.render (m : Maze) : String :=
  String.intercalate "\n" (m.renderMatrix.map fun row => String.mk row) ++ "\n"

/-- `str_matrix[i][j]` (reads are always in bounds where this is used;
the default is the background character). -/
def getMat (mat : List (List Char)) (i j : Nat) : Char :=
  (mat.getD i []).getD j 'O'

/-- A rectangular character matrix: `rows` rows, each of length `cols`
(and nothing beyond). -/
def RectMat (mat : List (List Char)) (rows cols : Nat) : Prop :=
  mat.length = rows ∧ ∀ k, (mat.getD k []).length = if k < rows then cols else 0

/-- The positions a single loop iteration of `Maze.__repr__` writes to for
the cell `c` (every write is the blank character), with the source's
guards kept verbatim. -/
def cellWrites (width : Nat) (c : Cell) (i j : Nat) : Prop :=
  (i = (c.y * 2 + 1).toNat ∧ j = (c.x * 2 + 1).toNat) ∨
  ((N ∉ c.walls ∧ c.y * 2 + 1 > 0) ∧
    i = (c.y * 2 + 1 - 1).toNat ∧ j = (c.x * 2 + 1).toNat) ∨
  ((S ∉ c.walls ∧ c.y * 2 + 1 + 1 < (width : Int)) ∧
    i = (c.y * 2 + 1 + 1).toNat ∧ j = (c.x * 2 + 1).toNat) ∨
  ((W ∉ c.walls ∧ c.x * 2 + 1 > 0) ∧
    i = (c.y * 2 + 1).toNat ∧ j = (c.x * 2 + 1 - 1).toNat) ∨
  ((E ∉ c.walls ∧ c.x * 2 + 1 + 1 < (width : Int)) ∧
    i = (c.y * 2 + 1).toNat ∧ j = (c.x * 2 + 1 + 1).toNat)

instance (width : Nat) (c : Cell) (i j : Nat) : Decidable (cellWrites width c i j) := by
  unfold cellWrites; infer_instance

/-- Runtime failures of `randomize`, each a Python exception site:
`emptyGrid` is `random.choice` on an empty cell list, `underflow` is
`cell_stack.pop()` on an empty stack, `badConnect` is an exception inside
`Cell.connect`, and `fuelOut` marks exhaustion of the step budget of the
embedding (shown unreachable from the budget chosen in `Maze.randomize`). -/
inductive RErr where
  | emptyGrid | underflow | badConnect | fuelOut
deriving DecidableEq, Repr

/-- The generator's loop state: the maze, the index of the current cell,
the backtrack stack of cell indices, and `n_visited_cells`. -/
structure RState where
  maze : Maze
  cur : Nat
  stack : List Nat
  nVisited : Nat
deriving DecidableEq

/-- Placeholder cell for (never exercised) out-of-range list reads. -/
def cellDflt : Cell := ⟨0, 0, ∅⟩

/-- The flat index of a cell value inside the maze's list (`x + y * width`);
this is where the cell lives in any maze built by `Maze.__init__`. -/
def cellIndex (m : Maze) (c : Cell) : Nat := (c.x + c.y * m.width).toNat

/-- `cell.connect(neighbor)` acting on the maze's cell list, for the cells
at indices `i` and `j`; errors carry the partially mutated maze. -/
def Maze.connectIdx (m : Maze) (i j : Nat) : Except (RErr × Maze) Maze :=
  match (m.cells.getD i cellDflt).connect (m.cells.getD j cellDflt) with
  | .ok (ci, cj) => .ok { m with cells := (m.cells.set i ci).set j cj }
  | .error (ci, cj) => .error (.badConnect, { m with cells := (m.cells.set i ci).set j cj })

/-- `[c for c in self.neighbors(cell) if c.is_full()]`. -/
def fullNeighbors (m : Maze) (c : Cell) : List Cell :=
  (m.neighbors c).filter fun n => n.is_full

/-- One iteration of the `while` loop of `Maze.randomize`, given the next
`random.choice` outcome `r` (used modulo the list length). -/
inductive StepRes where
  | next (consume : Bool) (st : RState)
  | done (m : Maze)
  | fail (e : RErr) (m : Maze)
deriving DecidableEq

def rstep (st : RState) (r : Nat) : StepRes :=
  if st.nVisited < st.maze.cells.length then
    let c := st.maze.cells.getD st.cur cellDflt
    let fulls := fullNeighbors st.maze c
    if fulls.length ≠ 0 then
      let nbr := fulls.getD (r % fulls.length) cellDflt
      let j := cellIndex st.maze nbr
      match st.maze.connectIdx st.cur j with
      | .ok m' => .next true ⟨m', j, st.cur :: st.stack, st.nVisited + 1⟩
      | .error (e, m') => .fail e m'
    else
      match st.stack with
      | [] => .fail .underflow st.maze
      | s :: rest => .next false ⟨st.maze, s, rest, st.nVisited⟩
  else .done st.maze

/-- The `while` loop of `Maze.randomize`: `k` indexes the oracle (advanced
exactly when a `random.choice` is consumed), `fuel` bounds the iterations. -/
def runLoop (o : Nat → Nat) : Nat → Nat → RState → Except (RErr × Maze) Maze
  | _, 0, st => .error (.fuelOut, st.maze)
  | k, fuel + 1, st =>
    match rstep st (o k) with
    | .next true st' => runLoop o (k + 1) fuel st'
    | .next false st' => runLoop o k fuel st'
    | .done m => .ok m
    | .fail e m => .error (e, m)

/-- `Maze.randomize`: pick the start cell with `random.choice(self.cells)`
(oracle index 0), then run the loop.  The fuel `2 * |cells| + 1` is enough
for every execution (`C8`). -/
def Maze.randomize (o : Nat → Nat) (m : Maze) : Except (RErr × Maze) Maze :=
  if m.cells.length = 0 then .error (.emptyGrid, m)
  else runLoop o 1 (2 * m.cells.length + 1) ⟨m, o 0 % m.cells.length, [], 1⟩

/-- The state `randomize` starts the loop in. -/
def initState (o : Nat → Nat) (w h : Nat) : RState :=
  ⟨initMaze w h, o 0 % (initMaze w h).cells.length, [], 1⟩

/-- The states the loop of `randomize o` visits when started on the fresh
`w × h` grid, paired with the oracle position. -/
inductive RandReach (o : Nat → Nat) (w h : Nat) : Nat → RState → Prop where
  | start : (initMaze w h).cells.length ≠ 0 → RandReach o w h 1 (initState o w h)
  | stepC {k st st'} : RandReach o w h k st → rstep st (o k) = .next true st' →
      RandReach o w h (k + 1) st'
  | stepN {k st st'} : RandReach o w h k st → rstep st (o k) = .next false st' →
      RandReach o w h k st'

/-! ## Position-level view of a maze -/

/-- `(x, y)` is an in-bounds grid position of `m`. -/
def Maze.InGrid (m : Maze) (p : Int × Int) : Prop :=
  0 ≤ p.1 ∧ p.1 < m.width ∧ 0 ≤ p.2 ∧ p.2 < m.height

instance (m : Maze) (p : Int × Int) : Decidable (m.InGrid p) := by
  unfold Maze.InGrid; infer_instance

/-- The grid position stored at flat index `i` (row-major). -/
def posOfIdx (w i : Nat) : Int × Int := ((i % w : Nat), (i / w : Nat))

/-- The flat index of grid position `p`. -/
def idxOfPos (w : Nat) (p : Int × Int) : Nat := (p.1 + p.2 * w).toNat

/-- Well-formedness produced by `Maze.__init__` and kept by every operation:
the cell list has `width * height` entries and the cell at flat index `i`
sits at position `(i % width, i / width)`. -/
def Maze.WF (m : Maze) : Prop :=
  m.cells.length = m.width * m.height ∧
  ∀ i (hi : i < m.cells.length),
    (m.cells.get ⟨i, hi⟩).x = ((i % m.width : Nat) : Int) ∧
    (m.cells.get ⟨i, hi⟩).y = ((i / m.width : Nat) : Int)

/-- The standing walls at position `p` (all four walls for positions
without a cell, so that out-of-grid positions are never open). -/
def Maze.wallsAt (m : Maze) (p : Int × Int) : Finset Dir :=
  match m.getItem p.1 p.2 with
  | some c => c.walls
  | none => {N, S, E, W}

/-- The passage relation of the claims: two (necessarily adjacent)
positions with the mutual wall between them removed on both sides. -/
def openBetween (m : Maze) (a b : Int × Int) : Prop :=
  (b = (a.1, a.2 + 1) ∧ S ∉ m.wallsAt a ∧ N ∉ m.wallsAt b) ∨
  (a = (b.1, b.2 + 1) ∧ S ∉ m.wallsAt b ∧ N ∉ m.wallsAt a) ∨
  (b = (a.1 + 1, a.2) ∧ E ∉ m.wallsAt a ∧ W ∉ m.wallsAt b) ∨
  (a = (b.1 + 1, b.2) ∧ E ∉ m.wallsAt b ∧ W ∉ m.wallsAt a)

instance (m : Maze) (a b : Int × Int) : Decidable (openBetween m a b) := by
  unfold openBetween; infer_instance

/-- Wall symmetry: the two sides of any interior wall agree. -/
def Maze.SymWalls (m : Maze) : Prop :=
  ∀ p : Int × Int, m.InGrid p →
    (m.InGrid (p.1, p.2 + 1) →
      (S ∈ m.wallsAt p ↔ N ∈ m.wallsAt (p.1, p.2 + 1))) ∧
    (m.InGrid (p.1 + 1, p.2) →
      (E ∈ m.wallsAt p ↔ W ∈ m.wallsAt (p.1 + 1, p.2)))

/-- Every outward-facing wall on the grid border is standing. -/
def Maze.Boundary (m : Maze) : Prop :=
  ∀ p : Int × Int, m.InGrid p →
    (p.2 = 0 → N ∈ m.wallsAt p) ∧ (p.2 = (m.height : Int) - 1 → S ∈ m.wallsAt p) ∧
    (p.1 = 0 → W ∈ m.wallsAt p) ∧ (p.1 = (m.width : Int) - 1 → E ∈ m.wallsAt p)

/-- All in-bounds positions of a `w × h` grid. -/
def gridFinset (w h : Nat) : Finset (Int × Int) :=
  Finset.Ico (0 : Int) (w : Int) ×ˢ Finset.Ico (0 : Int) (h : Int)

/-- The removed connecting walls, one entry per open mutual wall:
`(p, true)` for an open wall between `p` and its south neighbor,
`(p, false)` for an open wall between `p` and its east neighbor. -/
def Maze.openPairs (m : Maze) : Finset ((Int × Int) × Bool) :=
  ((gridFinset m.width m.height) ×ˢ ({false, true} : Finset Bool)).filter
    fun q => if q.2 then openBetween m q.1 (q.1.1, q.1.2 + 1)
             else openBetween m q.1 (q.1.1 + 1, q.1.2)

/-- A simple path through open walls from `a` to `b`: the list of visited
positions, consecutive ones sharing a removed mutual wall, none repeated. -/
def IsMazePath (m : Maze) (a b : Int × Int) (p : List (Int × Int)) : Prop :=
  p.head? = some a ∧ p.getLast? = some b ∧ List.Chain' (openBetween m) p ∧ p.Nodup

/-- Mazes whose walls have only been modified by `connect` calls on
adjacent in-grid cells (successful or not), starting from the fresh grid. -/
inductive ConnectOnly (w h : Nat) : Maze → Prop where
  | init : ConnectOnly w h (initMaze w h)
  | ok {m m' : Maze} {i j : Nat} : ConnectOnly w h m →
      i < m.cells.length → j < m.cells.length →
      (m.cells.getD i cellDflt).dist (m.cells.getD j cellDflt) = 1 →
      m.connectIdx i j = .ok m' → ConnectOnly w h m'
  | err {m m' : Maze} {i j : Nat} {e : RErr} : ConnectOnly w h m →
      i < m.cells.length → j < m.cells.length →
      (m.cells.getD i cellDflt).dist (m.cells.getD j cellDflt) = 1 →
      m.connectIdx i j = .error (e, m') → ConnectOnly w h m'

/-! ## Cell-level lemmas and claims C5, C6 -/

theorem Cell.dist_comm (a b : Cell) : a.dist b = b.dist a := by
  unfold Cell.dist
  rw [← Int.natAbs_neg (a.x - b.x), ← Int.natAbs_neg (a.y - b.y)]
  simp [neg_sub]

/-- `_wall_to` succeeds exactly at Manhattan distance 1. -/
theorem Cell.wall_to_isSome_iff (a b : Cell) : (a.wall_to b).isSome ↔ a.dist b = 1 := by
  unfold Cell.wall_to
  by_cases h : a.dist b = 1
  · simp only [h, ne_eq, not_true_eq_false, if_false]
    have hne : ¬ (b.y = a.y ∧ b.x = a.x) := by
      rintro ⟨hy, hx⟩
      unfold Cell.dist at h
      rw [hx, hy] at h; simp at h
    rcases lt_trichotomy b.y a.y with hy | hy | hy
    · simp [hy]
    · rcases lt_trichotomy b.x a.x with hx | hx | hx
      · simp [hy.not_lt, hy.not_gt, hx]
      · exact absurd ⟨hy, hx⟩ hne
      · simp [hy.not_lt, hy.not_gt, hx.not_lt, hx]
    · simp [hy.not_lt, hy]
  · simp [h]

/-- C6 helper: at distance ≠ 1 the very first `_wall_to` assert fires,
before any wall is touched. -/
theorem Cell.connect_of_dist_ne_one (a b : Cell) (h : a.dist b ≠ 1) :
    a.connect b = .error (a, b) := by
  have hw : b.wall_to a = none := by
    have := Cell.wall_to_isSome_iff b a
    rw [Cell.dist_comm b a] at this
    cases hwa : b.wall_to a with
    | none => rfl
    | some d => rw [hwa] at this; simp at this; exact absurd this h
  unfold Cell.connect
  rw [hw]

/-- C6: `connect` on two cells at Manhattan distance ≠ 1 (including equal
cells) fails with a defined error, and the error state carries both cells
with their wall sets exactly as they were. -/
theorem C6_connect_nonadjacent_fails_without_mutation (a b : Cell)
    (h : a.dist b ≠ 1) :
    a.connect b = .error (a, b) :=
  Cell.connect_of_dist_ne_one a b h

theorem C6_witness :
    (Cell.dist ⟨0, 0, {N, S, E, W}⟩ ⟨2, 0, {N, S, E, W}⟩ ≠ 1) ∧
    Cell.connect ⟨0, 0, {N, S, E, W}⟩ ⟨2, 0, {N, S, E, W}⟩ =
      .error (⟨0, 0, {N, S, E, W}⟩, ⟨2, 0, {N, S, E, W}⟩) :=
  ⟨by decide, C6_connect_nonadjacent_fails_without_mutation _ _ (by decide)⟩

/-- C5 counterexample: `a = Cell(0,0,{E})`, `b = Cell(1,0,{})` are at
Manhattan distance 1, yet `connect(a, b)` raises (`KeyError` on
`b.walls.remove(W)`) and afterwards the wall of `a` facing `b` (`E`) is
still standing — contradicting the claim that after the call both facing
walls are absent. -/
theorem C5_counterexample :
    Cell.dist ⟨0, 0, {E}⟩ ⟨1, 0, ∅⟩ = 1 ∧
    Cell.connect ⟨0, 0, {E}⟩ ⟨1, 0, ∅⟩ = .error (⟨0, 0, {E}⟩, ⟨1, 0, ∅⟩) ∧
    (Cell.wall_to ⟨0, 0, {E}⟩ ⟨1, 0, ∅⟩ = some E ∧
      E ∈ (⟨0, 0, {E}⟩ : Cell).walls) := by
  refine ⟨by decide, ?_, by decide, by decide⟩
  decide

/-- C5 (amended): at Manhattan distance 1, *provided the wall of `a`
facing `b` and the wall of `b` facing `a` are both standing*, `connect`
succeeds, both facing walls are absent afterwards, positions are
unchanged, and every other wall keeps its previous status. -/
theorem C5_connect_removes_exactly_facing_walls (a b : Cell) (da db : Dir)
    (hda : a.wall_to b = some da) (hdb : b.wall_to a = some db)
    (ha : da ∈ a.walls) (hb : db ∈ b.walls) :
    ∃ a' b', a.connect b = .ok (a', b') ∧
      a'.x = a.x ∧ a'.y = a.y ∧ b'.x = b.x ∧ b'.y = b.y ∧
      da ∉ a'.walls ∧ db ∉ b'.walls ∧
      (∀ d : Dir, d ≠ da → (d ∈ a'.walls ↔ d ∈ a.walls)) ∧
      (∀ d : Dir, d ≠ db → (d ∈ b'.walls ↔ d ∈ b.walls)) := by
  refine ⟨⟨a.x, a.y, a.walls.erase da⟩, ⟨b.x, b.y, b.walls.erase db⟩, ?_, rfl, rfl, rfl, rfl,
    Finset.not_mem_erase da a.walls, Finset.not_mem_erase db b.walls, ?_, ?_⟩
  · unfold Cell.connect
    rw [hdb]
    simp only [hb, if_true, hda, ha]
  · intro d hd
    constructor
    · exact fun hm => (Finset.mem_erase.mp hm).2
    · exact fun hm => Finset.mem_erase.mpr ⟨hd, hm⟩
  · intro d hd
    constructor
    · exact fun hm => (Finset.mem_erase.mp hm).2
    · exact fun hm => Finset.mem_erase.mpr ⟨hd, hm⟩

theorem C5_witness :
    (Cell.wall_to ⟨0, 0, {E}⟩ ⟨1, 0, {W}⟩ = some E ∧
     Cell.wall_to ⟨1, 0, {W}⟩ ⟨0, 0, {E}⟩ = some W) ∧
    ∃ a' b', Cell.connect ⟨0, 0, {E}⟩ ⟨1, 0, {W}⟩ = .ok (a', b') ∧
      a'.x = 0 ∧ a'.y = 0 ∧ b'.x = 1 ∧ b'.y = 0 ∧
      E ∉ a'.walls ∧ W ∉ b'.walls ∧
      (∀ d : Dir, d ≠ E → (d ∈ a'.walls ↔ d ∈ (⟨0, 0, {E}⟩ : Cell).walls)) ∧
      (∀ d : Dir, d ≠ W → (d ∈ b'.walls ↔ d ∈ (⟨1, 0, {W}⟩ : Cell).walls)) :=
  ⟨⟨by decide, by decide⟩,
    C5_connect_removes_exactly_facing_walls ⟨0, 0, {E}⟩ ⟨1, 0, {W}⟩ E W
      (by decide) (by decide) (by decide) (by decide)⟩

/-! ## Well-formedness of the cell list and claim C9 -/

/-- Closed form of `Maze.__init__`'s cell list: entry `i` is the cell at
`(i % w, i / w)` with all walls standing. -/
theorem initCells_eq (w h : Nat) :
    initCells w h =
      (List.range (w * h)).map fun i => (⟨(i % w : Nat), (i / w : Nat), {N, S, E, W}⟩ : Cell) := by
  induction h with
  | zero => simp [initCells]
  | succ h ih =>
    rw [initCells, List.range_succ, List.flatMap_append, ← initCells, ih,
      Nat.mul_succ, List.range_add, List.map_append, List.map_map]
    congr 1
    · have hsing : ([h] : List Nat).flatMap
          (fun (y : Nat) => (List.range w).map fun (x : Nat) =>
            (⟨(x : Int), (y : Int), {N, S, E, W}⟩ : Cell)) =
          (List.range w).map fun (x : Nat) =>
            (⟨(x : Int), (h : Int), {N, S, E, W}⟩ : Cell) := by
        rw [List.flatMap_cons, List.flatMap_nil, List.append_nil]
      rw [hsing]
      apply List.map_congr_left
      intro x hx
      have hxw : x < w := List.mem_range.mp hx
      have hw : 0 < w := Nat.pos_of_ne_zero fun h0 => by omega
      have h1 : (w * h + x) % w = x := by
        rw [Nat.add_comm, Nat.mul_comm, Nat.add_mul_mod_self_right]
        exact Nat.mod_eq_of_lt hxw
      have h2 : (w * h + x) / w = h := by
        rw [Nat.add_comm, Nat.mul_comm, Nat.add_mul_div_right x h hw,
          Nat.div_eq_of_lt hxw]
        exact Nat.zero_add h
      simp only [Function.comp]
      rw [h1, h2]

theorem initCells_length (w h : Nat) : (initCells w h).length = w * h := by
  rw [initCells_eq, List.length_map, List.length_range]

theorem initMaze_WF (w h : Nat) : (initMaze w h).WF := by
  refine ⟨initCells_length w h, ?_⟩
  intro i hi
  have hi' : i < w * h := by rwa [initMaze, initCells_length] at hi
  constructor <;>
    simp [initMaze, initCells_eq, List.get_eq_getElem, List.getElem_map, List.getElem_range]

/-- Under `WF`, an in-bounds lookup lands at flat index `(x + y*w).toNat`,
which is in range, and the cell there carries exactly the queried position. -/
theorem Maze.getItem_inBounds (m : Maze) (hwf : m.WF) {x y : Int}
    (hx0 : 0 ≤ x) (hxw : x < m.width) (hy0 : 0 ≤ y) (hyh : y < m.height) :
    ∃ hi : (x + y * m.width).toNat < m.cells.length,
      m.getItem x y = some (m.cells.get ⟨(x + y * m.width).toNat, hi⟩) ∧
      (m.cells.get ⟨(x + y * m.width).toNat, hi⟩).x = x ∧
      (m.cells.get ⟨(x + y * m.width).toNat, hi⟩).y = y := by
  obtain ⟨hlen, hpos⟩ := hwf
  obtain ⟨nx, rfl⟩ : ∃ nx : Nat, x = (nx : Int) := ⟨x.toNat, (Int.toNat_of_nonneg hx0).symm⟩
  obtain ⟨ny, rfl⟩ : ∃ ny : Nat, y = (ny : Int) := ⟨y.toNat, (Int.toNat_of_nonneg hy0).symm⟩
  have hnx : nx < m.width := by exact_mod_cast hxw
  have hny : ny < m.height := by exact_mod_cast hyh
  have hwpos : 0 < m.width := by omega
  have hidx : ((nx : Int) + (ny : Int) * (m.width : Int)).toNat = nx + ny * m.width :=
    Int.toNat_natCast _
  have hltn : nx + ny * m.width < m.width * m.height := by
    calc nx + ny * m.width < m.width + ny * m.width := by omega
    _ = (ny + 1) * m.width := by ring
    _ ≤ m.height * m.width := Nat.mul_le_mul_right m.width hny
    _ = m.width * m.height := Nat.mul_comm m.height m.width
  have hi : ((nx : Int) + (ny : Int) * (m.width : Int)).toNat < m.cells.length := by
    rw [hidx, hlen]; exact hltn
  refine ⟨hi, ?_, ?_, ?_⟩
  · unfold Maze.getItem
    rw [if_pos ⟨hx0, hxw, hy0, hyh⟩]
    rw [List.get?_eq_get hi]
  · rw [(hpos _ hi).1]
    congr 1
    rw [hidx, Nat.add_mul_mod_self_right, Nat.mod_eq_of_lt hnx]
  · rw [(hpos _ hi).2]
    congr 1
    rw [hidx, Nat.add_mul_div_right _ _ hwpos, Nat.div_eq_of_lt hnx, Nat.zero_add]

/-- C9: for every well-formed grid and every integer pair `(x, y)`, the
lookup returns `None` (never an error) exactly when the coordinates are out
of bounds, and otherwise returns the unique cell positioned at `(x, y)`. -/
theorem C9_getItem_none_iff_out_of_bounds (m : Maze) (hwf : m.WF) (x y : Int) :
    (m.getItem x y = none ↔
      (x < 0 ∨ (m.width : Int) ≤ x ∨ y < 0 ∨ (m.height : Int) ≤ y)) ∧
    (0 ≤ x → x < m.width → 0 ≤ y → y < m.height →
      ∃ c, m.getItem x y = some c ∧ c.x = x ∧ c.y = y ∧
        ∀ c' ∈ m.cells, c'.x = x → c'.y = y → c' = c) := by
  constructor
  · by_cases hin : 0 ≤ x ∧ x < m.width ∧ 0 ≤ y ∧ y < m.height
    · obtain ⟨hi, hsome, -, -⟩ := m.getItem_inBounds hwf hin.1 hin.2.1 hin.2.2.1 hin.2.2.2
      rw [hsome]
      simp only [reduceCtorEq, false_iff]
      omega
    · unfold Maze.getItem
      rw [if_neg hin]
      simp only [true_iff]
      omega
  · intro hx0 hxw hy0 hyh
    obtain ⟨hi, hsome, hcx, hcy⟩ := m.getItem_inBounds hwf hx0 hxw hy0 hyh
    refine ⟨_, hsome, hcx, hcy, ?_⟩
    intro c' hmem hx' hy'
    obtain ⟨⟨j, hj⟩, rfl⟩ := List.mem_iff_get.mp hmem
    obtain ⟨hlen, hpos⟩ := hwf
    have hwpos : 0 < m.width := by
      rcases Nat.eq_zero_or_pos m.width with h0 | h0
      · rw [h0] at hxw; omega
      · exact h0
    -- both indices decode to the same position, hence are equal
    have hx2 := (hpos _ hi).1
    have hy2 := (hpos _ hi).2
    have hx1 := (hpos j hj).1
    have hy1 := (hpos j hj).2
    rw [hx'] at hx1
    rw [hy'] at hy1
    rw [hcx] at hx2
    rw [hcy] at hy2
    have hmod : j % m.width = (x + y * m.width).toNat % m.width := by
      have := hx1.symm.trans hx2
      exact_mod_cast this
    have hdiv : j / m.width = (x + y * m.width).toNat / m.width := by
      have := hy1.symm.trans hy2
      exact_mod_cast this
    have hj_eq : j = (x + y * m.width).toNat := by
      calc j = m.width * (j / m.width) + j % m.width := (Nat.div_add_mod j m.width).symm
      _ = m.width * ((x + y * m.width).toNat / m.width) +
          (x + y * m.width).toNat % m.width := by rw [hdiv, hmod]
      _ = (x + y * m.width).toNat := Nat.div_add_mod _ _
    subst hj_eq
    rfl

theorem C9_witness :
    (initMaze 2 2).WF ∧
    ((initMaze 2 2).getItem 5 0 = none ↔
      ((5 : Int) < 0 ∨ ((initMaze 2 2).width : Int) ≤ 5 ∨ (0 : Int) < 0 ∨
        ((initMaze 2 2).height : Int) ≤ 0)) ∧
    ((0 : Int) ≤ 5 → (5 : Int) < (initMaze 2 2).width → (0 : Int) ≤ 0 →
      (0 : Int) < (initMaze 2 2).height →
      ∃ c, (initMaze 2 2).getItem 5 0 = some c ∧ c.x = 5 ∧ c.y = 0 ∧
        ∀ c' ∈ (initMaze 2 2).cells, c'.x = 5 → c'.y = 0 → c' = c) :=
  ⟨initMaze_WF 2 2,
    C9_getItem_none_iff_out_of_bounds (initMaze 2 2) (initMaze_WF 2 2) 5 0⟩

/-! ## Index/position bookkeeping under WF -/

/-- Manhattan distance between grid positions. -/
def posDist (a b : Int × Int) : Nat := (a.1 - b.1).natAbs + (a.2 - b.2).natAbs

/-- Grid adjacency, spelled out by relative position. -/
theorem posDist_eq_one_iff (a b : Int × Int) :
    posDist a b = 1 ↔
      ((b.1 = a.1 ∧ b.2 = a.2 + 1) ∨ (a.1 = b.1 ∧ a.2 = b.2 + 1) ∨
       (b.1 = a.1 + 1 ∧ b.2 = a.2) ∨ (a.1 = b.1 + 1 ∧ a.2 = b.2)) := by
  unfold posDist
  omega

theorem List.getD_lt {α} (l : List α) (d : α) {i : Nat} (h : i < l.length) :
    l.getD i d = l.get ⟨i, h⟩ := by
  rw [List.getD_eq_getElem?_getD, List.getElem?_eq_getElem h]
  rfl

theorem inGrid_posOfIdx (m : Maze) (hlen : m.cells.length = m.width * m.height)
    {i : Nat} (hi : i < m.cells.length) : m.InGrid (posOfIdx m.width i) := by
  rw [hlen] at hi
  have hw : 0 < m.width := by
    rcases Nat.eq_zero_or_pos m.width with h0 | h0
    · rw [h0] at hi; omega
    · exact h0
  have h1 : i % m.width < m.width := Nat.mod_lt i hw
  have h2 : i / m.width < m.height := Nat.div_lt_of_lt_mul hi
  unfold Maze.InGrid posOfIdx
  dsimp only
  refine ⟨Int.natCast_nonneg _, ?_, Int.natCast_nonneg _, ?_⟩
  · exact_mod_cast h1
  · exact_mod_cast h2

theorem idxOfPos_posOfIdx (w : Nat) (hw : 0 < w) (i : Nat) :
    idxOfPos w (posOfIdx w i) = i := by
  unfold idxOfPos posOfIdx
  have : ((i % w : Nat) : Int) + ((i / w : Nat) : Int) * (w : Int) =
      (((i % w) + (i / w) * w : Nat) : Int) := by push_cast; ring
  rw [this, Int.toNat_natCast]
  rw [Nat.mod_add_div' i w]

theorem posOfIdx_idxOfPos (w : Nat) {p : Int × Int}
    (h1 : 0 ≤ p.1) (h2 : p.1 < w) (h3 : 0 ≤ p.2) :
    posOfIdx w (idxOfPos w p) = p := by
  obtain ⟨nx, hx⟩ : ∃ nx : Nat, p.1 = (nx : Int) := ⟨p.1.toNat, (Int.toNat_of_nonneg h1).symm⟩
  obtain ⟨ny, hy⟩ : ∃ ny : Nat, p.2 = (ny : Int) := ⟨p.2.toNat, (Int.toNat_of_nonneg h3).symm⟩
  have hnx : nx < w := by rw [hx] at h2; exact_mod_cast h2
  have hw : 0 < w := by omega
  unfold idxOfPos posOfIdx
  have : (p.1 + p.2 * (w : Int)).toNat = nx + ny * w := by
    rw [hx, hy]
    exact Int.toNat_natCast _
  rw [this, Nat.add_mul_mod_self_right, Nat.mod_eq_of_lt hnx,
    Nat.add_mul_div_right _ _ hw, Nat.div_eq_of_lt hnx, Nat.zero_add]
  exact Prod.ext hx.symm hy.symm

theorem idxOfPos_lt (m : Maze) (hlen : m.cells.length = m.width * m.height)
    {p : Int × Int} (hp : m.InGrid p) : idxOfPos m.width p < m.cells.length := by
  obtain ⟨h1, h2, h3, h4⟩ := hp
  obtain ⟨nx, hx⟩ : ∃ nx : Nat, p.1 = (nx : Int) := ⟨p.1.toNat, (Int.toNat_of_nonneg h1).symm⟩
  obtain ⟨ny, hy⟩ : ∃ ny : Nat, p.2 = (ny : Int) := ⟨p.2.toNat, (Int.toNat_of_nonneg h3).symm⟩
  have hnx : nx < m.width := by rw [hx] at h2; exact_mod_cast h2
  have hny : ny < m.height := by rw [hy] at h4; exact_mod_cast h4
  have : idxOfPos m.width p = nx + ny * m.width := by
    unfold idxOfPos; rw [hx, hy]; exact Int.toNat_natCast _
  rw [this, hlen]
  calc nx + ny * m.width < m.width + ny * m.width := by omega
  _ = (ny + 1) * m.width := by ring
  _ ≤ m.height * m.width := Nat.mul_le_mul_right m.width hny
  _ = m.width * m.height := Nat.mul_comm m.height m.width

/-- Under `WF` the cell stored at a (valid) flat index carries the decoded
position. -/
theorem WF.get_pos {m : Maze} (hwf : m.WF) {i : Nat} (hi : i < m.cells.length) :
    (m.cells.get ⟨i, hi⟩).x = (posOfIdx m.width i).1 ∧
    (m.cells.get ⟨i, hi⟩).y = (posOfIdx m.width i).2 :=
  hwf.2 i hi

/-- Under `WF`, `wallsAt` at an in-grid position reads the cell at the
corresponding flat index. -/
theorem wallsAt_eq_get (m : Maze) (hwf : m.WF) {p : Int × Int} (hp : m.InGrid p) :
    ∃ hi : idxOfPos m.width p < m.cells.length,
      m.wallsAt p = (m.cells.get ⟨idxOfPos m.width p, hi⟩).walls := by
  obtain ⟨h1, h2, h3, h4⟩ := hp
  obtain ⟨hi, hsome, -, -⟩ := m.getItem_inBounds hwf h1 h2 h3 h4
  refine ⟨hi, ?_⟩
  unfold Maze.wallsAt
  rw [show m.getItem p.1 p.2 = _ from hsome]
  rfl

theorem wallsAt_out (m : Maze) {p : Int × Int} (hp : ¬ m.InGrid p) :
    m.wallsAt p = {N, S, E, W} := by
  unfold Maze.wallsAt Maze.getItem
  rw [if_neg (by exact fun hc => hp ⟨hc.1, hc.2.1, hc.2.2.1, hc.2.2.2⟩)]

/-- A wall set of cardinality 4 is the full wall set. -/
theorem walls_card_four_iff (s : Finset Dir) : s.card = 4 ↔ s = {N, S, E, W} := by
  constructor
  · intro h
    have hs : s = Finset.univ := Finset.eq_univ_of_card s (by rw [h]; decide)
    rw [hs]; decide
  · intro h; rw [h]; decide

theorem is_full_iff (c : Cell) : c.is_full = true ↔ c.walls = {N, S, E, W} := by
  unfold Cell.is_full
  rw [decide_eq_true_eq]
  exact walls_card_four_iff c.walls

/-- Replacing the cell at index `i` by one with the same position keeps `WF`
and changes `wallsAt` only at that cell's position. -/
theorem wallsAt_set (m : Maze) (hwf : m.WF) {i : Nat} (hi : i < m.cells.length)
    (c' : Cell) (hcx : c'.x = (posOfIdx m.width i).1) (hcy : c'.y = (posOfIdx m.width i).2) :
    Maze.WF ⟨m.width, m.height, m.cells.set i c'⟩ ∧
    (∀ q : Int × Int, Maze.wallsAt ⟨m.width, m.height, m.cells.set i c'⟩ q =
      if q = posOfIdx m.width i then c'.walls else m.wallsAt q) := by
  have hlen : (m.cells.set i c').length = m.cells.length := List.length_set m.cells i c'
  have hwf' : Maze.WF ⟨m.width, m.height, m.cells.set i c'⟩ := by
    refine ⟨by rw [hlen]; exact hwf.1, ?_⟩
    intro j hj
    have hj' : j < m.cells.length := by rwa [hlen] at hj
    by_cases hij : i = j
    · subst hij
      simp only [List.get_eq_getElem, List.getElem_set_self, hcx, hcy]
      exact ⟨rfl, rfl⟩
    · simp only [List.get_eq_getElem, List.getElem_set_ne hij]
      exact hwf.2 j hj'
  refine ⟨hwf', ?_⟩
  intro q
  by_cases hq : Maze.InGrid ⟨m.width, m.height, m.cells.set i c'⟩ q
  · have hqm : m.InGrid q := hq
    obtain ⟨hj', heq'⟩ := wallsAt_eq_get _ hwf' hq
    obtain ⟨hj, heq⟩ := wallsAt_eq_get m hwf hqm
    rw [heq', heq]
    have hw : 0 < m.width := by
      obtain ⟨hq1, hq2, -, -⟩ := hqm
      rcases Nat.eq_zero_or_pos m.width with h0 | h0
      · exfalso; rw [h0] at hq2; omega
      · exact h0
    by_cases hqi : q = posOfIdx m.width i
    · rw [if_pos hqi]
      have : idxOfPos m.width q = i := by rw [hqi, idxOfPos_posOfIdx m.width hw]
      simp only [List.get_eq_getElem]
      rw [List.getElem_set]
      rw [if_pos this.symm]
    · rw [if_neg hqi]
      have hne : idxOfPos m.width q ≠ i := by
        intro hcon
        apply hqi
        have := posOfIdx_idxOfPos m.width hqm.1 hqm.2.1 hqm.2.2.1
        rw [hcon] at this
        exact this.symm
      simp only [List.get_eq_getElem]
      rw [List.getElem_set_ne (fun hcon => hne hcon.symm)]
  · have hqm : ¬ m.InGrid q := hq
    rw [wallsAt_out _ hq, wallsAt_out m hqm]
    have : q ≠ posOfIdx m.width i := by
      intro hcon
      exact hqm (hcon ▸ inGrid_posOfIdx m hwf.1 hi)
    rw [if_neg this]

/-! ## The effect of one `connect` on a well-formed maze -/

/-- Removing walls can only open passages, never close them. -/
theorem openBetween_mono {m m' : Maze}
    (hsub : ∀ r d, d ∈ m'.wallsAt r → d ∈ m.wallsAt r)
    {a b : Int × Int} (h : openBetween m a b) : openBetween m' a b := by
  unfold openBetween at h ⊢
  rcases h with ⟨h1, h2, h3⟩ | ⟨h1, h2, h3⟩ | ⟨h1, h2, h3⟩ | ⟨h1, h2, h3⟩
  · exact Or.inl ⟨h1, fun hc => h2 (hsub _ _ hc), fun hc => h3 (hsub _ _ hc)⟩
  · exact Or.inr (Or.inl ⟨h1, fun hc => h2 (hsub _ _ hc), fun hc => h3 (hsub _ _ hc)⟩)
  · exact Or.inr (Or.inr (Or.inl ⟨h1, fun hc => h2 (hsub _ _ hc), fun hc => h3 (hsub _ _ hc)⟩))
  · exact Or.inr (Or.inr (Or.inr ⟨h1, fun hc => h2 (hsub _ _ hc), fun hc => h3 (hsub _ _ hc)⟩))

/-- A full cell has no open passage on any side. -/
theorem not_open_of_full {m : Maze} {q : Int × Int}
    (hfull : m.wallsAt q = {N, S, E, W}) (a : Int × Int) :
    ¬ openBetween m a q ∧ ¬ openBetween m q a := by
  constructor
  · rintro (⟨-, -, hc⟩ | ⟨-, hc, -⟩ | ⟨-, -, hc⟩ | ⟨-, hc, -⟩) <;>
      (rw [hfull] at hc; exact hc (by decide))
  · rintro (⟨-, hc, -⟩ | ⟨-, -, hc⟩ | ⟨-, hc, -⟩ | ⟨-, -, hc⟩) <;>
      (rw [hfull] at hc; exact hc (by decide))

/-- Everything a single successful `connect` guarantees about the maze:
dimensions and well-formedness kept, walls only shrink and only at the two
cells, both cells now non-full, exactly the one mutual passage opened,
symmetry and the boundary kept, and one more removed wall pair. -/
def ConnSpec (m m' : Maze) (pi pj : Int × Int) : Prop :=
  m'.width = m.width ∧ m'.height = m.height ∧ m'.WF ∧
  (∀ r d, d ∈ m'.wallsAt r → d ∈ m.wallsAt r) ∧
  (∀ r, r ≠ pi → r ≠ pj → m'.wallsAt r = m.wallsAt r) ∧
  m'.wallsAt pi ≠ {N, S, E, W} ∧ m'.wallsAt pj ≠ {N, S, E, W} ∧
  openBetween m' pi pj ∧
  (∀ a b, openBetween m a b → openBetween m' a b) ∧
  (∀ a b, openBetween m' a b →
    openBetween m a b ∨ (a = pi ∧ b = pj) ∨ (a = pj ∧ b = pi)) ∧
  m'.SymWalls ∧ (m.Boundary → m'.Boundary) ∧
  m'.openPairs.card = m.openPairs.card + 1

/-- `openPairs` after opening exactly one new passage `e`. -/
theorem openPairs_card_succ (m m' : Maze) (hW : m'.width = m.width)
    (hH : m'.height = m.height) (e : (Int × Int) × Bool)
    (hbase : e.1 ∈ gridFinset m.width m.height)
    (hpred : ∀ q : (Int × Int) × Bool,
      (if q.2 then openBetween m' q.1 (q.1.1, q.1.2 + 1)
       else openBetween m' q.1 (q.1.1 + 1, q.1.2)) ↔
      ((if q.2 then openBetween m q.1 (q.1.1, q.1.2 + 1)
        else openBetween m q.1 (q.1.1 + 1, q.1.2)) ∨ q = e))
    (hnot : ¬ (if e.2 then openBetween m e.1 (e.1.1, e.1.2 + 1)
               else openBetween m e.1 (e.1.1 + 1, e.1.2))) :
    m'.openPairs.card = m.openPairs.card + 1 := by
  have hset : m'.openPairs = insert e m.openPairs := by
    unfold Maze.openPairs
    rw [hW, hH]
    ext q
    rw [Finset.mem_filter, Finset.mem_insert, Finset.mem_filter, hpred q]
    constructor
    · rintro ⟨hq, hP | rfl⟩
      · exact Or.inr ⟨hq, hP⟩
      · exact Or.inl rfl
    · rintro (rfl | ⟨hq, hP⟩)
      · refine ⟨?_, Or.inr rfl⟩
        rw [Finset.mem_product]
        refine ⟨hbase, ?_⟩
        rcases q.2 with _ | _ <;> simp
      · exact ⟨hq, Or.inl hP⟩
  have hmem : e ∉ m.openPairs := by
    intro hc
    unfold Maze.openPairs at hc
    rw [Finset.mem_filter] at hc
    exact hnot hc.2
  rw [hset, Finset.card_insert_of_not_mem hmem]

theorem openBetween_symm (m : Maze) (a b : Int × Int) :
    openBetween m a b ↔ openBetween m b a := by
  unfold openBetween
  constructor
  · rintro (h | h | h | h)
    exacts [Or.inr (Or.inl h), Or.inl h, Or.inr (Or.inr (Or.inr h)),
      Or.inr (Or.inr (Or.inl h))]
  · rintro (h | h | h | h)
    exacts [Or.inr (Or.inl h), Or.inl h, Or.inr (Or.inr (Or.inr h)),
      Or.inr (Or.inr (Or.inl h))]

theorem ConnSpec_swap {m m' : Maze} {a b : Int × Int} (h : ConnSpec m m' a b) :
    ConnSpec m m' b a := by
  obtain ⟨h1, h2, h3, h4, h5, h6, h7, h8, h9, h10, h11, h12, h13⟩ := h
  refine ⟨h1, h2, h3, h4, fun r hr1 hr2 => h5 r hr2 hr1, h7, h6,
    (openBetween_symm m' b a).mpr h8, h9, ?_, h11, h12, h13⟩
  intro x y hxy
  rcases h10 x y hxy with hold | ⟨hx, hy⟩ | ⟨hx, hy⟩
  · exact Or.inl hold
  · exact Or.inr (Or.inr ⟨hx, hy⟩)
  · exact Or.inr (Or.inl ⟨hx, hy⟩)

/-- All of `ConnSpec` from the canonical walls description of a vertical
connect: the upper cell `u` lost its `S` wall, the cell below it lost its
`N` wall, and one of the two was full before. -/
theorem connSpec_vert (m m2 : Maze) (hsym : m.SymWalls) (u : Int × Int)
    (hu : m.InGrid u) (hl : m.InGrid (u.1, u.2 + 1))
    (hWd : m2.width = m.width) (hHt : m2.height = m.height) (hwf2 : m2.WF)
    (hfulls : m.wallsAt u = {N, S, E, W} ∨ m.wallsAt (u.1, u.2 + 1) = {N, S, E, W})
    (hwalls : ∀ r : Int × Int, m2.wallsAt r =
      if r = u then (m.wallsAt u).erase S
      else if r = (u.1, u.2 + 1) then (m.wallsAt (u.1, u.2 + 1)).erase N
      else m.wallsAt r) :
    ConnSpec m m2 u (u.1, u.2 + 1) := by
  have hul : u ≠ (u.1, u.2 + 1) := by
    intro hc
    have h2 := congrArg Prod.snd hc
    simp only at h2
    omega
  have hSu : S ∈ m.wallsAt u := by
    rcases hfulls with hf | hf
    · rw [hf]; decide
    · exact ((hsym u hu).1 hl).mpr (by rw [hf]; decide)
  have hNl : N ∈ m.wallsAt (u.1, u.2 + 1) := by
    rcases hfulls with hf | hf
    · exact ((hsym u hu).1 hl).mp (by rw [hf]; decide)
    · rw [hf]; decide
  -- membership characterizations
  have hS : ∀ r, S ∈ m2.wallsAt r ↔ (S ∈ m.wallsAt r ∧ r ≠ u) := by
    intro r
    rw [hwalls r]
    by_cases h1 : r = u
    · subst h1
      rw [if_pos rfl, Finset.mem_erase]
      simp
    · rw [if_neg h1]
      by_cases h2 : r = (u.1, u.2 + 1)
      · subst h2
        rw [if_pos rfl, Finset.mem_erase]
        constructor
        · rintro ⟨-, hm⟩; exact ⟨hm, h1⟩
        · rintro ⟨hm, -⟩; exact ⟨by decide, hm⟩
      · rw [if_neg h2]
        constructor
        · intro hm; exact ⟨hm, h1⟩
        · rintro ⟨hm, -⟩; exact hm
  have hN : ∀ r, N ∈ m2.wallsAt r ↔ (N ∈ m.wallsAt r ∧ r ≠ (u.1, u.2 + 1)) := by
    intro r
    rw [hwalls r]
    by_cases h1 : r = u
    · subst h1
      rw [if_pos rfl, Finset.mem_erase]
      constructor
      · rintro ⟨-, hm⟩; exact ⟨hm, hul⟩
      · rintro ⟨hm, -⟩; exact ⟨by decide, hm⟩
    · rw [if_neg h1]
      by_cases h2 : r = (u.1, u.2 + 1)
      · subst h2
        rw [if_pos rfl, Finset.mem_erase]
        simp
      · rw [if_neg h2]
        constructor
        · intro hm; exact ⟨hm, h2⟩
        · rintro ⟨hm, -⟩; exact hm
  have hE : ∀ r, E ∈ m2.wallsAt r ↔ E ∈ m.wallsAt r := by
    intro r
    rw [hwalls r]
    by_cases h1 : r = u
    · subst h1; rw [if_pos rfl, Finset.mem_erase]
      constructor
      · rintro ⟨-, hm⟩; exact hm
      · intro hm; exact ⟨by decide, hm⟩
    · rw [if_neg h1]
      by_cases h2 : r = (u.1, u.2 + 1)
      · subst h2; rw [if_pos rfl, Finset.mem_erase]
        constructor
        · rintro ⟨-, hm⟩; exact hm
        · intro hm; exact ⟨by decide, hm⟩
      · rw [if_neg h2]
  have hWc : ∀ r, W ∈ m2.wallsAt r ↔ W ∈ m.wallsAt r := by
    intro r
    rw [hwalls r]
    by_cases h1 : r = u
    · subst h1; rw [if_pos rfl, Finset.mem_erase]
      constructor
      · rintro ⟨-, hm⟩; exact hm
      · intro hm; exact ⟨by decide, hm⟩
    · rw [if_neg h1]
      by_cases h2 : r = (u.1, u.2 + 1)
      · subst h2; rw [if_pos rfl, Finset.mem_erase]
        constructor
        · rintro ⟨-, hm⟩; exact hm
        · intro hm; exact ⟨by decide, hm⟩
      · rw [if_neg h2]
  have hsub : ∀ r d, d ∈ m2.wallsAt r → d ∈ m.wallsAt r := by
    intro r d hm
    cases d
    · exact ((hN r).mp hm).1
    · exact ((hS r).mp hm).1
    · exact (hWc r).mp hm
    · exact (hE r).mp hm
  have hframe : ∀ r, r ≠ u → r ≠ (u.1, u.2 + 1) → m2.wallsAt r = m.wallsAt r := by
    intro r h1 h2
    rw [hwalls r, if_neg h1, if_neg h2]
  have hNonfull_u : m2.wallsAt u ≠ {N, S, E, W} := by
    intro hc
    have : S ∈ m2.wallsAt u := by rw [hc]; decide
    exact (((hS u).mp this).2) rfl
  have hNonfull_l : m2.wallsAt (u.1, u.2 + 1) ≠ {N, S, E, W} := by
    intro hc
    have : N ∈ m2.wallsAt (u.1, u.2 + 1) := by rw [hc]; decide
    exact (((hN _).mp this).2) rfl
  have hopen : openBetween m2 u (u.1, u.2 + 1) := by
    refine Or.inl ⟨rfl, ?_, ?_⟩
    · intro hc; exact (((hS u).mp hc).2) rfl
    · intro hc; exact (((hN _).mp hc).2) rfl
  have hmono : ∀ a b, openBetween m a b → openBetween m2 a b :=
    fun a b h => openBetween_mono hsub h
  -- the key geometric fact: the south-neighbor map is injective
  have hgeom : ∀ r : Int × Int, (r.1, r.2 + 1) = ((u.1, u.2 + 1) : Int × Int) ↔ r = u := by
    intro r
    constructor
    · intro hc
      have h1 := congrArg Prod.fst hc
      have h2 := congrArg Prod.snd hc
      simp only at h1 h2
      exact Prod.ext h1 (by omega)
    · intro hc; rw [hc]
  have hfwd : ∀ a b, openBetween m2 a b →
      openBetween m a b ∨ (a = u ∧ b = (u.1, u.2 + 1)) ∨ (a = (u.1, u.2 + 1) ∧ b = u) := by
    intro a b hab
    rcases hab with ⟨hba, hSa, hNb⟩ | ⟨hab2, hSb, hNa⟩ | ⟨hba, hEa, hWb⟩ | ⟨hab2, hEb, hWa⟩
    · by_cases hau : a = u
      · subst hau
        exact Or.inr (Or.inl ⟨rfl, hba⟩)
      · have hSa' : S ∉ m.wallsAt a := fun hc => hSa ((hS a).mpr ⟨hc, hau⟩)
        by_cases hbl : b = (u.1, u.2 + 1)
        · exfalso
          apply hau
          rw [hbl] at hba
          exact (hgeom a).mp hba.symm
        · have hNb' : N ∉ m.wallsAt b := fun hc => hNb ((hN b).mpr ⟨hc, hbl⟩)
          exact Or.inl (Or.inl ⟨hba, hSa', hNb'⟩)
    · by_cases hbu : b = u
      · subst hbu
        exact Or.inr (Or.inr ⟨hab2, rfl⟩)
      · have hSb' : S ∉ m.wallsAt b := fun hc => hSb ((hS b).mpr ⟨hc, hbu⟩)
        by_cases hal : a = (u.1, u.2 + 1)
        · exfalso
          apply hbu
          rw [hal] at hab2
          exact (hgeom b).mp hab2.symm
        · have hNa' : N ∉ m.wallsAt a := fun hc => hNa ((hN a).mpr ⟨hc, hal⟩)
          exact Or.inl (Or.inr (Or.inl ⟨hab2, hSb', hNa'⟩))
    · refine Or.inl (Or.inr (Or.inr (Or.inl ⟨hba, ?_, ?_⟩)))
      · exact fun hc => hEa ((hE a).mpr hc)
      · exact fun hc => hWb ((hWc b).mpr hc)
    · refine Or.inl (Or.inr (Or.inr (Or.inr ⟨hab2, ?_, ?_⟩)))
      · exact fun hc => hEb ((hE b).mpr hc)
      · exact fun hc => hWa ((hWc a).mpr hc)
  have hsym2 : m2.SymWalls := by
    intro r hr
    have hrm : m.InGrid r := by
      obtain ⟨a1, a2, a3, a4⟩ := hr
      rw [hWd] at a2
      rw [hHt] at a4
      exact ⟨a1, a2, a3, a4⟩
    constructor
    · intro hsr
      have hsrm : m.InGrid (r.1, r.2 + 1) := by
        obtain ⟨a1, a2, a3, a4⟩ := hsr
        rw [hWd] at a2
        rw [hHt] at a4
        exact ⟨a1, a2, a3, a4⟩
      rw [hS r, hN (r.1, r.2 + 1)]
      have hold := (hsym r hrm).1 hsrm
      constructor
      · rintro ⟨hm, hru⟩
        exact ⟨hold.mp hm, fun hc => hru ((hgeom r).mp hc)⟩
      · rintro ⟨hm, hrl⟩
        exact ⟨hold.mpr hm, fun hc => hrl ((hgeom r).mpr hc)⟩
    · intro hsr
      have hsrm : m.InGrid (r.1 + 1, r.2) := by
        obtain ⟨a1, a2, a3, a4⟩ := hsr
        rw [hWd] at a2
        rw [hHt] at a4
        exact ⟨a1, a2, a3, a4⟩
      rw [hE r, hWc (r.1 + 1, r.2)]
      exact (hsym r hrm).2 hsrm
  have hbound : m.Boundary → m2.Boundary := by
    intro hbd r hr
    have hrm : m.InGrid r := by
      obtain ⟨a1, a2, a3, a4⟩ := hr
      rw [hWd] at a2
      rw [hHt] at a4
      exact ⟨a1, a2, a3, a4⟩
    obtain ⟨b1, b2, b3, b4⟩ := hbd r hrm
    refine ⟨?_, ?_, ?_, ?_⟩
    · intro h0
      rw [hN r]
      refine ⟨b1 h0, ?_⟩
      intro hc
      have := congrArg Prod.snd hc
      simp only at this
      obtain ⟨-, -, h3, -⟩ := hu
      omega
    · intro h0
      rw [hHt] at h0
      rw [hS r]
      refine ⟨b2 h0, ?_⟩
      intro hc
      subst hc
      obtain ⟨-, -, -, h4⟩ := hl
      simp only at h4
      omega
    · intro h0
      rw [hWc r]
      exact b3 h0
    · intro h0
      rw [hWd] at h0
      rw [hE r]
      exact b4 h0
  have hcount : m2.openPairs.card = m.openPairs.card + 1 := by
    apply openPairs_card_succ m m2 hWd hHt (u, true)
    · rw [gridFinset, Finset.mem_product, Finset.mem_Ico, Finset.mem_Ico]
      obtain ⟨a1, a2, a3, a4⟩ := hu
      exact ⟨⟨a1, a2⟩, ⟨a3, a4⟩⟩
    · rintro ⟨r, bb⟩
      cases bb
      · show openBetween m2 r (r.1 + 1, r.2) ↔
          (openBetween m r (r.1 + 1, r.2) ∨ ((r, false) : (Int × Int) × Bool) = (u, true))
        constructor
        · intro hop
          rcases hfwd _ _ hop with hold | ⟨hr, hc⟩ | ⟨hr, hc⟩
          · exact Or.inl hold
          · exfalso
            have h1 := congrArg Prod.fst hc
            have h2 := congrArg Prod.snd hc
            subst hr
            simp only at h1 h2
            omega
          · exfalso
            subst hr
            have h1 := congrArg Prod.fst hc
            have h2 := congrArg Prod.snd hc
            simp only at h1 h2
            omega
        · rintro (hold | hc)
          · exact hmono _ _ hold
          · exact absurd (congrArg Prod.snd hc) (show ¬(false = true) by decide)
      · show openBetween m2 r (r.1, r.2 + 1) ↔
          (openBetween m r (r.1, r.2 + 1) ∨ ((r, true) : (Int × Int) × Bool) = (u, true))
        constructor
        · intro hop
          rcases hfwd _ _ hop with hold | ⟨hr, -⟩ | ⟨hr, hc⟩
          · exact Or.inl hold
          · subst hr; exact Or.inr rfl
          · exfalso
            subst hr
            have h2 := congrArg Prod.snd hc
            simp only at h2
            omega
        · rintro (hold | hc)
          · exact hmono _ _ hold
          · have hr : r = u := congrArg Prod.fst hc
            subst hr
            exact hopen
    · show ¬ openBetween m u (u.1, u.2 + 1)
      rcases hfulls with hf | hf
      · exact (not_open_of_full hf (u.1, u.2 + 1)).2
      · exact (not_open_of_full hf u).1
  exact ⟨hWd, hHt, hwf2, hsub, hframe, hNonfull_u, hNonfull_l, hopen, hmono, hfwd,
    hsym2, hbound, hcount⟩

/-- The horizontal analogue of `connSpec_vert`: the left cell `u` lost its
`E` wall, the cell to its right lost its `W` wall. -/
theorem connSpec_horiz (m m2 : Maze) (hsym : m.SymWalls) (u : Int × Int)
    (hu : m.InGrid u) (hl : m.InGrid (u.1 + 1, u.2))
    (hWd : m2.width = m.width) (hHt : m2.height = m.height) (hwf2 : m2.WF)
    (hfulls : m.wallsAt u = {N, S, E, W} ∨ m.wallsAt (u.1 + 1, u.2) = {N, S, E, W})
    (hwalls : ∀ r : Int × Int, m2.wallsAt r =
      if r = u then (m.wallsAt u).erase E
      else if r = (u.1 + 1, u.2) then (m.wallsAt (u.1 + 1, u.2)).erase W
      else m.wallsAt r) :
    ConnSpec m m2 u (u.1 + 1, u.2) := by
  have hul : u ≠ (u.1 + 1, u.2) := by
    intro hc
    have h2 := congrArg Prod.fst hc
    simp only at h2
    omega
  have hEu : E ∈ m.wallsAt u := by
    rcases hfulls with hf | hf
    · rw [hf]; decide
    · exact ((hsym u hu).2 hl).mpr (by rw [hf]; decide)
  have hWl : W ∈ m.wallsAt (u.1 + 1, u.2) := by
    rcases hfulls with hf | hf
    · exact ((hsym u hu).2 hl).mp (by rw [hf]; decide)
    · rw [hf]; decide
  have hEm : ∀ r, E ∈ m2.wallsAt r ↔ (E ∈ m.wallsAt r ∧ r ≠ u) := by
    intro r
    rw [hwalls r]
    by_cases h1 : r = u
    · subst h1
      rw [if_pos rfl, Finset.mem_erase]
      simp
    · rw [if_neg h1]
      by_cases h2 : r = (u.1 + 1, u.2)
      · subst h2
        rw [if_pos rfl, Finset.mem_erase]
        constructor
        · rintro ⟨-, hm⟩; exact ⟨hm, h1⟩
        · rintro ⟨hm, -⟩; exact ⟨by decide, hm⟩
      · rw [if_neg h2]
        constructor
        · intro hm; exact ⟨hm, h1⟩
        · rintro ⟨hm, -⟩; exact hm
  have hWm : ∀ r, W ∈ m2.wallsAt r ↔ (W ∈ m.wallsAt r ∧ r ≠ (u.1 + 1, u.2)) := by
    intro r
    rw [hwalls r]
    by_cases h1 : r = u
    · subst h1
      rw [if_pos rfl, Finset.mem_erase]
      constructor
      · rintro ⟨-, hm⟩; exact ⟨hm, hul⟩
      · rintro ⟨hm, -⟩; exact ⟨by decide, hm⟩
    · rw [if_neg h1]
      by_cases h2 : r = (u.1 + 1, u.2)
      · subst h2
        rw [if_pos rfl, Finset.mem_erase]
        simp
      · rw [if_neg h2]
        constructor
        · intro hm; exact ⟨hm, h2⟩
        · rintro ⟨hm, -⟩; exact hm
  have hNm : ∀ r, N ∈ m2.wallsAt r ↔ N ∈ m.wallsAt r := by
    intro r
    rw [hwalls r]
    by_cases h1 : r = u
    · subst h1; rw [if_pos rfl, Finset.mem_erase]
      constructor
      · rintro ⟨-, hm⟩; exact hm
      · intro hm; exact ⟨by decide, hm⟩
    · rw [if_neg h1]
      by_cases h2 : r = (u.1 + 1, u.2)
      · subst h2; rw [if_pos rfl, Finset.mem_erase]
        constructor
        · rintro ⟨-, hm⟩; exact hm
        · intro hm; exact ⟨by decide, hm⟩
      · rw [if_neg h2]
  have hSm : ∀ r, S ∈ m2.wallsAt r ↔ S ∈ m.wallsAt r := by
    intro r
    rw [hwalls r]
    by_cases h1 : r = u
    · subst h1; rw [if_pos rfl, Finset.mem_erase]
      constructor
      · rintro ⟨-, hm⟩; exact hm
      · intro hm; exact ⟨by decide, hm⟩
    · rw [if_neg h1]
      by_cases h2 : r = (u.1 + 1, u.2)
      · subst h2; rw [if_pos rfl, Finset.mem_erase]
        constructor
        · rintro ⟨-, hm⟩; exact hm
        · intro hm; exact ⟨by decide, hm⟩
      · rw [if_neg h2]
  have hsub : ∀ r d, d ∈ m2.wallsAt r → d ∈ m.wallsAt r := by
    intro r d hm
    cases d
    · exact (hNm r).mp hm
    · exact (hSm r).mp hm
    · exact ((hWm r).mp hm).1
    · exact ((hEm r).mp hm).1
  have hframe : ∀ r, r ≠ u → r ≠ (u.1 + 1, u.2) → m2.wallsAt r = m.wallsAt r := by
    intro r h1 h2
    rw [hwalls r, if_neg h1, if_neg h2]
  have hNonfull_u : m2.wallsAt u ≠ {N, S, E, W} := by
    intro hc
    have : E ∈ m2.wallsAt u := by rw [hc]; decide
    exact (((hEm u).mp this).2) rfl
  have hNonfull_l : m2.wallsAt (u.1 + 1, u.2) ≠ {N, S, E, W} := by
    intro hc
    have : W ∈ m2.wallsAt (u.1 + 1, u.2) := by rw [hc]; decide
    exact (((hWm _).mp this).2) rfl
  have hopen : openBetween m2 u (u.1 + 1, u.2) := by
    refine Or.inr (Or.inr (Or.inl ⟨rfl, ?_, ?_⟩))
    · intro hc; exact (((hEm u).mp hc).2) rfl
    · intro hc; exact (((hWm _).mp hc).2) rfl
  have hmono : ∀ a b, openBetween m a b → openBetween m2 a b :=
    fun a b h => openBetween_mono hsub h
  have hgeom : ∀ r : Int × Int, (r.1 + 1, r.2) = ((u.1 + 1, u.2) : Int × Int) ↔ r = u := by
    intro r
    constructor
    · intro hc
      have h1 := congrArg Prod.fst hc
      have h2 := congrArg Prod.snd hc
      simp only at h1 h2
      exact Prod.ext (by omega) h2
    · intro hc; rw [hc]
  have hfwd : ∀ a b, openBetween m2 a b →
      openBetween m a b ∨ (a = u ∧ b = (u.1 + 1, u.2)) ∨ (a = (u.1 + 1, u.2) ∧ b = u) := by
    intro a b hab
    rcases hab with ⟨hba, hSa, hNb⟩ | ⟨hab2, hSb, hNa⟩ | ⟨hba, hEa, hWb⟩ | ⟨hab2, hEb, hWa⟩
    · refine Or.inl (Or.inl ⟨hba, ?_, ?_⟩)
      · exact fun hc => hSa ((hSm a).mpr hc)
      · exact fun hc => hNb ((hNm b).mpr hc)
    · refine Or.inl (Or.inr (Or.inl ⟨hab2, ?_, ?_⟩))
      · exact fun hc => hSb ((hSm b).mpr hc)
      · exact fun hc => hNa ((hNm a).mpr hc)
    · by_cases hau : a = u
      · subst hau
        exact Or.inr (Or.inl ⟨rfl, hba⟩)
      · have hEa' : E ∉ m.wallsAt a := fun hc => hEa ((hEm a).mpr ⟨hc, hau⟩)
        by_cases hbl : b = (u.1 + 1, u.2)
        · exfalso
          apply hau
          rw [hbl] at hba
          exact (hgeom a).mp hba.symm
        · have hWb' : W ∉ m.wallsAt b := fun hc => hWb ((hWm b).mpr ⟨hc, hbl⟩)
          exact Or.inl (Or.inr (Or.inr (Or.inl ⟨hba, hEa', hWb'⟩)))
    · by_cases hbu : b = u
      · subst hbu
        exact Or.inr (Or.inr ⟨hab2, rfl⟩)
      · have hEb' : E ∉ m.wallsAt b := fun hc => hEb ((hEm b).mpr ⟨hc, hbu⟩)
        by_cases hal : a = (u.1 + 1, u.2)
        · exfalso
          apply hbu
          rw [hal] at hab2
          exact (hgeom b).mp hab2.symm
        · have hWa' : W ∉ m.wallsAt a := fun hc => hWa ((hWm a).mpr ⟨hc, hal⟩)
          exact Or.inl (Or.inr (Or.inr (Or.inr ⟨hab2, hEb', hWa'⟩)))
  have hsym2 : m2.SymWalls := by
    intro r hr
    have hrm : m.InGrid r := by
      obtain ⟨a1, a2, a3, a4⟩ := hr
      rw [hWd] at a2
      rw [hHt] at a4
      exact ⟨a1, a2, a3, a4⟩
    constructor
    · intro hsr
      have hsrm : m.InGrid (r.1, r.2 + 1) := by
        obtain ⟨a1, a2, a3, a4⟩ := hsr
        rw [hWd] at a2
        rw [hHt] at a4
        exact ⟨a1, a2, a3, a4⟩
      rw [hSm r, hNm (r.1, r.2 + 1)]
      exact (hsym r hrm).1 hsrm
    · intro hsr
      have hsrm : m.InGrid (r.1 + 1, r.2) := by
        obtain ⟨a1, a2, a3, a4⟩ := hsr
        rw [hWd] at a2
        rw [hHt] at a4
        exact ⟨a1, a2, a3, a4⟩
      rw [hEm r, hWm (r.1 + 1, r.2)]
      have hold := (hsym r hrm).2 hsrm
      constructor
      · rintro ⟨hm, hru⟩
        exact ⟨hold.mp hm, fun hc => hru ((hgeom r).mp hc)⟩
      · rintro ⟨hm, hrl⟩
        exact ⟨hold.mpr hm, fun hc => hrl ((hgeom r).mpr hc)⟩
  have hbound : m.Boundary → m2.Boundary := by
    intro hbd r hr
    have hrm : m.InGrid r := by
      obtain ⟨a1, a2, a3, a4⟩ := hr
      rw [hWd] at a2
      rw [hHt] at a4
      exact ⟨a1, a2, a3, a4⟩
    obtain ⟨b1, b2, b3, b4⟩ := hbd r hrm
    refine ⟨?_, ?_, ?_, ?_⟩
    · intro h0
      rw [hNm r]
      exact b1 h0
    · intro h0
      rw [hHt] at h0
      rw [hSm r]
      exact b2 h0
    · intro h0
      rw [hWm r]
      refine ⟨b3 h0, ?_⟩
      intro hc
      have := congrArg Prod.fst hc
      simp only at this
      obtain ⟨h1, -, -, -⟩ := hu
      omega
    · intro h0
      rw [hWd] at h0
      rw [hEm r]
      refine ⟨b4 h0, ?_⟩
      intro hc
      subst hc
      obtain ⟨-, h2, -, -⟩ := hl
      simp only at h2
      omega
  have hcount : m2.openPairs.card = m.openPairs.card + 1 := by
    apply openPairs_card_succ m m2 hWd hHt (u, false)
    · rw [gridFinset, Finset.mem_product, Finset.mem_Ico, Finset.mem_Ico]
      obtain ⟨a1, a2, a3, a4⟩ := hu
      exact ⟨⟨a1, a2⟩, ⟨a3, a4⟩⟩
    · rintro ⟨r, bb⟩
      cases bb
      · show openBetween m2 r (r.1 + 1, r.2) ↔
          (openBetween m r (r.1 + 1, r.2) ∨ ((r, false) : (Int × Int) × Bool) = (u, false))
        constructor
        · intro hop
          rcases hfwd _ _ hop with hold | ⟨hr, -⟩ | ⟨hr, hc⟩
          · exact Or.inl hold
          · subst hr; exact Or.inr rfl
          · exfalso
            subst hr
            have h1 := congrArg Prod.fst hc
            simp only at h1
            omega
        · rintro (hold | hc)
          · exact hmono _ _ hold
          · have hr : r = u := congrArg Prod.fst hc
            subst hr
            exact hopen
      · show openBetween m2 r (r.1, r.2 + 1) ↔
          (openBetween m r (r.1, r.2 + 1) ∨ ((r, true) : (Int × Int) × Bool) = (u, false))
        constructor
        · intro hop
          rcases hfwd _ _ hop with hold | ⟨hr, hc⟩ | ⟨hr, hc⟩
          · exact Or.inl hold
          · exfalso
            subst hr
            have h2 := congrArg Prod.snd hc
            simp only at h2
            omega
          · exfalso
            subst hr
            have h2 := congrArg Prod.snd hc
            simp only at h2
            omega
        · rintro (hold | hc)
          · exact hmono _ _ hold
          · exact absurd (congrArg Prod.snd hc) (show ¬(true = false) by decide)
    · show ¬ openBetween m u (u.1 + 1, u.2)
      rcases hfulls with hf | hf
      · exact (not_open_of_full hf (u.1 + 1, u.2)).2
      · exact (not_open_of_full hf u).1
  exact ⟨hWd, hHt, hwf2, hsub, hframe, hNonfull_u, hNonfull_l, hopen, hmono, hfwd,
    hsym2, hbound, hcount⟩
theorem connectIdx_spec_south (m : Maze) (hwf : m.WF) (hsym : m.SymWalls)
    {p q : Int × Int} (hp : m.InGrid p) (hq : m.InGrid q)
    (hrel : q = (p.1, p.2 + 1))
    (hfull : m.wallsAt q = {N, S, E, W}) :
    ∃ m', m.connectIdx (idxOfPos m.width p) (idxOfPos m.width q) = .ok m' ∧
      ConnSpec m m' p q := by
  subst hrel
  obtain ⟨hp1, hp2, hp3, hp4⟩ := hp
  obtain ⟨hq1, hq2, hq3, hq4⟩ := hq
  have hp' : m.InGrid p := ⟨hp1, hp2, hp3, hp4⟩
  have hq' : m.InGrid (p.1, p.2 + 1) := ⟨hq1, hq2, hq3, hq4⟩
  have hpq : p ≠ (p.1, p.2 + 1) := by
    intro hc
    have := congrArg Prod.snd hc
    simp only at this
    omega
  have hpi_pos : posOfIdx m.width (idxOfPos m.width p) = p :=
    posOfIdx_idxOfPos m.width hp1 hp2 hp3
  have hqi_pos : posOfIdx m.width (idxOfPos m.width (p.1, p.2 + 1)) = (p.1, p.2 + 1) :=
    posOfIdx_idxOfPos m.width hq1 hq2 hq3
  obtain ⟨hi, hwi⟩ := wallsAt_eq_get m hwf hp'
  obtain ⟨hj, hwj⟩ := wallsAt_eq_get m hwf hq'
  have hcix : (m.cells.get ⟨idxOfPos m.width p, hi⟩).x = p.1 := by
    rw [(hwf.2 _ hi).1]
    exact congrArg Prod.fst hpi_pos
  have hciy : (m.cells.get ⟨idxOfPos m.width p, hi⟩).y = p.2 := by
    rw [(hwf.2 _ hi).2]
    exact congrArg Prod.snd hpi_pos
  have hcjx : (m.cells.get ⟨idxOfPos m.width (p.1, p.2 + 1), hj⟩).x = p.1 := by
    rw [(hwf.2 _ hj).1]
    exact congrArg Prod.fst hqi_pos
  have hcjy : (m.cells.get ⟨idxOfPos m.width (p.1, p.2 + 1), hj⟩).y = p.2 + 1 := by
    rw [(hwf.2 _ hj).2]
    exact congrArg Prod.snd hqi_pos
  have hcjw : (m.cells.get ⟨idxOfPos m.width (p.1, p.2 + 1), hj⟩).walls = {N, S, E, W} :=
    hwj.symm.trans hfull
  -- the two `_wall_to` computations
  have hd1 : (m.cells.get ⟨idxOfPos m.width (p.1, p.2 + 1), hj⟩).wall_to
      (m.cells.get ⟨idxOfPos m.width p, hi⟩) = some N := by
    unfold Cell.wall_to Cell.dist
    rw [hcix, hciy, hcjx, hcjy]
    rw [if_neg (by omega), if_pos (by omega)]
  have hd2 : (m.cells.get ⟨idxOfPos m.width p, hi⟩).wall_to
      (m.cells.get ⟨idxOfPos m.width (p.1, p.2 + 1), hj⟩) = some S := by
    unfold Cell.wall_to Cell.dist
    rw [hcix, hciy, hcjx, hcjy]
    rw [if_neg (by omega), if_neg (by omega), if_pos (by omega)]
  have hNin : N ∈ (m.cells.get ⟨idxOfPos m.width (p.1, p.2 + 1), hj⟩).walls := by
    rw [hcjw]; decide
  have hSin : S ∈ (m.cells.get ⟨idxOfPos m.width p, hi⟩).walls := by
    have hiff := ((hsym p hp').1 hq')
    rw [← hwi]
    apply hiff.mpr
    rw [hfull]; decide
  -- the cell-level call
  have hconn : (m.cells.get ⟨idxOfPos m.width p, hi⟩).connect
      (m.cells.get ⟨idxOfPos m.width (p.1, p.2 + 1), hj⟩) =
      .ok (⟨p.1, p.2, (m.cells.get ⟨idxOfPos m.width p, hi⟩).walls.erase S⟩,
           ⟨p.1, p.2 + 1, (m.cells.get ⟨idxOfPos m.width (p.1, p.2 + 1), hj⟩).walls.erase N⟩) := by
    unfold Cell.connect
    rw [hd1]
    dsimp only
    rw [if_pos hNin, hd2]
    dsimp only
    rw [if_pos hSin, hcix, hciy, hcjx, hcjy]
  have hj1 : idxOfPos m.width (p.1, p.2 + 1) <
      (m.cells.set (idxOfPos m.width p)
        (⟨p.1, p.2, (m.cells.get ⟨idxOfPos m.width p, hi⟩).walls.erase S⟩ : Cell)).length := by
    rw [List.length_set]; exact hj
  have step1 := wallsAt_set m hwf hi
    (⟨p.1, p.2, (m.cells.get ⟨idxOfPos m.width p, hi⟩).walls.erase S⟩ : Cell)
    (by exact (congrArg Prod.fst hpi_pos).symm) (by exact (congrArg Prod.snd hpi_pos).symm)
  have step2 := wallsAt_set ⟨m.width, m.height,
      m.cells.set (idxOfPos m.width p)
        (⟨p.1, p.2, (m.cells.get ⟨idxOfPos m.width p, hi⟩).walls.erase S⟩ : Cell)⟩
    step1.1 hj1
    (⟨p.1, p.2 + 1, (m.cells.get ⟨idxOfPos m.width (p.1, p.2 + 1), hj⟩).walls.erase N⟩ : Cell)
    (by exact (congrArg Prod.fst hqi_pos).symm) (by exact (congrArg Prod.snd hqi_pos).symm)
  refine ⟨⟨m.width, m.height,
    (m.cells.set (idxOfPos m.width p)
      (⟨p.1, p.2, (m.cells.get ⟨idxOfPos m.width p, hi⟩).walls.erase S⟩ : Cell)).set
      (idxOfPos m.width (p.1, p.2 + 1))
      (⟨p.1, p.2 + 1, (m.cells.get ⟨idxOfPos m.width (p.1, p.2 + 1), hj⟩).walls.erase N⟩ : Cell)⟩,
    ?_, ?_⟩
  · unfold Maze.connectIdx
    rw [List.getD_lt _ _ hi, List.getD_lt _ _ hj, hconn]
  · -- the combined walls description, in the canonical upper-cell-first order
    have hwalls : ∀ r : Int × Int,
        Maze.wallsAt ⟨m.width, m.height,
          (m.cells.set (idxOfPos m.width p)
            (⟨p.1, p.2, (m.cells.get ⟨idxOfPos m.width p, hi⟩).walls.erase S⟩ : Cell)).set
            (idxOfPos m.width (p.1, p.2 + 1))
            (⟨p.1, p.2 + 1, (m.cells.get ⟨idxOfPos m.width (p.1, p.2 + 1), hj⟩).walls.erase N⟩ : Cell)⟩ r =
        if r = p then (m.wallsAt p).erase S
        else if r = (p.1, p.2 + 1) then (m.wallsAt (p.1, p.2 + 1)).erase N
        else m.wallsAt r := by
      intro r
      have h2 := step2.2 r
      dsimp only at h2
      rw [hqi_pos] at h2
      rw [h2]
      by_cases hr1 : r = (p.1, p.2 + 1)
      · have hrp : r ≠ p := by
          rw [hr1]
          exact fun hc => hpq hc.symm
        rw [if_pos hr1, if_neg hrp, if_pos hr1, hwj]
      · rw [if_neg hr1]
        have h1 := step1.2 r
        rw [hpi_pos] at h1
        rw [h1]
        by_cases hr2 : r = p
        · rw [if_pos hr2, if_pos hr2, hwi]
        · rw [if_neg hr2, if_neg hr2, if_neg hr1]
    exact connSpec_vert m _ hsym p hp' hq' rfl rfl step2.1 (Or.inr hfull) hwalls

theorem connectIdx_spec_north (m : Maze) (hwf : m.WF) (hsym : m.SymWalls)
    {p q : Int × Int} (hp : m.InGrid p) (hq : m.InGrid q)
    (hrel : p = (q.1, q.2 + 1))
    (hfull : m.wallsAt q = {N, S, E, W}) :
    ∃ m', m.connectIdx (idxOfPos m.width p) (idxOfPos m.width q) = .ok m' ∧
      ConnSpec m m' p q := by
  subst hrel
  obtain ⟨hp1, hp2, hp3, hp4⟩ := hp
  obtain ⟨hq1, hq2, hq3, hq4⟩ := hq
  have hp' : m.InGrid (q.1, q.2 + 1) := ⟨hp1, hp2, hp3, hp4⟩
  have hq' : m.InGrid q := ⟨hq1, hq2, hq3, hq4⟩
  have hpq : q ≠ (q.1, q.2 + 1) := by
    intro hc
    have := congrArg Prod.snd hc
    simp only at this
    omega
  have hpi_pos : posOfIdx m.width (idxOfPos m.width (q.1, q.2 + 1)) = (q.1, q.2 + 1) :=
    posOfIdx_idxOfPos m.width hp1 hp2 hp3
  have hqi_pos : posOfIdx m.width (idxOfPos m.width q) = q :=
    posOfIdx_idxOfPos m.width hq1 hq2 hq3
  obtain ⟨hi, hwi⟩ := wallsAt_eq_get m hwf hp'
  obtain ⟨hj, hwj⟩ := wallsAt_eq_get m hwf hq'
  have hcix : (m.cells.get ⟨idxOfPos m.width (q.1, q.2 + 1), hi⟩).x = q.1 := by
    rw [(hwf.2 _ hi).1]
    exact congrArg Prod.fst hpi_pos
  have hciy : (m.cells.get ⟨idxOfPos m.width (q.1, q.2 + 1), hi⟩).y = q.2 + 1 := by
    rw [(hwf.2 _ hi).2]
    exact congrArg Prod.snd hpi_pos
  have hcjx : (m.cells.get ⟨idxOfPos m.width q, hj⟩).x = q.1 := by
    rw [(hwf.2 _ hj).1]
    exact congrArg Prod.fst hqi_pos
  have hcjy : (m.cells.get ⟨idxOfPos m.width q, hj⟩).y = q.2 := by
    rw [(hwf.2 _ hj).2]
    exact congrArg Prod.snd hqi_pos
  have hcjw : (m.cells.get ⟨idxOfPos m.width q, hj⟩).walls = {N, S, E, W} :=
    hwj.symm.trans hfull
  have hd1 : (m.cells.get ⟨idxOfPos m.width q, hj⟩).wall_to
      (m.cells.get ⟨idxOfPos m.width (q.1, q.2 + 1), hi⟩) = some S := by
    unfold Cell.wall_to Cell.dist
    rw [hcix, hciy, hcjx, hcjy]
    rw [if_neg (by omega), if_neg (by omega), if_pos (by omega)]
  have hd2 : (m.cells.get ⟨idxOfPos m.width (q.1, q.2 + 1), hi⟩).wall_to
      (m.cells.get ⟨idxOfPos m.width q, hj⟩) = some N := by
    unfold Cell.wall_to Cell.dist
    rw [hcix, hciy, hcjx, hcjy]
    rw [if_neg (by omega), if_pos (by omega)]
  have hSin : S ∈ (m.cells.get ⟨idxOfPos m.width q, hj⟩).walls := by
    rw [hcjw]; decide
  have hNin : N ∈ (m.cells.get ⟨idxOfPos m.width (q.1, q.2 + 1), hi⟩).walls := by
    have hiff := ((hsym q hq').1 hp')
    rw [← hwi]
    apply hiff.mp
    rw [hfull]; decide
  have hconn : (m.cells.get ⟨idxOfPos m.width (q.1, q.2 + 1), hi⟩).connect
      (m.cells.get ⟨idxOfPos m.width q, hj⟩) =
      .ok (⟨q.1, q.2 + 1, (m.cells.get ⟨idxOfPos m.width (q.1, q.2 + 1), hi⟩).walls.erase N⟩,
           ⟨q.1, q.2, (m.cells.get ⟨idxOfPos m.width q, hj⟩).walls.erase S⟩) := by
    unfold Cell.connect
    rw [hd1]
    dsimp only
    rw [if_pos hSin, hd2]
    dsimp only
    rw [if_pos hNin, hcix, hciy, hcjx, hcjy]
  have hj1 : idxOfPos m.width q <
      (m.cells.set (idxOfPos m.width (q.1, q.2 + 1))
        (⟨q.1, q.2 + 1,
          (m.cells.get ⟨idxOfPos m.width (q.1, q.2 + 1), hi⟩).walls.erase N⟩ : Cell)).length := by
    rw [List.length_set]; exact hj
  have step1 := wallsAt_set m hwf hi
    (⟨q.1, q.2 + 1, (m.cells.get ⟨idxOfPos m.width (q.1, q.2 + 1), hi⟩).walls.erase N⟩ : Cell)
    (by exact (congrArg Prod.fst hpi_pos).symm) (by exact (congrArg Prod.snd hpi_pos).symm)
  have step2 := wallsAt_set ⟨m.width, m.height,
      m.cells.set (idxOfPos m.width (q.1, q.2 + 1))
        (⟨q.1, q.2 + 1,
          (m.cells.get ⟨idxOfPos m.width (q.1, q.2 + 1), hi⟩).walls.erase N⟩ : Cell)⟩
    step1.1 hj1
    (⟨q.1, q.2, (m.cells.get ⟨idxOfPos m.width q, hj⟩).walls.erase S⟩ : Cell)
    (by exact (congrArg Prod.fst hqi_pos).symm) (by exact (congrArg Prod.snd hqi_pos).symm)
  refine ⟨⟨m.width, m.height,
    (m.cells.set (idxOfPos m.width (q.1, q.2 + 1))
      (⟨q.1, q.2 + 1,
        (m.cells.get ⟨idxOfPos m.width (q.1, q.2 + 1), hi⟩).walls.erase N⟩ : Cell)).set
      (idxOfPos m.width q)
      (⟨q.1, q.2, (m.cells.get ⟨idxOfPos m.width q, hj⟩).walls.erase S⟩ : Cell)⟩,
    ?_, ?_⟩
  · unfold Maze.connectIdx
    rw [List.getD_lt _ _ hi, List.getD_lt _ _ hj, hconn]
  · have hwalls : ∀ r : Int × Int,
        Maze.wallsAt ⟨m.width, m.height,
          (m.cells.set (idxOfPos m.width (q.1, q.2 + 1))
            (⟨q.1, q.2 + 1,
              (m.cells.get ⟨idxOfPos m.width (q.1, q.2 + 1), hi⟩).walls.erase N⟩ : Cell)).set
            (idxOfPos m.width q)
            (⟨q.1, q.2, (m.cells.get ⟨idxOfPos m.width q, hj⟩).walls.erase S⟩ : Cell)⟩ r =
        if r = q then (m.wallsAt q).erase S
        else if r = (q.1, q.2 + 1) then (m.wallsAt (q.1, q.2 + 1)).erase N
        else m.wallsAt r := by
      intro r
      have h2 := step2.2 r
      dsimp only at h2
      rw [hqi_pos] at h2
      rw [h2]
      by_cases hr1 : r = q
      · rw [if_pos hr1, if_pos hr1, hwj]
      · rw [if_neg hr1, if_neg hr1]
        have h1 := step1.2 r
        rw [hpi_pos] at h1
        rw [h1]
        by_cases hr2 : r = (q.1, q.2 + 1)
        · rw [if_pos hr2, if_pos hr2, hwi]
        · rw [if_neg hr2, if_neg hr2]
    exact ConnSpec_swap
      (connSpec_vert m _ hsym q hq' hp' rfl rfl step2.1 (Or.inl hfull) hwalls)

theorem connectIdx_spec_east (m : Maze) (hwf : m.WF) (hsym : m.SymWalls)
    {p q : Int × Int} (hp : m.InGrid p) (hq : m.InGrid q)
    (hrel : q = (p.1 + 1, p.2))
    (hfull : m.wallsAt q = {N, S, E, W}) :
    ∃ m', m.connectIdx (idxOfPos m.width p) (idxOfPos m.width q) = .ok m' ∧
      ConnSpec m m' p q := by
  subst hrel
  obtain ⟨hp1, hp2, hp3, hp4⟩ := hp
  obtain ⟨hq1, hq2, hq3, hq4⟩ := hq
  have hp' : m.InGrid p := ⟨hp1, hp2, hp3, hp4⟩
  have hq' : m.InGrid (p.1 + 1, p.2) := ⟨hq1, hq2, hq3, hq4⟩
  have hpq : p ≠ (p.1 + 1, p.2) := by
    intro hc
    have := congrArg Prod.fst hc
    simp only at this
    omega
  have hpi_pos : posOfIdx m.width (idxOfPos m.width p) = p :=
    posOfIdx_idxOfPos m.width hp1 hp2 hp3
  have hqi_pos : posOfIdx m.width (idxOfPos m.width (p.1 + 1, p.2)) = (p.1 + 1, p.2) :=
    posOfIdx_idxOfPos m.width hq1 hq2 hq3
  obtain ⟨hi, hwi⟩ := wallsAt_eq_get m hwf hp'
  obtain ⟨hj, hwj⟩ := wallsAt_eq_get m hwf hq'
  have hcix : (m.cells.get ⟨idxOfPos m.width p, hi⟩).x = p.1 := by
    rw [(hwf.2 _ hi).1]
    exact congrArg Prod.fst hpi_pos
  have hciy : (m.cells.get ⟨idxOfPos m.width p, hi⟩).y = p.2 := by
    rw [(hwf.2 _ hi).2]
    exact congrArg Prod.snd hpi_pos
  have hcjx : (m.cells.get ⟨idxOfPos m.width (p.1 + 1, p.2), hj⟩).x = p.1 + 1 := by
    rw [(hwf.2 _ hj).1]
    exact congrArg Prod.fst hqi_pos
  have hcjy : (m.cells.get ⟨idxOfPos m.width (p.1 + 1, p.2), hj⟩).y = p.2 := by
    rw [(hwf.2 _ hj).2]
    exact congrArg Prod.snd hqi_pos
  have hcjw : (m.cells.get ⟨idxOfPos m.width (p.1 + 1, p.2), hj⟩).walls = {N, S, E, W} :=
    hwj.symm.trans hfull
  have hd1 : (m.cells.get ⟨idxOfPos m.width (p.1 + 1, p.2), hj⟩).wall_to
      (m.cells.get ⟨idxOfPos m.width p, hi⟩) = some W := by
    unfold Cell.wall_to Cell.dist
    rw [hcix, hciy, hcjx, hcjy]
    rw [if_neg (by omega), if_neg (by omega), if_neg (by omega), if_pos (by omega)]
  have hd2 : (m.cells.get ⟨idxOfPos m.width p, hi⟩).wall_to
      (m.cells.get ⟨idxOfPos m.width (p.1 + 1, p.2), hj⟩) = some E := by
    unfold Cell.wall_to Cell.dist
    rw [hcix, hciy, hcjx, hcjy]
    rw [if_neg (by omega), if_neg (by omega), if_neg (by omega), if_neg (by omega),
      if_pos (by omega)]
  have hWin : W ∈ (m.cells.get ⟨idxOfPos m.width (p.1 + 1, p.2), hj⟩).walls := by
    rw [hcjw]; decide
  have hEin : E ∈ (m.cells.get ⟨idxOfPos m.width p, hi⟩).walls := by
    have hiff := ((hsym p hp').2 hq')
    rw [← hwi]
    apply hiff.mpr
    rw [hfull]; decide
  have hconn : (m.cells.get ⟨idxOfPos m.width p, hi⟩).connect
      (m.cells.get ⟨idxOfPos m.width (p.1 + 1, p.2), hj⟩) =
      .ok (⟨p.1, p.2, (m.cells.get ⟨idxOfPos m.width p, hi⟩).walls.erase E⟩,
           ⟨p.1 + 1, p.2,
             (m.cells.get ⟨idxOfPos m.width (p.1 + 1, p.2), hj⟩).walls.erase W⟩) := by
    unfold Cell.connect
    rw [hd1]
    dsimp only
    rw [if_pos hWin, hd2]
    dsimp only
    rw [if_pos hEin, hcix, hciy, hcjx, hcjy]
  have hj1 : idxOfPos m.width (p.1 + 1, p.2) <
      (m.cells.set (idxOfPos m.width p)
        (⟨p.1, p.2, (m.cells.get ⟨idxOfPos m.width p, hi⟩).walls.erase E⟩ : Cell)).length := by
    rw [List.length_set]; exact hj
  have step1 := wallsAt_set m hwf hi
    (⟨p.1, p.2, (m.cells.get ⟨idxOfPos m.width p, hi⟩).walls.erase E⟩ : Cell)
    (by exact (congrArg Prod.fst hpi_pos).symm) (by exact (congrArg Prod.snd hpi_pos).symm)
  have step2 := wallsAt_set ⟨m.width, m.height,
      m.cells.set (idxOfPos m.width p)
        (⟨p.1, p.2, (m.cells.get ⟨idxOfPos m.width p, hi⟩).walls.erase E⟩ : Cell)⟩
    step1.1 hj1
    (⟨p.1 + 1, p.2, (m.cells.get ⟨idxOfPos m.width (p.1 + 1, p.2), hj⟩).walls.erase W⟩ : Cell)
    (by exact (congrArg Prod.fst hqi_pos).symm) (by exact (congrArg Prod.snd hqi_pos).symm)
  refine ⟨⟨m.width, m.height,
    (m.cells.set (idxOfPos m.width p)
      (⟨p.1, p.2, (m.cells.get ⟨idxOfPos m.width p, hi⟩).walls.erase E⟩ : Cell)).set
      (idxOfPos m.width (p.1 + 1, p.2))
      (⟨p.1 + 1, p.2,
        (m.cells.get ⟨idxOfPos m.width (p.1 + 1, p.2), hj⟩).walls.erase W⟩ : Cell)⟩,
    ?_, ?_⟩
  · unfold Maze.connectIdx
    rw [List.getD_lt _ _ hi, List.getD_lt _ _ hj, hconn]
  · have hwalls : ∀ r : Int × Int,
        Maze.wallsAt ⟨m.width, m.height,
          (m.cells.set (idxOfPos m.width p)
            (⟨p.1, p.2, (m.cells.get ⟨idxOfPos m.width p, hi⟩).walls.erase E⟩ : Cell)).set
            (idxOfPos m.width (p.1 + 1, p.2))
            (⟨p.1 + 1, p.2,
              (m.cells.get ⟨idxOfPos m.width (p.1 + 1, p.2), hj⟩).walls.erase W⟩ : Cell)⟩ r =
        if r = p then (m.wallsAt p).erase E
        else if r = (p.1 + 1, p.2) then (m.wallsAt (p.1 + 1, p.2)).erase W
        else m.wallsAt r := by
      intro r
      have h2 := step2.2 r
      dsimp only at h2
      rw [hqi_pos] at h2
      rw [h2]
      by_cases hr1 : r = (p.1 + 1, p.2)
      · have hrp : r ≠ p := by
          rw [hr1]
          exact fun hc => hpq hc.symm
        rw [if_pos hr1, if_neg hrp, if_pos hr1, hwj]
      · rw [if_neg hr1]
        have h1 := step1.2 r
        rw [hpi_pos] at h1
        rw [h1]
        by_cases hr2 : r = p
        · rw [if_pos hr2, if_pos hr2, hwi]
        · rw [if_neg hr2, if_neg hr2, if_neg hr1]
    exact connSpec_horiz m _ hsym p hp' hq' rfl rfl step2.1 (Or.inr hfull) hwalls

theorem connectIdx_spec_west (m : Maze) (hwf : m.WF) (hsym : m.SymWalls)
    {p q : Int × Int} (hp : m.InGrid p) (hq : m.InGrid q)
    (hrel : p = (q.1 + 1, q.2))
    (hfull : m.wallsAt q = {N, S, E, W}) :
    ∃ m', m.connectIdx (idxOfPos m.width p) (idxOfPos m.width q) = .ok m' ∧
      ConnSpec m m' p q := by
  subst hrel
  obtain ⟨hp1, hp2, hp3, hp4⟩ := hp
  obtain ⟨hq1, hq2, hq3, hq4⟩ := hq
  have hp' : m.InGrid (q.1 + 1, q.2) := ⟨hp1, hp2, hp3, hp4⟩
  have hq' : m.InGrid q := ⟨hq1, hq2, hq3, hq4⟩
  have hpq : q ≠ (q.1 + 1, q.2) := by
    intro hc
    have := congrArg Prod.fst hc
    simp only at this
    omega
  have hpi_pos : posOfIdx m.width (idxOfPos m.width (q.1 + 1, q.2)) = (q.1 + 1, q.2) :=
    posOfIdx_idxOfPos m.width hp1 hp2 hp3
  have hqi_pos : posOfIdx m.width (idxOfPos m.width q) = q :=
    posOfIdx_idxOfPos m.width hq1 hq2 hq3
  obtain ⟨hi, hwi⟩ := wallsAt_eq_get m hwf hp'
  obtain ⟨hj, hwj⟩ := wallsAt_eq_get m hwf hq'
  have hcix : (m.cells.get ⟨idxOfPos m.width (q.1 + 1, q.2), hi⟩).x = q.1 + 1 := by
    rw [(hwf.2 _ hi).1]
    exact congrArg Prod.fst hpi_pos
  have hciy : (m.cells.get ⟨idxOfPos m.width (q.1 + 1, q.2), hi⟩).y = q.2 := by
    rw [(hwf.2 _ hi).2]
    exact congrArg Prod.snd hpi_pos
  have hcjx : (m.cells.get ⟨idxOfPos m.width q, hj⟩).x = q.1 := by
    rw [(hwf.2 _ hj).1]
    exact congrArg Prod.fst hqi_pos
  have hcjy : (m.cells.get ⟨idxOfPos m.width q, hj⟩).y = q.2 := by
    rw [(hwf.2 _ hj).2]
    exact congrArg Prod.snd hqi_pos
  have hcjw : (m.cells.get ⟨idxOfPos m.width q, hj⟩).walls = {N, S, E, W} :=
    hwj.symm.trans hfull
  have hd1 : (m.cells.get ⟨idxOfPos m.width q, hj⟩).wall_to
      (m.cells.get ⟨idxOfPos m.width (q.1 + 1, q.2), hi⟩) = some E := by
    unfold Cell.wall_to Cell.dist
    rw [hcix, hciy, hcjx, hcjy]
    rw [if_neg (by omega), if_neg (by omega), if_neg (by omega), if_neg (by omega),
      if_pos (by omega)]
  have hd2 : (m.cells.get ⟨idxOfPos m.width (q.1 + 1, q.2), hi⟩).wall_to
      (m.cells.get ⟨idxOfPos m.width q, hj⟩) = some W := by
    unfold Cell.wall_to Cell.dist
    rw [hcix, hciy, hcjx, hcjy]
    rw [if_neg (by omega), if_neg (by omega), if_neg (by omega), if_pos (by omega)]
  have hEin : E ∈ (m.cells.get ⟨idxOfPos m.width q, hj⟩).walls := by
    rw [hcjw]; decide
  have hWin : W ∈ (m.cells.get ⟨idxOfPos m.width (q.1 + 1, q.2), hi⟩).walls := by
    have hiff := ((hsym q hq').2 hp')
    rw [← hwi]
    apply hiff.mp
    rw [hfull]; decide
  have hconn : (m.cells.get ⟨idxOfPos m.width (q.1 + 1, q.2), hi⟩).connect
      (m.cells.get ⟨idxOfPos m.width q, hj⟩) =
      .ok (⟨q.1 + 1, q.2,
             (m.cells.get ⟨idxOfPos m.width (q.1 + 1, q.2), hi⟩).walls.erase W⟩,
           ⟨q.1, q.2, (m.cells.get ⟨idxOfPos m.width q, hj⟩).walls.erase E⟩) := by
    unfold Cell.connect
    rw [hd1]
    dsimp only
    rw [if_pos hEin, hd2]
    dsimp only
    rw [if_pos hWin, hcix, hciy, hcjx, hcjy]
  have hj1 : idxOfPos m.width q <
      (m.cells.set (idxOfPos m.width (q.1 + 1, q.2))
        (⟨q.1 + 1, q.2,
          (m.cells.get ⟨idxOfPos m.width (q.1 + 1, q.2), hi⟩).walls.erase W⟩ : Cell)).length := by
    rw [List.length_set]; exact hj
  have step1 := wallsAt_set m hwf hi
    (⟨q.1 + 1, q.2,
      (m.cells.get ⟨idxOfPos m.width (q.1 + 1, q.2), hi⟩).walls.erase W⟩ : Cell)
    (by exact (congrArg Prod.fst hpi_pos).symm) (by exact (congrArg Prod.snd hpi_pos).symm)
  have step2 := wallsAt_set ⟨m.width, m.height,
      m.cells.set (idxOfPos m.width (q.1 + 1, q.2))
        (⟨q.1 + 1, q.2,
          (m.cells.get ⟨idxOfPos m.width (q.1 + 1, q.2), hi⟩).walls.erase W⟩ : Cell)⟩
    step1.1 hj1
    (⟨q.1, q.2, (m.cells.get ⟨idxOfPos m.width q, hj⟩).walls.erase E⟩ : Cell)
    (by exact (congrArg Prod.fst hqi_pos).symm) (by exact (congrArg Prod.snd hqi_pos).symm)
  refine ⟨⟨m.width, m.height,
    (m.cells.set (idxOfPos m.width (q.1 + 1, q.2))
      (⟨q.1 + 1, q.2,
        (m.cells.get ⟨idxOfPos m.width (q.1 + 1, q.2), hi⟩).walls.erase W⟩ : Cell)).set
      (idxOfPos m.width q)
      (⟨q.1, q.2, (m.cells.get ⟨idxOfPos m.width q, hj⟩).walls.erase E⟩ : Cell)⟩,
    ?_, ?_⟩
  · unfold Maze.connectIdx
    rw [List.getD_lt _ _ hi, List.getD_lt _ _ hj, hconn]
  · have hwalls : ∀ r : Int × Int,
        Maze.wallsAt ⟨m.width, m.height,
          (m.cells.set (idxOfPos m.width (q.1 + 1, q.2))
            (⟨q.1 + 1, q.2,
              (m.cells.get ⟨idxOfPos m.width (q.1 + 1, q.2), hi⟩).walls.erase W⟩ : Cell)).set
            (idxOfPos m.width q)
            (⟨q.1, q.2, (m.cells.get ⟨idxOfPos m.width q, hj⟩).walls.erase E⟩ : Cell)⟩ r =
        if r = q then (m.wallsAt q).erase E
        else if r = (q.1 + 1, q.2) then (m.wallsAt (q.1 + 1, q.2)).erase W
        else m.wallsAt r := by
      intro r
      have h2 := step2.2 r
      dsimp only at h2
      rw [hqi_pos] at h2
      rw [h2]
      by_cases hr1 : r = q
      · rw [if_pos hr1, if_pos hr1, hwj]
      · rw [if_neg hr1, if_neg hr1]
        have h1 := step1.2 r
        rw [hpi_pos] at h1
        rw [h1]
        by_cases hr2 : r = (q.1 + 1, q.2)
        · rw [if_pos hr2, if_pos hr2, hwi]
        · rw [if_neg hr2, if_neg hr2]
    exact ConnSpec_swap
      (connSpec_horiz m _ hsym q hq' hp' rfl rfl step2.1 (Or.inl hfull) hwalls)

/-- One successful `connect` between the cell at in-grid position `p` and a
full cell at an adjacent in-grid position `q` does exactly what `ConnSpec`
describes. -/
theorem connectIdx_spec (m : Maze) (hwf : m.WF) (hsym : m.SymWalls)
    {p q : Int × Int} (hp : m.InGrid p) (hq : m.InGrid q)
    (hadj : posDist p q = 1)
    (hfull : m.wallsAt q = {N, S, E, W}) :
    ∃ m', m.connectIdx (idxOfPos m.width p) (idxOfPos m.width q) = .ok m' ∧
      ConnSpec m m' p q := by
  rcases (posDist_eq_one_iff p q).mp hadj with ⟨h1, h2⟩ | ⟨h1, h2⟩ | ⟨h1, h2⟩ | ⟨h1, h2⟩
  · exact connectIdx_spec_south m hwf hsym hp hq (Prod.ext h1 h2) hfull
  · exact connectIdx_spec_north m hwf hsym hp hq (Prod.ext h1 h2) hfull
  · exact connectIdx_spec_east m hwf hsym hp hq (Prod.ext h1 h2) hfull
  · exact connectIdx_spec_west m hwf hsym hp hq (Prod.ext h1 h2) hfull

/-! ## Simple open paths: basic lemmas -/

theorem openBetween_irrefl (m : Maze) (a : Int × Int) : ¬ openBetween m a a := by
  rintro (⟨hc, -, -⟩ | ⟨hc, -, -⟩ | ⟨hc, -, -⟩ | ⟨hc, -, -⟩) <;>
    (have h2 := congrArg Prod.snd hc) <;> (have h1 := congrArg Prod.fst hc) <;>
    simp only at * <;> omega

theorem path_singleton (m : Maze) (a : Int × Int) : IsMazePath m a a [a] :=
  ⟨rfl, rfl, List.chain'_singleton a, List.nodup_singleton a⟩

theorem path_ne_nil {m : Maze} {a b : Int × Int} {pth : List (Int × Int)}
    (h : IsMazePath m a b pth) : pth ≠ [] := by
  intro hc
  rw [hc] at h
  exact Option.noConfusion h.1

theorem path_self_eq {m : Maze} {a : Int × Int} {pth : List (Int × Int)}
    (h : IsMazePath m a a pth) : pth = [a] := by
  obtain ⟨h1, h2, -, h4⟩ := h
  cases pth with
  | nil => exact absurd h1 (by simp)
  | cons x t =>
    have hx : a = x := by
      rw [List.head?_cons] at h1
      exact (Option.some.inj h1).symm
    subst hx
    cases t with
    | nil => rfl
    | cons y t' =>
      exfalso
      rw [List.getLast?_cons_cons] at h2
      have hmem : a ∈ y :: t' := List.mem_of_mem_getLast? h2
      rw [List.nodup_cons] at h4
      exact h4.1 hmem

theorem path_mono {m m' : Maze}
    (hmono : ∀ x y, openBetween m x y → openBetween m' x y)
    {a b : Int × Int} {pth : List (Int × Int)} (h : IsMazePath m a b pth) :
    IsMazePath m' a b pth :=
  ⟨h.1, h.2.1, h.2.2.1.imp fun _ _ hxy => hmono _ _ hxy, h.2.2.2⟩

theorem path_reverse {m : Maze} {a b : Int × Int} {pth : List (Int × Int)}
    (h : IsMazePath m a b pth) : IsMazePath m b a pth.reverse := by
  obtain ⟨h1, h2, h3, h4⟩ := h
  refine ⟨?_, ?_, ?_, List.nodup_reverse.mpr h4⟩
  · rw [List.head?_reverse]; exact h2
  · rw [List.getLast?_reverse]; exact h1
  · rw [List.chain'_reverse]
    exact h3.imp fun _ _ hxy => (openBetween_symm m _ _).mp hxy

theorem exUnique_path_symm {m : Maze} {a b : Int × Int}
    (h : ∃! pth, IsMazePath m a b pth) : ∃! pth, IsMazePath m b a pth := by
  obtain ⟨p0, hp0, huniq⟩ := h
  refine ⟨p0.reverse, path_reverse hp0, ?_⟩
  intro q hq
  have := huniq q.reverse (by
    have := path_reverse hq
    exact this)
  calc q = q.reverse.reverse := (List.reverse_reverse q).symm
  _ = p0.reverse := by rw [this]

/-- A chain step converter that may use membership of both endpoints. -/
theorem chain'_imp_mem {α : Type} {R S : α → α → Prop} :
    ∀ (l : List α), (∀ x ∈ l, ∀ y ∈ l, R x y → S x y) → List.Chain' R l → List.Chain' S l
  | [], _, _ => List.chain'_nil
  | [_], _, _ => List.chain'_singleton _
  | x :: y :: t, himp, hch => by
    rw [List.chain'_cons] at hch ⊢
    refine ⟨himp x (by simp) y (by simp) hch.1, ?_⟩
    exact chain'_imp_mem (y :: t) (fun a ha b hb hr =>
      himp a (List.mem_cons_of_mem x ha) b (List.mem_cons_of_mem x hb) hr) hch.2

/-- In a chain with at least two entries, every member touches some edge. -/
theorem chain'_mem_edge {α : Type} {R : α → α → Prop} :
    ∀ (l : List α), List.Chain' R l → ∀ x ∈ l, 2 ≤ l.length →
      ∃ y ∈ l, R x y ∨ R y x
  | [], _, x, hx, _ => absurd hx (List.not_mem_nil x)
  | [_], _, _, _, hlen => by simp at hlen
  | a :: b :: t, hch, x, hx, _ => by
    rw [List.chain'_cons] at hch
    rcases List.mem_cons.mp hx with rfl | hx'
    · exact ⟨b, by simp, Or.inl hch.1⟩
    · match t, hx' with
      | [], hx' =>
        have hxb : x = b := by
          rcases List.mem_cons.mp hx' with rfl | hc
          · rfl
          · exact absurd hc (List.not_mem_nil x)
        subst hxb
        exact ⟨a, by simp, Or.inr hch.1⟩
      | c :: t', hx' =>
        obtain ⟨y, hy, hr⟩ := chain'_mem_edge (b :: c :: t') hch.2 x hx'
          (by rw [List.length_cons, List.length_cons]; omega)
        exact ⟨y, List.mem_cons_of_mem a hy, hr⟩

/-- An interior member of a nodup chain has a predecessor and a successor,
and they are distinct. -/
theorem chain'_interior {α : Type} {R : α → α → Prop} :
    ∀ (l : List α), List.Chain' R l → l.Nodup → ∀ c ∈ l,
      l.head? ≠ some c → l.getLast? ≠ some c →
      ∃ x ∈ l, ∃ y ∈ l, R x c ∧ R c y ∧ x ≠ y
  | [], _, _, c, hc, _, _ => absurd hc (List.not_mem_nil c)
  | [a], _, _, c, hc, hhd, _ => by
    rcases List.mem_singleton.mp hc with rfl
    exact absurd rfl hhd
  | a :: b :: t, hch, hnd, c, hc, hhd, hlast => by
    rw [List.chain'_cons] at hch
    rcases List.mem_cons.mp hc with rfl | hc'
    · exact absurd rfl hhd
    by_cases hcb : c = b
    · subst hcb
      match t, hlast with
      | [], hlast =>
        exfalso
        apply hlast
        rfl
      | y :: t', hlast =>
        refine ⟨a, by simp, y, by simp, hch.1, ?_, ?_⟩
        · rw [List.chain'_cons] at hch
          exact hch.2.1
        · intro hay
          rw [List.nodup_cons] at hnd
          exact hnd.1 (hay ▸ (by simp : y ∈ c :: y :: t'))
    · have hc'' : c ∈ b :: t := hc'
      obtain ⟨x, hx, y, hy, hr1, hr2, hxy⟩ :=
        chain'_interior (b :: t) hch.2 (List.nodup_cons.mp hnd).2 c hc''
          (by rw [List.head?_cons]; intro hcon; exact hcb (Option.some.inj hcon).symm)
          (by rw [List.getLast?_cons_cons] at hlast; exact hlast)
      exact ⟨x, List.mem_cons_of_mem a hx, y, List.mem_cons_of_mem a hy, hr1, hr2, hxy⟩

/-- Decomposing a simple open path that ends at `c`: everything before `c`,
the last edge, and the fact that `c` does not occur earlier. -/
theorem path_concat_decomp {m : Maze} {a c : Int × Int} {pth : List (Int × Int)}
    (h : IsMazePath m a c pth) (hne : a ≠ c) :
    ∃ init prev, pth = init ++ [c] ∧ init ≠ [] ∧ init.getLast? = some prev ∧
      openBetween m prev c ∧ init.head? = some a ∧
      List.Chain' (openBetween m) init ∧ init.Nodup ∧ c ∉ init := by
  obtain ⟨h1, h2, h3, h4⟩ := h
  have hnil : pth ≠ [] := by
    intro hc; rw [hc] at h1; exact Option.noConfusion h1
  have hdec : pth.dropLast ++ [pth.getLast hnil] = pth := List.dropLast_append_getLast hnil
  have hlast : pth.getLast hnil = c := by
    have := List.getLast?_eq_getLast pth hnil
    rw [this] at h2
    exact Option.some.inj h2
  rw [hlast] at hdec
  have hinit_ne : pth.dropLast ≠ [] := by
    intro hc
    rw [hc, List.nil_append] at hdec
    rw [← hdec] at h1
    rw [List.head?_cons] at h1
    exact hne (Option.some.inj h1).symm
  have hch : List.Chain' (openBetween m) (pth.dropLast ++ [c]) := by rw [hdec]; exact h3
  rw [List.chain'_append] at hch
  obtain ⟨hch1, -, hch3⟩ := hch
  have hnd : (pth.dropLast ++ [c]).Nodup := by rw [hdec]; exact h4
  rw [List.nodup_append] at hnd
  obtain ⟨hnd1, -, hnd3⟩ := hnd
  have hcnot : c ∉ pth.dropLast := by
    intro hc
    exact hnd3 hc (by simp)
  obtain ⟨prev, hprev⟩ : ∃ prev, pth.dropLast.getLast? = some prev := by
    cases hh : pth.dropLast.getLast? with
    | none => exact absurd (List.getLast?_eq_none_iff.mp hh) hinit_ne
    | some v => exact ⟨v, rfl⟩
  refine ⟨pth.dropLast, prev, hdec.symm, hinit_ne, hprev, ?_, ?_, hch1, hnd1, hcnot⟩
  · exact hch3 prev hprev c rfl
  · have := @List.head?_concat _ pth.dropLast c
    rw [hdec] at this
    rw [h1] at this
    cases hh : pth.dropLast.head? with
    | none => exact absurd (List.head?_eq_none_iff.mp hh) hinit_ne
    | some v =>
      rw [hh] at this
      exact (congrArg some (Option.some.inj this)).symm

/-- Adding a passage from `u` to a previously isolated cell `ℓ` keeps the
unique-simple-path property, now on `insert ℓ V`. -/
theorem pendant_unique (m m' : Maze) (u ℓ : Int × Int) (V : Finset (Int × Int))
    (huV : u ∈ V) (hlV : ℓ ∉ V)
    (hfull : m.wallsAt ℓ = {N, S, E, W})
    (hmono : ∀ a b, openBetween m a b → openBetween m' a b)
    (hfwd : ∀ a b, openBetween m' a b →
      openBetween m a b ∨ (a = u ∧ b = ℓ) ∨ (a = ℓ ∧ b = u))
    (hopen : openBetween m' u ℓ)
    (hA : ∀ a ∈ V, ∀ b ∈ V, ∃! pth, IsMazePath m a b pth) :
    ∀ a ∈ insert ℓ V, ∀ b ∈ insert ℓ V, ∃! pth, IsMazePath m' a b pth := by
  have hune : u ≠ ℓ := fun hc => hlV (hc ▸ huV)
  -- an old-maze path never visits ℓ unless it is the trivial path at ℓ
  have hold_avoid : ∀ x y pth, IsMazePath m x y pth → x ≠ ℓ → ℓ ∉ pth := by
    intro x y pth hp hx hmem
    rcases Nat.lt_or_ge pth.length 2 with hlen | hlen
    · match pth, hmem, hp with
      | [z], hmem, hp =>
        have : ℓ = z := List.mem_singleton.mp hmem
        subst this
        exact hx (Option.some.inj hp.1).symm
    · obtain ⟨y', -, hr⟩ := chain'_mem_edge pth hp.2.2.1 ℓ hmem hlen
      rcases hr with hr | hr
      · exact (not_open_of_full hfull y').2 hr
      · exact (not_open_of_full hfull y').1 hr
  -- a new-maze path avoiding ℓ is an old-maze path
  have hnew_to_old : ∀ x y pth, IsMazePath m' x y pth → ℓ ∉ pth →
      IsMazePath m x y pth := by
    intro x y pth hp hmem
    refine ⟨hp.1, hp.2.1, ?_, hp.2.2.2⟩
    refine chain'_imp_mem pth ?_ hp.2.2.1
    intro s hs t ht hst
    rcases hfwd s t hst with hold | ⟨-, rfl⟩ | ⟨rfl, -⟩
    · exact hold
    · exact absurd ht hmem
    · exact absurd hs hmem
  -- a new-maze path between two old vertices avoids ℓ
  have hnew_avoid : ∀ x y pth, IsMazePath m' x y pth → x ≠ ℓ → y ≠ ℓ → ℓ ∉ pth := by
    intro x y pth hp hx hy hmem
    have hhd : pth.head? ≠ some ℓ := by
      rw [hp.1]; intro hc; exact hx (Option.some.inj hc)
    have hlst : pth.getLast? ≠ some ℓ := by
      rw [hp.2.1]; intro hc; exact hy (Option.some.inj hc)
    obtain ⟨s, -, t, -, hr1, hr2, hst⟩ :=
      chain'_interior pth hp.2.2.1 hp.2.2.2 ℓ hmem hhd hlst
    have hs : s = u := by
      rcases hfwd s ℓ hr1 with hold | ⟨h1, -⟩ | ⟨h1, -⟩
      · exact absurd hold (not_open_of_full hfull s).1
      · exact h1
      · rw [h1] at hr1
        exact absurd hr1 (openBetween_irrefl m' ℓ)
    have ht : t = u := by
      rcases hfwd ℓ t hr2 with hold | ⟨-, h1⟩ | ⟨-, h1⟩
      · exact absurd hold (not_open_of_full hfull t).2
      · rw [h1] at hr2
        exact absurd hr2 (openBetween_irrefl m' ℓ)
      · exact h1
    exact hst (hs.trans ht.symm)
  intro a ha b hb
  rcases Finset.mem_insert.mp ha with ha1 | haV
  · subst ha1
    rcases Finset.mem_insert.mp hb with hb1 | hbV
    · subst hb1
      exact ⟨[b], path_singleton m' b, fun q hq => path_self_eq hq⟩
    · -- ℓ to an old vertex: transpose the old-vertex-to-ℓ case
      apply exUnique_path_symm
      -- b to ℓ
      have hbne : b ≠ a := fun hc => hlV (hc ▸ hbV)
      obtain ⟨p0, hp0, hp0u⟩ := hA b hbV u huV
      have hp0l : a ∉ p0 := hold_avoid b u p0 hp0 hbne
      refine ⟨p0 ++ [a], ?_, ?_⟩
      · refine ⟨?_, List.getLast?_concat p0, ?_, ?_⟩
        · rw [List.head?_concat, hp0.1]
          rfl
        · rw [List.chain'_append]
          refine ⟨(path_mono hmono hp0).2.2.1, List.chain'_singleton a, ?_⟩
          intro s hs t ht
          rw [hp0.2.1] at hs
          rw [List.head?_cons] at ht
          rw [← Option.some.inj hs, ← Option.some.inj ht]
          exact hopen
        · rw [List.nodup_append]
          exact ⟨hp0.2.2.2, List.nodup_singleton a,
            fun x hx hx1 => hp0l ((List.mem_singleton.mp hx1) ▸ hx)⟩
      · intro q hq
        obtain ⟨init, prev, hqdec, hine, hinlast, hinopen, hinhead, hinch, hinnd, hinnot⟩ :=
          path_concat_decomp hq hbne
        have hprevu : prev = u := by
          rcases hfwd prev a hinopen with hold | ⟨rfl, -⟩ | ⟨hc, -⟩
          · exact absurd hold (not_open_of_full hfull prev).1
          · rfl
          · exfalso
            apply hinnot
            rw [← hc]
            exact List.mem_of_mem_getLast? hinlast
        have hinit_path : IsMazePath m b u init := by
          refine hnew_to_old b u init ⟨hinhead, hprevu ▸ hinlast, hinch, hinnd⟩ hinnot
        rw [hqdec, hp0u init hinit_path]
  · rcases Finset.mem_insert.mp hb with hb1 | hbV
    · subst hb1
      -- an old vertex to ℓ
      have hane : a ≠ b := fun hc => hlV (hc ▸ haV)
      obtain ⟨p0, hp0, hp0u⟩ := hA a haV u huV
      have hp0l : b ∉ p0 := hold_avoid a u p0 hp0 hane
      refine ⟨p0 ++ [b], ?_, ?_⟩
      · refine ⟨?_, List.getLast?_concat p0, ?_, ?_⟩
        · rw [List.head?_concat, hp0.1]
          rfl
        · rw [List.chain'_append]
          refine ⟨(path_mono hmono hp0).2.2.1, List.chain'_singleton b, ?_⟩
          intro s hs t ht
          rw [hp0.2.1] at hs
          rw [List.head?_cons] at ht
          rw [← Option.some.inj hs, ← Option.some.inj ht]
          exact hopen
        · rw [List.nodup_append]
          exact ⟨hp0.2.2.2, List.nodup_singleton b,
            fun x hx hx1 => hp0l ((List.mem_singleton.mp hx1) ▸ hx)⟩
      · intro q hq
        obtain ⟨init, prev, hqdec, hine, hinlast, hinopen, hinhead, hinch, hinnd, hinnot⟩ :=
          path_concat_decomp hq hane
        have hprevu : prev = u := by
          rcases hfwd prev b hinopen with hold | ⟨rfl, -⟩ | ⟨hc, -⟩
          · exact absurd hold (not_open_of_full hfull prev).1
          · rfl
          · exfalso
            apply hinnot
            rw [← hc]
            exact List.mem_of_mem_getLast? hinlast
        have hinit_path : IsMazePath m a u init := by
          refine hnew_to_old a u init ⟨hinhead, hprevu ▸ hinlast, hinch, hinnd⟩ hinnot
        rw [hqdec, hp0u init hinit_path]
    · -- two old vertices
      have hane : a ≠ ℓ := fun hc => hlV (hc ▸ haV)
      have hbne : b ≠ ℓ := fun hc => hlV (hc ▸ hbV)
      obtain ⟨p0, hp0, hp0u⟩ := hA a haV b hbV
      refine ⟨p0, path_mono hmono hp0, ?_⟩
      intro q hq
      have hqm : IsMazePath m a b q :=
        hnew_to_old a b q hq (hnew_avoid a b q hq hane hbne)
      exact hp0u q hqm

/-- In a grid, a set that contains some cell but not all of them has a
member adjacent to an in-grid non-member (walk toward the missing cell). -/
theorem grid_crossing (m : Maze) (V : Finset (Int × Int)) :
    ∀ n (v0 u : Int × Int), posDist v0 u = n → v0 ∈ V → m.InGrid v0 →
      m.InGrid u → u ∉ V →
      ∃ a ∈ V, ∃ b : Int × Int, m.InGrid b ∧ b ∉ V ∧ posDist a b = 1 := by
  intro n
  induction n using Nat.strong_induction_on with
  | _ n ih =>
    rintro ⟨x0, y0⟩ ⟨xu, yu⟩ hdist hv0 hg0 hgu hu
    obtain ⟨hg1, hg2, hg3, hg4⟩ := hg0
    obtain ⟨hu1, hu2, hu3, hu4⟩ := hgu
    simp only at hg1 hg2 hg3 hg4 hu1 hu2 hu3 hu4
    by_cases heq : x0 = xu ∧ y0 = yu
    · exfalso
      apply hu
      have : ((x0, y0) : Int × Int) = (xu, yu) := Prod.ext heq.1 heq.2
      rwa [this] at hv0
    · have hnpos : 1 ≤ n := by
        rcases Nat.eq_zero_or_pos n with h0 | h0
        · exfalso
          rw [h0] at hdist
          unfold posDist at hdist
          simp only at hdist
          exact heq ⟨by omega, by omega⟩
        · exact h0
      unfold posDist at hdist
      simp only at hdist
      -- one step toward u, staying on the grid
      obtain ⟨v1, hgv1, hd1, hdn⟩ :
          ∃ v1 : Int × Int, m.InGrid v1 ∧ posDist (x0, y0) v1 = 1 ∧
            posDist v1 (xu, yu) = n - 1 := by
        rcases lt_trichotomy x0 xu with hx | hx | hx
        · refine ⟨(x0 + 1, y0), ⟨by simp; omega, by simp; omega, by simp; omega, by simp; omega⟩,
            ?_, ?_⟩ <;> (unfold posDist; simp only; omega)
        · rcases lt_trichotomy y0 yu with hy | hy | hy
          · refine ⟨(x0, y0 + 1), ⟨by simp; omega, by simp; omega, by simp; omega, by simp; omega⟩,
              ?_, ?_⟩ <;> (unfold posDist; simp only; omega)
          · exact absurd ⟨hx, hy⟩ heq
          · refine ⟨(x0, y0 - 1), ⟨by simp; omega, by simp; omega, by simp; omega, by simp; omega⟩,
              ?_, ?_⟩ <;> (unfold posDist; simp only; omega)
        · refine ⟨(x0 - 1, y0), ⟨by simp; omega, by simp; omega, by simp; omega, by simp; omega⟩,
            ?_, ?_⟩ <;> (unfold posDist; simp only; omega)
      by_cases hv1 : v1 ∈ V
      · exact ih (n - 1) (by omega) v1 (xu, yu) hdn hv1 hgv1 ⟨hu1, hu2, hu3, hu4⟩ hu
      · exact ⟨(x0, y0), hv0, v1, hgv1, hv1, hd1⟩

/-- Unpacking a successful `__getitem__`. -/
theorem getItem_some_elim (m : Maze) (hwf : m.WF) {x y : Int} {c' : Cell}
    (h : m.getItem x y = some c') :
    m.InGrid (x, y) ∧ m.wallsAt (x, y) = c'.walls ∧ c'.x = x ∧ c'.y = y := by
  by_cases hin : 0 ≤ x ∧ x < m.width ∧ 0 ≤ y ∧ y < m.height
  · obtain ⟨hi, hsome, hcx, hcy⟩ := m.getItem_inBounds hwf hin.1 hin.2.1 hin.2.2.1 hin.2.2.2
    have hc' : c' = m.cells.get ⟨(x + y * m.width).toNat, hi⟩ :=
      Option.some.inj (h.symm.trans hsome)
    have hg : m.InGrid (x, y) := ⟨hin.1, hin.2.1, hin.2.2.1, hin.2.2.2⟩
    obtain ⟨hi2, hw⟩ := wallsAt_eq_get m hwf hg
    refine ⟨hg, ?_, hc' ▸ hcx, hc' ▸ hcy⟩
    rw [hw, hc']
    rfl
  · exfalso
    unfold Maze.getItem at h
    rw [if_neg hin] at h
    exact Option.noConfusion h

/-- A member of the filtered neighbor list: an adjacent in-grid position
whose cell is still full. -/
theorem mem_fullNeighbors (m : Maze) (hwf : m.WF) (c : Cell) {nbr : Cell}
    (h : nbr ∈ fullNeighbors m c) :
    m.InGrid (nbr.x, nbr.y) ∧ posDist (c.x, c.y) (nbr.x, nbr.y) = 1 ∧
      m.wallsAt (nbr.x, nbr.y) = {N, S, E, W} := by
  unfold fullNeighbors at h
  rw [List.mem_filter] at h
  obtain ⟨hmem, hfull⟩ := h
  unfold Maze.neighbors at hmem
  rw [List.mem_filterMap] at hmem
  obtain ⟨pr, hpr, hget⟩ := hmem
  obtain ⟨hg, hw, hx, hy⟩ := getItem_some_elim m hwf hget
  have hpos : ((nbr.x, nbr.y) : Int × Int) = (pr.1, pr.2) := Prod.ext hx hy
  have hpp : (pr.1, pr.2) = pr := rfl
  rw [hpos, hpp]
  refine ⟨hg, ?_, ?_⟩
  · simp only [List.mem_cons] at hpr
    rcases hpr with rfl | rfl | rfl | rfl | habs
    · unfold posDist; simp only; omega
    · unfold posDist; simp only; omega
    · unfold posDist; simp only; omega
    · unfold posDist; simp only; omega
    · exact absurd habs (List.not_mem_nil pr)
  · rw [hw]
    exact (is_full_iff nbr).mp hfull

/-- If the filtered neighbor list is empty, no adjacent in-grid cell is full. -/
theorem fullNeighbors_nil (m : Maze) (hwf : m.WF) (c : Cell)
    (h : fullNeighbors m c = []) :
    ∀ p' : Int × Int, m.InGrid p' → posDist (c.x, c.y) p' = 1 →
      m.wallsAt p' ≠ {N, S, E, W} := by
  intro p' hg hd hfull
  have hp1 : 0 ≤ p'.1 := hg.1
  obtain ⟨hi, hsome, hcx, hcy⟩ := m.getItem_inBounds hwf hg.1 hg.2.1 hg.2.2.1 hg.2.2.2
  obtain ⟨hi2, hw⟩ := wallsAt_eq_get m hwf hg
  have hcw : (m.cells.get ⟨(p'.1 + p'.2 * m.width).toNat, hi⟩).walls = {N, S, E, W} := by
    exact hw.symm.trans hfull
  have hoff : ((p'.1, p'.2) : Int × Int) ∈
      [(c.x, c.y - 1), (c.x, c.y + 1), (c.x - 1, c.y), (c.x + 1, c.y)] := by
    simp only [List.mem_cons]
    rcases (posDist_eq_one_iff (c.x, c.y) p').mp hd with ⟨h1, h2⟩ | ⟨h1, h2⟩ | ⟨h1, h2⟩ | ⟨h1, h2⟩
      <;> simp only at h1 h2
    · exact Or.inr (Or.inl (Prod.ext h1 h2))
    · exact Or.inl (Prod.ext h1.symm (by omega))
    · exact Or.inr (Or.inr (Or.inr (Or.inl (Prod.ext h1 h2))))
    · exact Or.inr (Or.inr (Or.inl (Prod.ext (by omega) h2.symm)))
  have hmem : m.cells.get ⟨(p'.1 + p'.2 * m.width).toNat, hi⟩ ∈ fullNeighbors m c := by
    unfold fullNeighbors
    rw [List.mem_filter]
    constructor
    · unfold Maze.neighbors
      rw [List.mem_filterMap]
      refine ⟨(p'.1, p'.2), hoff, ?_⟩
      exact hsome
    · rw [is_full_iff]
      exact hcw
  rw [h] at hmem
  exact List.not_mem_nil _ hmem

/-! ## The generator's loop invariant -/

theorem mem_gridFinset {w h : Nat} {m : Maze} (hW : m.width = w) (hH : m.height = h)
    (p : Int × Int) : p ∈ gridFinset w h ↔ m.InGrid p := by
  unfold gridFinset Maze.InGrid
  rw [Finset.mem_product, Finset.mem_Ico, Finset.mem_Ico, hW, hH]
  tauto

theorem gridFinset_card (w h : Nat) : (gridFinset w h).card = w * h := by
  unfold gridFinset
  rw [Finset.card_product, Int.card_Ico, Int.card_Ico]
  simp

theorem initMaze_wallsAt (w h : Nat) (p : Int × Int) :
    (initMaze w h).wallsAt p = {N, S, E, W} := by
  by_cases hg : (initMaze w h).InGrid p
  · obtain ⟨hi, hw⟩ := wallsAt_eq_get (initMaze w h) (initMaze_WF w h) hg
    rw [hw]
    have hall : ∀ c ∈ initCells w h, c.walls = {N, S, E, W} := by
      intro c hc
      rw [initCells_eq] at hc
      obtain ⟨i, hi2, rfl⟩ := List.mem_map.mp hc
      rfl
    exact hall _ (List.get_mem _ _ _)
  · exact wallsAt_out _ hg

theorem initMaze_SymWalls (w h : Nat) : (initMaze w h).SymWalls := by
  intro p hp
  constructor
  · intro hq
    rw [initMaze_wallsAt, initMaze_wallsAt]
    decide
  · intro hq
    rw [initMaze_wallsAt, initMaze_wallsAt]
    decide

theorem initMaze_Boundary (w h : Nat) : (initMaze w h).Boundary := by
  intro p hp
  refine ⟨?_, ?_, ?_, ?_⟩ <;> intro h0 <;> rw [initMaze_wallsAt] <;> decide

theorem initMaze_openPairs (w h : Nat) : (initMaze w h).openPairs = ∅ := by
  unfold Maze.openPairs
  rw [Finset.filter_false_of_mem]
  rintro ⟨p, bb⟩ hmem
  cases bb
  · show ¬ openBetween (initMaze w h) p (p.1 + 1, p.2)
    exact (not_open_of_full (initMaze_wallsAt w h (p.1 + 1, p.2)) p).1
  · show ¬ openBetween (initMaze w h) p (p.1, p.2 + 1)
    exact (not_open_of_full (initMaze_wallsAt w h (p.1, p.2 + 1)) p).1

/-- The current position of the generator. -/
def stPos (st : RState) : Int × Int := posOfIdx st.maze.width st.cur

/-- Everything that holds of the generator's state throughout the loop:
the maze stays a well-formed, wall-symmetric, border-intact `w × h` grid;
`V` is the set of visited positions; unvisited cells are exactly the full
ones (the current cell being the lone possible exception); the visited
region carries a unique simple open path between any two of its cells;
the number of opened wall pairs is the number of visits minus one; and
every visited cell that still has a full neighbor is the current cell or
on the backtrack stack. -/
def LoopInv (w h : Nat) (st : RState) : Prop :=
  st.maze.width = w ∧ st.maze.height = h ∧ st.maze.WF ∧ st.maze.SymWalls ∧
  st.maze.Boundary ∧ st.cur < st.maze.cells.length ∧ 1 ≤ st.nVisited ∧
  ∃ V : Finset (Int × Int),
    V.card = st.nVisited ∧
    (∀ p ∈ V, st.maze.InGrid p) ∧
    stPos st ∈ V ∧
    (∀ i ∈ st.stack, i < st.maze.cells.length ∧ posOfIdx st.maze.width i ∈ V) ∧
    (∀ p, st.maze.InGrid p → p ∉ V → st.maze.wallsAt p = {N, S, E, W}) ∧
    (∀ p ∈ V, p ≠ stPos st → st.maze.wallsAt p ≠ {N, S, E, W}) ∧
    (∀ a ∈ V, ∀ b ∈ V, ∃! pth, IsMazePath st.maze a b pth) ∧
    st.maze.openPairs.card + 1 = st.nVisited ∧
    (∀ p ∈ V, (∃ p', st.maze.InGrid p' ∧ posDist p p' = 1 ∧
        st.maze.wallsAt p' = {N, S, E, W}) →
      p = stPos st ∨ ∃ i ∈ st.stack, posOfIdx st.maze.width i = p)

theorem initState_inv (w h : Nat) (o : Nat → Nat)
    (hne : (initMaze w h).cells.length ≠ 0) : LoopInv w h (initState o w h) := by
  have hlen : (initMaze w h).cells.length = w * h := initCells_length w h
  have hcur : o 0 % (initMaze w h).cells.length < (initMaze w h).cells.length :=
    Nat.mod_lt _ (Nat.pos_of_ne_zero hne)
  have hg : (initMaze w h).InGrid (stPos (initState o w h)) :=
    inGrid_posOfIdx (initMaze w h) hlen hcur
  refine ⟨rfl, rfl, initMaze_WF w h, initMaze_SymWalls w h, initMaze_Boundary w h,
    hcur, le_refl 1, {stPos (initState o w h)}, Finset.card_singleton _, ?_, ?_, ?_, ?_, ?_, ?_, ?_, ?_⟩
  · intro p hp
    rw [Finset.mem_singleton] at hp
    rwa [hp]
  · exact Finset.mem_singleton_self _
  · intro i hi
    exact absurd hi (List.not_mem_nil i)
  · intro p hp hnp
    exact initMaze_wallsAt w h p
  · intro p hp hne'
    rw [Finset.mem_singleton] at hp
    exact absurd hp hne'
  · intro a ha b hb
    rw [Finset.mem_singleton] at ha hb
    rw [ha, hb]
    exact ⟨[stPos (initState o w h)], path_singleton _ _, fun q hq => path_self_eq hq⟩
  · show (initMaze w h).openPairs.card + 1 = 1
    rw [initMaze_openPairs, Finset.card_empty]
  · intro p hp hex
    rw [Finset.mem_singleton] at hp
    exact Or.inl hp

theorem push_preserves (w h : Nat) (st : RState) (m' : Maze) (p' : Int × Int)
    (hinv : LoopInv w h st)
    (hg' : st.maze.InGrid p') (hd' : posDist (stPos st) p' = 1)
    (hfull' : st.maze.wallsAt p' = {N, S, E, W})
    (hC : ConnSpec st.maze m' (stPos st) p') :
    LoopInv w h ⟨m', idxOfPos st.maze.width p', st.cur :: st.stack, st.nVisited + 1⟩ := by
  obtain ⟨hW, hH, hwf, hsym, hbd, hcur, hn1, V, hVcard, hVgrid, hVcur, hVstack,
    hfullout, hnfin, hpaths, hpairs, hstk⟩ := hinv
  obtain ⟨cW, cH, cwf, csub, cframe, cnfu, cnfl, copen, cmono, cfwd, csym, cbd, ccnt⟩ := hC
  have hgrid' : ∀ pp, m'.InGrid pp ↔ st.maze.InGrid pp := by
    intro pp
    unfold Maze.InGrid
    rw [cW, cH]
  have hlen' : m'.cells.length = st.maze.cells.length := by
    rw [cwf.1, cW, cH, ← hwf.1]
  have hne : p' ≠ stPos st := by
    intro hc
    rw [hc] at hd'
    unfold posDist at hd'
    omega
  have hpV : p' ∉ V := by
    intro hc
    exact hnfin p' hc hne hfull'
  have hstpos' : stPos ⟨m', idxOfPos st.maze.width p', st.cur :: st.stack, st.nVisited + 1⟩ = p' := by
    show posOfIdx m'.width (idxOfPos st.maze.width p') = p'
    rw [cW]
    exact posOfIdx_idxOfPos _ hg'.1 hg'.2.1 hg'.2.2.1
  refine ⟨cW.trans hW, cH.trans hH, cwf, csym, cbd hbd, ?_,
    by show 1 ≤ st.nVisited + 1; omega,
    insert p' V, ?_, ?_, ?_, ?_, ?_, ?_, ?_, ?_, ?_⟩
  · show idxOfPos st.maze.width p' < m'.cells.length
    rw [hlen']
    exact idxOfPos_lt st.maze hwf.1 hg'
  · rw [Finset.card_insert_of_not_mem hpV, hVcard]
  · intro p hp
    rcases Finset.mem_insert.mp hp with hp1 | hp1
    · rw [hgrid', hp1]
      exact hg'
    · rw [hgrid']
      exact hVgrid p hp1
  · rw [hstpos']
    exact Finset.mem_insert_self p' V
  · intro i hi0
    rcases List.mem_cons.mp hi0 with hi | hi
    · subst hi
      refine ⟨by rw [hlen']; exact hcur, ?_⟩
      show posOfIdx m'.width st.cur ∈ insert p' V
      rw [cW]
      exact Finset.mem_insert_of_mem hVcur
    · obtain ⟨hi1, hi2⟩ := hVstack i hi
      refine ⟨by rw [hlen']; exact hi1, ?_⟩
      show posOfIdx m'.width i ∈ insert p' V
      rw [cW]
      exact Finset.mem_insert_of_mem hi2
  · intro p hp hnp
    have hp1 : p ∉ V := fun hc => hnp (Finset.mem_insert_of_mem hc)
    have hp2 : p ≠ p' := fun hc => hnp (hc ▸ Finset.mem_insert_self p' V)
    have hp3 : p ≠ stPos st := fun hc => hp1 (hc ▸ hVcur)
    rw [cframe p hp3 hp2]
    exact hfullout p ((hgrid' p).mp hp) hp1
  · intro p hp hnp
    rw [hstpos'] at hnp
    rcases Finset.mem_insert.mp hp with hp1 | hp1
    · exact absurd hp1 hnp
    by_cases hp3 : p = stPos st
    · rw [hp3]
      exact cnfu
    · rw [cframe p hp3 (fun hc => hnp hc)]
      exact hnfin p hp1 hp3
  · rw [hstpos'] at *
    exact pendant_unique st.maze m' (stPos st) p' V hVcur hpV hfull' cmono cfwd copen hpaths
  · show m'.openPairs.card + 1 = st.nVisited + 1
    rw [ccnt]
    omega
  · intro p hp hex
    rw [hstpos']
    obtain ⟨p'', hg'', hd'', hfull''⟩ := hex
    have hgm : st.maze.InGrid p'' := (hgrid' p'').mp hg''
    have hne1 : p'' ≠ stPos st := fun hc => cnfu (hc ▸ hfull'')
    have hne2 : p'' ≠ p' := fun hc => cnfl (hc ▸ hfull'')
    have hfullm : st.maze.wallsAt p'' = {N, S, E, W} := by
      rw [← cframe p'' hne1 hne2]
      exact hfull''
    rcases Finset.mem_insert.mp hp with hp1 | hp1
    · exact Or.inl hp1
    · rcases hstk p hp1 ⟨p'', hgm, hd'', hfullm⟩ with hc | ⟨i, hi, hpi⟩
      · refine Or.inr ⟨st.cur, List.mem_cons_self _ _, ?_⟩
        show posOfIdx m'.width st.cur = p
        rw [cW]
        exact hc.symm
      · refine Or.inr ⟨i, List.mem_cons_of_mem _ hi, ?_⟩
        show posOfIdx m'.width i = p
        rw [cW]
        exact hpi

theorem pop_preserves (w h : Nat) (st : RState) (s : Nat) (rest : List Nat)
    (hinv : LoopInv w h st) (hstack : st.stack = s :: rest)
    (hnofull : ∀ p', st.maze.InGrid p' → posDist (stPos st) p' = 1 →
      st.maze.wallsAt p' ≠ {N, S, E, W}) :
    LoopInv w h ⟨st.maze, s, rest, st.nVisited⟩ := by
  obtain ⟨hW, hH, hwf, hsym, hbd, hcur, hn1, V, hVcard, hVgrid, hVcur, hVstack,
    hfullout, hnfin, hpaths, hpairs, hstk⟩ := hinv
  have hsmem : s ∈ st.stack := by rw [hstack]; exact List.mem_cons_self s rest
  obtain ⟨hs1, hs2⟩ := hVstack s hsmem
  have hstpos' : stPos ⟨st.maze, s, rest, st.nVisited⟩ = posOfIdx st.maze.width s := rfl
  -- the old current cell is not full when it differs from the new one
  have hcur_nonfull : stPos st ≠ posOfIdx st.maze.width s →
      st.maze.wallsAt (stPos st) ≠ {N, S, E, W} := by
    intro hne hfull
    -- the new current position is a second visited cell, so a path of
    -- length ≥ 2 leaves the old current cell through an open wall
    obtain ⟨pth, hpth, -⟩ := hpaths (stPos st) hVcur (posOfIdx st.maze.width s) hs2
    have hlen2 : 2 ≤ pth.length := by
      rcases pth with - | ⟨z, t⟩
      · exact absurd hpth.1 (by simp)
      rcases t with - | ⟨z2, t2⟩
      · exfalso
        have h1 : z = stPos st := Option.some.inj hpth.1
        have h2 : z = posOfIdx st.maze.width s := Option.some.inj hpth.2.1
        exact hne (h1 ▸ h2)
      · simp only [List.length_cons]
        omega
    have hmem : stPos st ∈ pth := by
      rcases pth with - | ⟨z, t⟩
      · exact absurd hpth.1 (by simp)
      · have h1 : z = stPos st := Option.some.inj hpth.1
        rw [h1]
        exact List.mem_cons_self _ _
    obtain ⟨y, -, hr⟩ := chain'_mem_edge pth hpth.2.2.1 (stPos st) hmem hlen2
    rcases hr with hr | hr
    · exact (not_open_of_full hfull y).2 hr
    · exact (not_open_of_full hfull y).1 hr
  refine ⟨hW, hH, hwf, hsym, hbd, hs1, hn1, V, hVcard, hVgrid, hs2, ?_, hfullout,
    ?_, hpaths, hpairs, ?_⟩
  · intro i hi
    exact hVstack i (by rw [hstack]; exact List.mem_cons_of_mem s hi)
  · intro p hp hne
    rw [hstpos'] at hne
    by_cases hps : p = stPos st
    · rw [hps]
      exact hcur_nonfull (hps ▸ hne)
    · exact hnfin p hp hps
  · intro p hp hex
    rcases hstk p hp hex with hc | ⟨i, hi, hpi⟩
    · exfalso
      obtain ⟨p'', hg'', hd'', hfull''⟩ := hex
      rw [hc] at hd''
      exact hnofull p'' hg'' hd'' hfull''
    · rw [hstack] at hi
      rcases List.mem_cons.mp hi with hi1 | hi1
    
      · exact Or.inl (by rw [hstpos', ← hi1]; exact hpi.symm)
      · exact Or.inr ⟨i, hi1, hpi⟩

theorem no_underflow (w h : Nat) (st : RState)
    (hinv : LoopInv w h st) (hlt : st.nVisited < st.maze.cells.length)
    (hnofull : ∀ p', st.maze.InGrid p' → posDist (stPos st) p' = 1 →
      st.maze.wallsAt p' ≠ {N, S, E, W}) :
    st.stack ≠ [] := by
  intro hempty
  obtain ⟨hW, hH, hwf, hsym, hbd, hcur, hn1, V, hVcard, hVgrid, hVcur, hVstack,
    hfullout, hnfin, hpaths, hpairs, hstk⟩ := hinv
  -- some in-grid position is missing from V
  obtain ⟨u, hgu, huV⟩ : ∃ u : Int × Int, st.maze.InGrid u ∧ u ∉ V := by
    by_contra hc
    push_neg at hc
    have hsub : gridFinset w h ⊆ V := by
      intro p hp
      exact hc p ((mem_gridFinset hW hH p).mp hp)
    have hge := Finset.card_le_card hsub
    rw [gridFinset_card, hVcard] at hge
    rw [hwf.1, hW, hH] at hlt
    omega
  obtain ⟨a, haV, b, hgb, hbV, hab⟩ :=
    grid_crossing st.maze V (posDist (stPos st) u) (stPos st) u rfl hVcur
      (inGrid_posOfIdx st.maze hwf.1 hcur) hgu huV
  have hfullb : st.maze.wallsAt b = {N, S, E, W} := hfullout b hgb hbV
  rcases hstk a haV ⟨b, hgb, hab, hfullb⟩ with hc | ⟨i, hi, -⟩
  · rw [hc] at hab
    exact hnofull b hgb hab hfullb
  · rw [hempty] at hi
    exact List.not_mem_nil i hi

/-- Progress and preservation: from an invariant state the loop body either
terminates (all cells visited), pushes (consuming one random choice), or
backtracks; it never raises and never pops an empty stack. -/
theorem rstep_cases (w h : Nat) (st : RState) (r : Nat) (hinv : LoopInv w h st) :
    (st.maze.cells.length ≤ st.nVisited ∧ rstep st r = .done st.maze) ∨
    (∃ st', rstep st r = .next true st' ∧ LoopInv w h st' ∧
      st'.nVisited = st.nVisited + 1 ∧ st'.stack.length = st.stack.length + 1 ∧
      st'.maze.cells.length = st.maze.cells.length) ∨
    (∃ st', rstep st r = .next false st' ∧ LoopInv w h st' ∧
      st'.nVisited = st.nVisited ∧ st'.stack.length + 1 = st.stack.length ∧
      st'.maze = st.maze) := by
  by_cases hlt : st.nVisited < st.maze.cells.length
  · right
    have hcur := hinv.2.2.2.2.2.1
    have hwf := hinv.2.2.1
    have hsym := hinv.2.2.2.1
    have hw0 : 0 < st.maze.width := by
      rcases Nat.eq_zero_or_pos st.maze.width with h0 | h0
      · exfalso
        have h1 : st.maze.cells.length = 0 := by
          rw [hwf.1, h0]
          exact Nat.zero_mul _
        omega
      · exact h0
    have hgcur : st.maze.InGrid (stPos st) := inGrid_posOfIdx st.maze hwf.1 hcur
    by_cases hfe : (fullNeighbors st.maze (st.maze.cells.getD st.cur cellDflt)).length ≠ 0
    · -- push branch
      left
      have hidx : r % (fullNeighbors st.maze (st.maze.cells.getD st.cur cellDflt)).length <
          (fullNeighbors st.maze (st.maze.cells.getD st.cur cellDflt)).length :=
        Nat.mod_lt _ (Nat.pos_of_ne_zero hfe)
      have hnbr_mem : (fullNeighbors st.maze (st.maze.cells.getD st.cur cellDflt)).getD
          (r % (fullNeighbors st.maze (st.maze.cells.getD st.cur cellDflt)).length) cellDflt ∈
          fullNeighbors st.maze (st.maze.cells.getD st.cur cellDflt) := by
        rw [List.getD_lt _ _ hidx]
        exact List.get_mem _ _ _
      obtain ⟨hg', hd', hfull'⟩ := mem_fullNeighbors st.maze hwf _ hnbr_mem
      have hcx : (st.maze.cells.getD st.cur cellDflt).x = (stPos st).1 := by
        rw [List.getD_lt _ _ hcur]
        exact (hwf.2 _ hcur).1
      have hcy : (st.maze.cells.getD st.cur cellDflt).y = (stPos st).2 := by
        rw [List.getD_lt _ _ hcur]
        exact (hwf.2 _ hcur).2
      rw [show (((st.maze.cells.getD st.cur cellDflt).x,
        (st.maze.cells.getD st.cur cellDflt).y) : Int × Int) = stPos st
        from Prod.ext hcx hcy] at hd'
      obtain ⟨m', hok, hC⟩ := connectIdx_spec st.maze hwf hsym hgcur hg' hd' hfull'
      have hcur_idx : idxOfPos st.maze.width (stPos st) = st.cur :=
        idxOfPos_posOfIdx _ hw0 _
      have hok' : st.maze.connectIdx st.cur
          (cellIndex st.maze ((fullNeighbors st.maze
            (st.maze.cells.getD st.cur cellDflt)).getD
            (r % (fullNeighbors st.maze (st.maze.cells.getD st.cur cellDflt)).length)
            cellDflt)) = .ok m' := by
        rw [hcur_idx] at hok
        exact hok
      refine ⟨⟨m', cellIndex st.maze ((fullNeighbors st.maze
          (st.maze.cells.getD st.cur cellDflt)).getD
          (r % (fullNeighbors st.maze (st.maze.cells.getD st.cur cellDflt)).length)
          cellDflt), st.cur :: st.stack, st.nVisited + 1⟩, ?_, ?_, rfl, rfl, ?_⟩
      · unfold rstep
        rw [if_pos hlt]
        dsimp only
        rw [if_pos hfe, hok']
      · exact push_preserves w h st m' _ hinv hg' hd' hfull' hC
      · show m'.cells.length = st.maze.cells.length
        rw [hC.2.2.1.1, hC.1, hC.2.1, ← hwf.1]
    · -- backtrack branch
      right
      push_neg at hfe
      have hfnil : fullNeighbors st.maze (st.maze.cells.getD st.cur cellDflt) = [] :=
        List.length_eq_zero.mp hfe
      have hcx : (st.maze.cells.getD st.cur cellDflt).x = (stPos st).1 := by
        rw [List.getD_lt _ _ hcur]
        exact (hwf.2 _ hcur).1
      have hcy : (st.maze.cells.getD st.cur cellDflt).y = (stPos st).2 := by
        rw [List.getD_lt _ _ hcur]
        exact (hwf.2 _ hcur).2
      have hnofull : ∀ p', st.maze.InGrid p' → posDist (stPos st) p' = 1 →
          st.maze.wallsAt p' ≠ {N, S, E, W} := by
        intro p' hgp hdp
        apply fullNeighbors_nil st.maze hwf _ hfnil p' hgp
        rw [show (((st.maze.cells.getD st.cur cellDflt).x,
          (st.maze.cells.getD st.cur cellDflt).y) : Int × Int) = stPos st
          from Prod.ext hcx hcy]
        exact hdp
      obtain ⟨s, rest, hstack⟩ : ∃ s rest, st.stack = s :: rest := by
        cases hst : st.stack with
        | nil => exact absurd hst (no_underflow w h st hinv hlt hnofull)
        | cons s rest => exact ⟨s, rest, rfl⟩
      refine ⟨⟨st.maze, s, rest, st.nVisited⟩, ?_, ?_, rfl, ?_, rfl⟩
      · unfold rstep
        rw [if_pos hlt]
        dsimp only
        rw [if_neg (by rw [hfnil]; exact fun hc => hc rfl), hstack]
      · exact pop_preserves w h st s rest hinv hstack hnofull
      · rw [hstack]
        rfl
  · left
    refine ⟨by omega, ?_⟩
    unfold rstep
    rw [if_neg hlt]

/-- Derived from one pass of the invariant through the fuelled loop: with
enough fuel the loop returns normally, and the final maze is a perfect
maze on the whole grid. -/
theorem runLoop_ok (w h : Nat) (o : Nat → Nat) :
    ∀ (fuel k : Nat) (st : RState), LoopInv w h st →
      2 * (st.maze.cells.length - st.nVisited) + st.stack.length < fuel →
      ∃ m', runLoop o k fuel st = .ok m' ∧
        m'.width = w ∧ m'.height = h ∧ m'.WF ∧ m'.SymWalls ∧ m'.Boundary ∧
        m'.openPairs.card + 1 = m'.cells.length ∧
        (∀ a, m'.InGrid a → ∀ b, m'.InGrid b → ∃! pth, IsMazePath m' a b pth) := by
  intro fuel
  induction fuel with
  | zero =>
    intro k st hinv hm
    exact absurd hm (Nat.not_lt_zero _)
  | succ fuel ih =>
    intro k st hinv hm
    rcases rstep_cases w h st (o k) hinv with ⟨hge, hdone⟩ |
      ⟨st', hstep, hinv', hn, hs, hl⟩ | ⟨st', hstep, hinv', hn, hs, hl⟩
    · obtain ⟨hW, hH, hwf, hsym, hbd, hcur, hn1, V, hVcard, hVgrid, hVcur, hVstack,
        hfullout, hnfin, hpaths, hpairs, hstk⟩ := hinv
      have hVsub : V ⊆ gridFinset w h := by
        intro p hp
        exact (mem_gridFinset hW hH p).mpr (hVgrid p hp)
      have hVle : V.card ≤ w * h := by
        have := Finset.card_le_card hVsub
        rwa [gridFinset_card] at this
      have hVeq : V = gridFinset w h := by
        apply Finset.eq_of_subset_of_card_le hVsub
        rw [gridFinset_card, hVcard]
        rw [hwf.1, hW, hH] at hge
        exact hge
      have hnlen : st.nVisited = st.maze.cells.length := by
        have h1 : st.maze.cells.length ≤ st.nVisited := hge
        have h2 : st.nVisited ≤ w * h := by rw [← hVcard]; exact hVle
        have h3 : st.maze.cells.length = w * h := by rw [hwf.1, hW, hH]
        omega
      refine ⟨st.maze, ?_, hW, hH, hwf, hsym, hbd, by rw [hpairs]; exact hnlen, ?_⟩
      · show runLoop o k (fuel + 1) st = .ok st.maze
        unfold runLoop
        rw [hdone]
      · intro a hga b hgb
        have haV : a ∈ V := by rw [hVeq]; exact (mem_gridFinset hW hH a).mpr hga
        have hbV : b ∈ V := by rw [hVeq]; exact (mem_gridFinset hW hH b).mpr hgb
        exact hpaths a haV b hbV
    · have hlt : st.nVisited < st.maze.cells.length := by
        by_contra hc
        unfold rstep at hstep
        rw [if_neg hc] at hstep
        exact StepRes.noConfusion hstep
      obtain ⟨m', hrun, hrest⟩ := ih (k + 1) st' hinv' (by rw [hl, hn, hs]; omega)
      refine ⟨m', ?_, hrest⟩
      have heq : runLoop o k (fuel + 1) st = runLoop o (k + 1) fuel st' := by
        conv_lhs => rw [runLoop]
        rw [hstep]
      rw [heq]
      exact hrun
    · have hlt : st.nVisited < st.maze.cells.length := by
        by_contra hc
        unfold rstep at hstep
        rw [if_neg hc] at hstep
        exact StepRes.noConfusion hstep
      obtain ⟨m', hrun, hrest⟩ := ih k st' hinv' (by rw [hl, hn]; omega)
      refine ⟨m', ?_, hrest⟩
      have heq : runLoop o k (fuel + 1) st = runLoop o k fuel st' := by
        conv_lhs => rw [runLoop]
        rw [hstep]
      rw [heq]
      exact hrun

/-- `randomize` on a fresh grid returns normally and produces a perfect maze. -/
theorem randomize_ok_spec (w h : Nat) (hw : 1 ≤ w) (hh : 1 ≤ h) (o : Nat → Nat) :
    ∃ m', (initMaze w h).randomize o = .ok m' ∧
      m'.width = w ∧ m'.height = h ∧ m'.WF ∧ m'.SymWalls ∧ m'.Boundary ∧
      m'.openPairs.card + 1 = m'.cells.length ∧
      (∀ a, m'.InGrid a → ∀ b, m'.InGrid b → ∃! pth, IsMazePath m' a b pth) := by
  have hlen : (initMaze w h).cells.length = w * h := initCells_length w h
  have hne : (initMaze w h).cells.length ≠ 0 := by
    rw [hlen]
    have : 1 ≤ w * h := Nat.one_le_iff_ne_zero.mpr (by positivity)
    omega
  obtain ⟨m', hrun, hrest⟩ := runLoop_ok w h o (2 * (initMaze w h).cells.length + 1) 1
    (initState o w h) (initState_inv w h o hne) (by
      show 2 * ((initMaze w h).cells.length - 1) + ([] : List Nat).length <
        2 * (initMaze w h).cells.length + 1
      simp only [List.length_nil]
      omega)
  refine ⟨m', ?_, hrest⟩
  unfold Maze.randomize
  rw [if_neg hne]
  exact hrun

/-- Every state the generator's loop reaches satisfies the invariant. -/
theorem randreach_inv (w h : Nat) (o : Nat → Nat) :
    ∀ k st, RandReach o w h k st → LoopInv w h st := by
  intro k st hreach
  induction hreach with
  | start hne => exact initState_inv w h o hne
  | @stepC k st st' hr hstep ih =>
    rcases rstep_cases w h st (o k) ih with ⟨-, hdone⟩ |
      ⟨st'', hstep', hinv'', -, -, -⟩ | ⟨st'', hstep', -, -, -, -⟩
    · rw [hstep] at hdone
      exact StepRes.noConfusion hdone
    · have : st'' = st' := by
        have := hstep'.symm.trans hstep
        injection this
      rwa [this] at hinv''
    · have := hstep'.symm.trans hstep
      injection this with h1 h2
      exact absurd h1 (by decide)
  | @stepN k st st' hr hstep ih =>
    rcases rstep_cases w h st (o k) ih with ⟨-, hdone⟩ |
      ⟨st'', hstep', -, -, -, -⟩ | ⟨st'', hstep', hinv'', -, -, -⟩
    · rw [hstep] at hdone
      exact StepRes.noConfusion hdone
    · have := hstep'.symm.trans hstep
      injection this with h1 h2
      exact absurd h1 (by decide)
    · have : st'' = st' := by
        have := hstep'.symm.trans hstep
        injection this
      rwa [this] at hinv''

/-! ## Claims about `randomize` -/

/-- C1: on every fresh `w × h` grid (`w, h ≥ 1`) and for every sequence of
random choices, `randomize` completes and the passage structure is a
spanning tree: every cell is reachable from every other through open
walls, the simple open path between any two cells is unique, and exactly
`w*h - 1` mutual walls have been removed. -/
theorem C1_randomize_builds_spanning_tree (w h : Nat) (hw : 1 ≤ w) (hh : 1 ≤ h)
    (o : Nat → Nat) :
    ∃ m', (initMaze w h).randomize o = .ok m' ∧
      (∀ a, m'.InGrid a → ∀ b, m'.InGrid b → ∃ pth, IsMazePath m' a b pth) ∧
      (∀ a, m'.InGrid a → ∀ b, m'.InGrid b → ∃! pth, IsMazePath m' a b pth) ∧
      m'.openPairs.card = w * h - 1 := by
  obtain ⟨m', hok, hW, hH, hwf, -, -, hcnt, hpaths⟩ := randomize_ok_spec w h hw hh o
  refine ⟨m', hok, ?_, hpaths, ?_⟩
  · intro a ha b hb
    obtain ⟨pth, hpth, -⟩ := hpaths a ha b hb
    exact ⟨pth, hpth⟩
  · have hlen : m'.cells.length = w * h := by rw [hwf.1, hW, hH]
    omega

theorem C1_witness :
    1 ≤ 1 ∧
    ∃ m', (initMaze 1 1).randomize (fun _ => 0) = .ok m' ∧
      (∀ a, m'.InGrid a → ∀ b, m'.InGrid b → ∃ pth, IsMazePath m' a b pth) ∧
      (∀ a, m'.InGrid a → ∀ b, m'.InGrid b → ∃! pth, IsMazePath m' a b pth) ∧
      m'.openPairs.card = 1 * 1 - 1 :=
  ⟨by decide, C1_randomize_builds_spanning_tree 1 1 (by decide) (by decide) (fun _ => 0)⟩

/-- C8: on every fresh grid with positive dimensions the generation loop
completes normally, for every sequence of random choices. -/
theorem C8_randomize_terminates (w h : Nat) (hw : 1 ≤ w) (hh : 1 ≤ h) (o : Nat → Nat) :
    ∃ m', (initMaze w h).randomize o = .ok m' := by
  obtain ⟨m', hok, -⟩ := randomize_ok_spec w h hw hh o
  exact ⟨m', hok⟩

theorem C8_witness :
    1 ≤ 2 ∧ ∃ m', (initMaze 2 3).randomize (fun k => k * 5 + 2) = .ok m' :=
  ⟨by decide, C8_randomize_terminates 2 3 (by decide) (by decide) (fun k => k * 5 + 2)⟩

/-- C7: two runs of `randomize` from the same fresh grid with the same
sequence of random choices produce identical results (in particular,
identical wall configurations on every cell). -/
theorem C7_randomize_deterministic (w h : Nat) (o1 o2 : Nat → Nat)
    (hsame : ∀ i, o1 i = o2 i) :
    (initMaze w h).randomize o1 = (initMaze w h).randomize o2 := by
  have : o1 = o2 := funext hsame
  rw [this]

theorem C7_witness :
    (initMaze 2 2).randomize (fun i => i + 1) = (initMaze 2 2).randomize (fun i => 1 + i) :=
  C7_randomize_deterministic 2 2 (fun i => i + 1) (fun i => 1 + i)
    (fun i => Nat.add_comm i 1)

/-- C4: in every state the generator can reach on a fresh grid, if the
dead-end branch is taken (no full neighbor while not every cell is
visited), the backtrack stack is non-empty, so `cell_stack.pop()` never
runs on an empty list. -/
theorem C4_dead_end_stack_nonempty (w h : Nat) (o : Nat → Nat) (k : Nat) (st : RState)
    (hreach : RandReach o w h k st)
    (hlt : st.nVisited < st.maze.cells.length)
    (hdead : fullNeighbors st.maze (st.maze.cells.getD st.cur cellDflt) = []) :
    st.stack ≠ [] := by
  have hinv := randreach_inv w h o k st hreach
  have hwf := hinv.2.2.1
  have hcur := hinv.2.2.2.2.2.1
  have hcx : (st.maze.cells.getD st.cur cellDflt).x = (stPos st).1 := by
    rw [List.getD_lt _ _ hcur]
    exact (hwf.2 _ hcur).1
  have hcy : (st.maze.cells.getD st.cur cellDflt).y = (stPos st).2 := by
    rw [List.getD_lt _ _ hcur]
    exact (hwf.2 _ hcur).2
  apply no_underflow w h st hinv hlt
  intro p' hgp hdp
  apply fullNeighbors_nil st.maze hwf _ hdead p' hgp
  rw [show (((st.maze.cells.getD st.cur cellDflt).x,
    (st.maze.cells.getD st.cur cellDflt).y) : Int × Int) = stPos st
    from Prod.ext hcx hcy]
  exact hdp

theorem C4_witness :
    (RandReach (fun _ => 1) 3 1 2
      ⟨⟨3, 1, [⟨0, 0, {N, S, E, W}⟩, ⟨1, 0, {N, S, W}⟩, ⟨2, 0, {N, S, E}⟩]⟩, 2, [1], 2⟩ ∧
     (2 : Nat) < 3 ∧
     fullNeighbors (⟨3, 1, [⟨0, 0, {N, S, E, W}⟩, ⟨1, 0, {N, S, W}⟩, ⟨2, 0, {N, S, E}⟩]⟩ : Maze)
       ⟨2, 0, {N, S, E}⟩ = []) ∧
    ([1] : List Nat) ≠ [] := by
  have hreach : RandReach (fun _ => 1) 3 1 2
      ⟨⟨3, 1, [⟨0, 0, {N, S, E, W}⟩, ⟨1, 0, {N, S, W}⟩, ⟨2, 0, {N, S, E}⟩]⟩, 2, [1], 2⟩ :=
    RandReach.stepC (RandReach.start (by decide)) (by decide)
  exact ⟨⟨hreach, by decide, by decide⟩,
    C4_dead_end_stack_nonempty 3 1 (fun _ => 1) 2 _ hreach (by decide) (by decide)⟩

/-- C10: border cells keep their outward walls in every state the
generator reaches from a fresh grid, and in the final maze it returns. -/
theorem C10_boundary_walls_kept (w h : Nat) (o : Nat → Nat) :
    (∀ k st, RandReach o w h k st → st.maze.Boundary) ∧
    (∀ m', (initMaze w h).randomize o = .ok m' → m'.Boundary) := by
  constructor
  · intro k st hreach
    exact (randreach_inv w h o k st hreach).2.2.2.2.1
  · intro m' hok
    by_cases hzero : (initMaze w h).cells.length = 0
    · exfalso
      unfold Maze.randomize at hok
      rw [if_pos hzero] at hok
      exact Except.noConfusion hok
    · have hwh : w ≠ 0 ∧ h ≠ 0 := by
        rw [show (initMaze w h).cells.length = w * h from initCells_length w h] at hzero
        exact Nat.mul_ne_zero_iff.mp hzero
      obtain ⟨m'', hok'', -, -, -, -, hbd, -⟩ := randomize_ok_spec w h
        (Nat.one_le_iff_ne_zero.mpr hwh.1) (Nat.one_le_iff_ne_zero.mpr hwh.2) o
      have : m' = m'' := by
        have := hok.symm.trans hok''
        injection this
      rw [this]
      exact hbd

theorem C10_witness :
    (initState (fun _ => 0) 1 1).maze.Boundary ∧ (initMaze 1 1).Boundary :=
  ⟨(C10_boundary_walls_kept 1 1 (fun _ => 0)).1 1 _ (RandReach.start (by decide)),
   (C10_boundary_walls_kept 1 1 (fun _ => 0)).2 (initMaze 1 1) (by decide)⟩

/-- C2 counterexample: on the fully connected `1 × 2` grid (no cell full),
a second `randomize` does **not** terminate cleanly: the first loop
iteration finds no full neighbor and pops the empty backtrack stack,
raising `IndexError`; the walls are untouched at that point. -/
theorem C2_counterexample :
    (∀ c ∈ (⟨1, 2, [⟨0, 0, {N, W, E}⟩, ⟨0, 1, {S, W, E}⟩]⟩ : Maze).cells,
      c.is_full = false) ∧
    (⟨1, 2, [⟨0, 0, {N, W, E}⟩, ⟨0, 1, {S, W, E}⟩]⟩ : Maze).randomize (fun _ => 0) =
      .error (.underflow, ⟨1, 2, [⟨0, 0, {N, W, E}⟩, ⟨0, 1, {S, W, E}⟩]⟩) := by
  constructor
  · decide
  · decide

/-- C2 (amended): a second `randomize` on an already fully-connected grid
(no cell full) with at least two cells always fails with an empty-stack
pop (`IndexError`) on the first iteration, and the error state carries
every cell's wall set unchanged. -/
theorem C2_second_randomize_pops_empty_stack (m : Maze) (h2 : 2 ≤ m.cells.length)
    (hnofull : ∀ c ∈ m.cells, c.is_full = false) (o : Nat → Nat) :
    m.randomize o = .error (.underflow, m) := by
  have hne : m.cells.length ≠ 0 := by omega
  have hfnil : fullNeighbors m (m.cells.getD (o 0 % m.cells.length) cellDflt) = [] := by
    unfold fullNeighbors
    rw [List.filter_eq_nil_iff]
    intro c hc
    have hmem : c ∈ m.cells := by
      unfold Maze.neighbors at hc
      rw [List.mem_filterMap] at hc
      obtain ⟨pr, -, hget⟩ := hc
      unfold Maze.getItem at hget
      by_cases hin : 0 ≤ pr.1 ∧ pr.1 < m.width ∧ 0 ≤ pr.2 ∧ pr.2 < m.height
      · rw [if_pos hin] at hget
        exact List.get?_mem hget
      · rw [if_neg hin] at hget
        exact Option.noConfusion hget
    rw [hnofull c hmem]
    exact Bool.false_ne_true
  have hstep : rstep ⟨m, o 0 % m.cells.length, [], 1⟩ (o 1) = .fail .underflow m := by
    unfold rstep
    rw [if_pos (by show 1 < m.cells.length; omega)]
    dsimp only
    rw [if_neg (by rw [hfnil]; exact fun hc => hc rfl)]
  unfold Maze.randomize
  rw [if_neg hne]
  have hfuel : 2 * m.cells.length + 1 = (2 * m.cells.length) + 1 := rfl
  rw [hfuel]
  conv_lhs => rw [runLoop]
  rw [hstep]

theorem C2_amended_witness :
    (2 ≤ (⟨1, 2, [⟨0, 0, {N, W, E}⟩, ⟨0, 1, {S, W, E}⟩]⟩ : Maze).cells.length ∧
      ∀ c ∈ (⟨1, 2, [⟨0, 0, {N, W, E}⟩, ⟨0, 1, {S, W, E}⟩]⟩ : Maze).cells,
        c.is_full = false) ∧
    (⟨1, 2, [⟨0, 0, {N, W, E}⟩, ⟨0, 1, {S, W, E}⟩]⟩ : Maze).randomize (fun _ => 3) =
      .error (.underflow, ⟨1, 2, [⟨0, 0, {N, W, E}⟩, ⟨0, 1, {S, W, E}⟩]⟩) :=
  ⟨⟨by decide, by decide⟩,
    C2_second_randomize_pops_empty_stack _ (by decide) (by decide) (fun _ => 3)⟩

/-! ## General `connect` calls (claim C3's premise) -/

/-- Wall symmetry and boundary preservation from the canonical walls
description of a vertical connect, with no fullness assumption. -/
theorem symBound_vert (m m2 : Maze) (hsym : m.SymWalls) (u : Int × Int)
    (hu : m.InGrid u) (hl : m.InGrid (u.1, u.2 + 1))
    (hWd : m2.width = m.width) (hHt : m2.height = m.height)
    (hwalls : ∀ r : Int × Int, m2.wallsAt r =
      if r = u then (m.wallsAt u).erase S
      else if r = (u.1, u.2 + 1) then (m.wallsAt (u.1, u.2 + 1)).erase N
      else m.wallsAt r) :
    m2.SymWalls ∧ (m.Boundary → m2.Boundary) := by
  have hul : u ≠ (u.1, u.2 + 1) := by
    intro hc
    have h2 := congrArg Prod.snd hc
    simp only at h2
    omega
  have hS : ∀ r, S ∈ m2.wallsAt r ↔ (S ∈ m.wallsAt r ∧ r ≠ u) := by
    intro r
    rw [hwalls r]
    by_cases h1 : r = u
    · subst h1
      rw [if_pos rfl, Finset.mem_erase]
      simp
    · rw [if_neg h1]
      by_cases h2 : r = (u.1, u.2 + 1)
      · subst h2
        rw [if_pos rfl, Finset.mem_erase]
        constructor
        · rintro ⟨-, hm⟩; exact ⟨hm, h1⟩
        · rintro ⟨hm, -⟩; exact ⟨by decide, hm⟩
      · rw [if_neg h2]
        constructor
        · intro hm; exact ⟨hm, h1⟩
        · rintro ⟨hm, -⟩; exact hm
  have hN : ∀ r, N ∈ m2.wallsAt r ↔ (N ∈ m.wallsAt r ∧ r ≠ (u.1, u.2 + 1)) := by
    intro r
    rw [hwalls r]
    by_cases h1 : r = u
    · subst h1
      rw [if_pos rfl, Finset.mem_erase]
      constructor
      · rintro ⟨-, hm⟩; exact ⟨hm, hul⟩
      · rintro ⟨hm, -⟩; exact ⟨by decide, hm⟩
    · rw [if_neg h1]
      by_cases h2 : r = (u.1, u.2 + 1)
      · subst h2
        rw [if_pos rfl, Finset.mem_erase]
        simp
      · rw [if_neg h2]
        constructor
        · intro hm; exact ⟨hm, h2⟩
        · rintro ⟨hm, -⟩; exact hm
  have hE : ∀ r, E ∈ m2.wallsAt r ↔ E ∈ m.wallsAt r := by
    intro r
    rw [hwalls r]
    by_cases h1 : r = u
    · subst h1; rw [if_pos rfl, Finset.mem_erase]
      constructor
      · rintro ⟨-, hm⟩; exact hm
      · intro hm; exact ⟨by decide, hm⟩
    · rw [if_neg h1]
      by_cases h2 : r = (u.1, u.2 + 1)
      · subst h2; rw [if_pos rfl, Finset.mem_erase]
        constructor
        · rintro ⟨-, hm⟩; exact hm
        · intro hm; exact ⟨by decide, hm⟩
      · rw [if_neg h2]
  have hWc : ∀ r, W ∈ m2.wallsAt r ↔ W ∈ m.wallsAt r := by
    intro r
    rw [hwalls r]
    by_cases h1 : r = u
    · subst h1; rw [if_pos rfl, Finset.mem_erase]
      constructor
      · rintro ⟨-, hm⟩; exact hm
      · intro hm; exact ⟨by decide, hm⟩
    · rw [if_neg h1]
      by_cases h2 : r = (u.1, u.2 + 1)
      · subst h2; rw [if_pos rfl, Finset.mem_erase]
        constructor
        · rintro ⟨-, hm⟩; exact hm
        · intro hm; exact ⟨by decide, hm⟩
      · rw [if_neg h2]
  have hgeom : ∀ r : Int × Int, (r.1, r.2 + 1) = ((u.1, u.2 + 1) : Int × Int) ↔ r = u := by
    intro r
    constructor
    · intro hc
      have h1 := congrArg Prod.fst hc
      have h2 := congrArg Prod.snd hc
      simp only at h1 h2
      exact Prod.ext h1 (by omega)
    · intro hc; rw [hc]
  constructor
  · intro r hr
    have hrm : m.InGrid r := by
      obtain ⟨a1, a2, a3, a4⟩ := hr
      rw [hWd] at a2
      rw [hHt] at a4
      exact ⟨a1, a2, a3, a4⟩
    constructor
    · intro hsr
      have hsrm : m.InGrid (r.1, r.2 + 1) := by
        obtain ⟨a1, a2, a3, a4⟩ := hsr
        rw [hWd] at a2
        rw [hHt] at a4
        exact ⟨a1, a2, a3, a4⟩
      rw [hS r, hN (r.1, r.2 + 1)]
      have hold := (hsym r hrm).1 hsrm
      constructor
      · rintro ⟨hm, hru⟩
        exact ⟨hold.mp hm, fun hc => hru ((hgeom r).mp hc)⟩
      · rintro ⟨hm, hrl⟩
        exact ⟨hold.mpr hm, fun hc => hrl ((hgeom r).mpr hc)⟩
    · intro hsr
      have hsrm : m.InGrid (r.1 + 1, r.2) := by
        obtain ⟨a1, a2, a3, a4⟩ := hsr
        rw [hWd] at a2
        rw [hHt] at a4
        exact ⟨a1, a2, a3, a4⟩
      rw [hE r, hWc (r.1 + 1, r.2)]
      exact (hsym r hrm).2 hsrm
  · intro hbd r hr
    have hrm : m.InGrid r := by
      obtain ⟨a1, a2, a3, a4⟩ := hr
      rw [hWd] at a2
      rw [hHt] at a4
      exact ⟨a1, a2, a3, a4⟩
    obtain ⟨b1, b2, b3, b4⟩ := hbd r hrm
    refine ⟨?_, ?_, ?_, ?_⟩
    · intro h0
      rw [hN r]
      refine ⟨b1 h0, ?_⟩
      intro hc
      have := congrArg Prod.snd hc
      simp only at this
      obtain ⟨-, -, h3, -⟩ := hu
      omega
    · intro h0
      rw [hHt] at h0
      rw [hS r]
      refine ⟨b2 h0, ?_⟩
      intro hc
      subst hc
      obtain ⟨-, -, -, h4⟩ := hl
      simp only at h4
      omega
    · intro h0
      rw [hWc r]
      exact b3 h0
    · intro h0
      rw [hWd] at h0
      rw [hE r]
      exact b4 h0

/-- The horizontal analogue of `symBound_vert`. -/
theorem symBound_horiz (m m2 : Maze) (hsym : m.SymWalls) (u : Int × Int)
    (hu : m.InGrid u) (hl : m.InGrid (u.1 + 1, u.2))
    (hWd : m2.width = m.width) (hHt : m2.height = m.height)
    (hwalls : ∀ r : Int × Int, m2.wallsAt r =
      if r = u then (m.wallsAt u).erase E
      else if r = (u.1 + 1, u.2) then (m.wallsAt (u.1 + 1, u.2)).erase W
      else m.wallsAt r) :
    m2.SymWalls ∧ (m.Boundary → m2.Boundary) := by
  have hul : u ≠ (u.1 + 1, u.2) := by
    intro hc
    have h2 := congrArg Prod.fst hc
    simp only at h2
    omega
  have hEm : ∀ r, E ∈ m2.wallsAt r ↔ (E ∈ m.wallsAt r ∧ r ≠ u) := by
    intro r
    rw [hwalls r]
    by_cases h1 : r = u
    · subst h1
      rw [if_pos rfl, Finset.mem_erase]
      simp
    · rw [if_neg h1]
      by_cases h2 : r = (u.1 + 1, u.2)
      · subst h2
        rw [if_pos rfl, Finset.mem_erase]
        constructor
        · rintro ⟨-, hm⟩; exact ⟨hm, h1⟩
        · rintro ⟨hm, -⟩; exact ⟨by decide, hm⟩
      · rw [if_neg h2]
        constructor
        · intro hm; exact ⟨hm, h1⟩
        · rintro ⟨hm, -⟩; exact hm
  have hWm : ∀ r, W ∈ m2.wallsAt r ↔ (W ∈ m.wallsAt r ∧ r ≠ (u.1 + 1, u.2)) := by
    intro r
    rw [hwalls r]
    by_cases h1 : r = u
    · subst h1
      rw [if_pos rfl, Finset.mem_erase]
      constructor
      · rintro ⟨-, hm⟩; exact ⟨hm, hul⟩
      · rintro ⟨hm, -⟩; exact ⟨by decide, hm⟩
    · rw [if_neg h1]
      by_cases h2 : r = (u.1 + 1, u.2)
      · subst h2
        rw [if_pos rfl, Finset.mem_erase]
        simp
      · rw [if_neg h2]
        constructor
        · intro hm; exact ⟨hm, h2⟩
        · rintro ⟨hm, -⟩; exact hm
  have hNm : ∀ r, N ∈ m2.wallsAt r ↔ N ∈ m.wallsAt r := by
    intro r
    rw [hwalls r]
    by_cases h1 : r = u
    · subst h1; rw [if_pos rfl, Finset.mem_erase]
      constructor
      · rintro ⟨-, hm⟩; exact hm
      · intro hm; exact ⟨by decide, hm⟩
    · rw [if_neg h1]
      by_cases h2 : r = (u.1 + 1, u.2)
      · subst h2; rw [if_pos rfl, Finset.mem_erase]
        constructor
        · rintro ⟨-, hm⟩; exact hm
        · intro hm; exact ⟨by decide, hm⟩
      · rw [if_neg h2]
  have hSm : ∀ r, S ∈ m2.wallsAt r ↔ S ∈ m.wallsAt r := by
    intro r
    rw [hwalls r]
    by_cases h1 : r = u
    · subst h1; rw [if_pos rfl, Finset.mem_erase]
      constructor
      · rintro ⟨-, hm⟩; exact hm
      · intro hm; exact ⟨by decide, hm⟩
    · rw [if_neg h1]
      by_cases h2 : r = (u.1 + 1, u.2)
      · subst h2; rw [if_pos rfl, Finset.mem_erase]
        constructor
        · rintro ⟨-, hm⟩; exact hm
        · intro hm; exact ⟨by decide, hm⟩
      · rw [if_neg h2]
  have hgeom : ∀ r : Int × Int, (r.1 + 1, r.2) = ((u.1 + 1, u.2) : Int × Int) ↔ r = u := by
    intro r
    constructor
    · intro hc
      have h1 := congrArg Prod.fst hc
      have h2 := congrArg Prod.snd hc
      simp only at h1 h2
      exact Prod.ext (by omega) h2
    · intro hc; rw [hc]
  constructor
  · intro r hr
    have hrm : m.InGrid r := by
      obtain ⟨a1, a2, a3, a4⟩ := hr
      rw [hWd] at a2
      rw [hHt] at a4
      exact ⟨a1, a2, a3, a4⟩
    constructor
    · intro hsr
      have hsrm : m.InGrid (r.1, r.2 + 1) := by
        obtain ⟨a1, a2, a3, a4⟩ := hsr
        rw [hWd] at a2
        rw [hHt] at a4
        exact ⟨a1, a2, a3, a4⟩
      rw [hSm r, hNm (r.1, r.2 + 1)]
      exact (hsym r hrm).1 hsrm
    · intro hsr
      have hsrm : m.InGrid (r.1 + 1, r.2) := by
        obtain ⟨a1, a2, a3, a4⟩ := hsr
        rw [hWd] at a2
        rw [hHt] at a4
        exact ⟨a1, a2, a3, a4⟩
      rw [hEm r, hWm (r.1 + 1, r.2)]
      have hold := (hsym r hrm).2 hsrm
      constructor
      · rintro ⟨hm, hru⟩
        exact ⟨hold.mp hm, fun hc => hru ((hgeom r).mp hc)⟩
      · rintro ⟨hm, hrl⟩
        exact ⟨hold.mpr hm, fun hc => hrl ((hgeom r).mpr hc)⟩
  · intro hbd r hr
    have hrm : m.InGrid r := by
      obtain ⟨a1, a2, a3, a4⟩ := hr
      rw [hWd] at a2
      rw [hHt] at a4
      exact ⟨a1, a2, a3, a4⟩
    obtain ⟨b1, b2, b3, b4⟩ := hbd r hrm
    refine ⟨?_, ?_, ?_, ?_⟩
    · intro h0
      rw [hNm r]
      exact b1 h0
    · intro h0
      rw [hHt] at h0
      rw [hSm r]
      exact b2 h0
    · intro h0
      rw [hWm r]
      refine ⟨b3 h0, ?_⟩
      intro hc
      have := congrArg Prod.fst hc
      simp only at this
      obtain ⟨h1, -, -, -⟩ := hu
      omega
    · intro h0
      rw [hWd] at h0
      rw [hEm r]
      refine ⟨b4 h0, ?_⟩
      intro hc
      subst hc
      obtain ⟨-, h2, -, -⟩ := hl
      simp only at h2
      omega

theorem set_get_self {α : Type} (l : List α) (i : Nat) (h : i < l.length) :
    l.set i (l.get ⟨i, h⟩) = l := by
  apply List.ext_getElem
  · simp
  · intro n h1 h2
    rw [List.getElem_set]
    split
    · next heq => subst heq; rfl
    · rfl

/-- A `connect` call on vertically adjacent in-grid cells (lower cell second),
with no fullness assumption: either it succeeds and preserves
well-formedness, wall symmetry and the boundary, or it raises and the maze
is exactly as before the call. -/
theorem connectIdx_gen_south (m : Maze) (hwf : m.WF) (hsym : m.SymWalls)
    {p q : Int × Int} (hp : m.InGrid p) (hq : m.InGrid q)
    (hrel : q = (p.1, p.2 + 1)) :
    (∃ m', m.connectIdx (idxOfPos m.width p) (idxOfPos m.width q) = .ok m' ∧
      m'.width = m.width ∧ m'.height = m.height ∧ m'.WF ∧
      m'.SymWalls ∧ (m.Boundary → m'.Boundary)) ∨
    m.connectIdx (idxOfPos m.width p) (idxOfPos m.width q) = .error (.badConnect, m) := by
  subst hrel
  obtain ⟨hp1, hp2, hp3, hp4⟩ := hp
  obtain ⟨hq1, hq2, hq3, hq4⟩ := hq
  have hp' : m.InGrid p := ⟨hp1, hp2, hp3, hp4⟩
  have hq' : m.InGrid (p.1, p.2 + 1) := ⟨hq1, hq2, hq3, hq4⟩
  have hpq : p ≠ (p.1, p.2 + 1) := by
    intro hc
    have := congrArg Prod.snd hc
    simp only at this
    omega
  have hpi_pos : posOfIdx m.width (idxOfPos m.width p) = p :=
    posOfIdx_idxOfPos m.width hp1 hp2 hp3
  have hqi_pos : posOfIdx m.width (idxOfPos m.width (p.1, p.2 + 1)) = (p.1, p.2 + 1) :=
    posOfIdx_idxOfPos m.width hq1 hq2 hq3
  obtain ⟨hi, hwi⟩ := wallsAt_eq_get m hwf hp'
  obtain ⟨hj, hwj⟩ := wallsAt_eq_get m hwf hq'
  have hcix : (m.cells.get ⟨idxOfPos m.width p, hi⟩).x = p.1 := by
    rw [(hwf.2 _ hi).1]
    exact congrArg Prod.fst hpi_pos
  have hciy : (m.cells.get ⟨idxOfPos m.width p, hi⟩).y = p.2 := by
    rw [(hwf.2 _ hi).2]
    exact congrArg Prod.snd hpi_pos
  have hcjx : (m.cells.get ⟨idxOfPos m.width (p.1, p.2 + 1), hj⟩).x = p.1 := by
    rw [(hwf.2 _ hj).1]
    exact congrArg Prod.fst hqi_pos
  have hcjy : (m.cells.get ⟨idxOfPos m.width (p.1, p.2 + 1), hj⟩).y = p.2 + 1 := by
    rw [(hwf.2 _ hj).2]
    exact congrArg Prod.snd hqi_pos
  have hd1 : (m.cells.get ⟨idxOfPos m.width (p.1, p.2 + 1), hj⟩).wall_to
      (m.cells.get ⟨idxOfPos m.width p, hi⟩) = some N := by
    unfold Cell.wall_to Cell.dist
    rw [hcix, hciy, hcjx, hcjy]
    rw [if_neg (by omega), if_pos (by omega)]
  have hd2 : (m.cells.get ⟨idxOfPos m.width p, hi⟩).wall_to
      (m.cells.get ⟨idxOfPos m.width (p.1, p.2 + 1), hj⟩) = some S := by
    unfold Cell.wall_to Cell.dist
    rw [hcix, hciy, hcjx, hcjy]
    rw [if_neg (by omega), if_neg (by omega), if_pos (by omega)]
  by_cases hNw : N ∈ (m.cells.get ⟨idxOfPos m.width (p.1, p.2 + 1), hj⟩).walls
  · -- both facing walls are standing (by symmetry); the call succeeds
    left
    have hSin : S ∈ (m.cells.get ⟨idxOfPos m.width p, hi⟩).walls := by
      have hiff := ((hsym p hp').1 hq')
      rw [← hwi]
      apply hiff.mpr
      rw [hwj]
      exact hNw
    have hconn : (m.cells.get ⟨idxOfPos m.width p, hi⟩).connect
        (m.cells.get ⟨idxOfPos m.width (p.1, p.2 + 1), hj⟩) =
        .ok (⟨p.1, p.2, (m.cells.get ⟨idxOfPos m.width p, hi⟩).walls.erase S⟩,
             ⟨p.1, p.2 + 1, (m.cells.get ⟨idxOfPos m.width (p.1, p.2 + 1), hj⟩).walls.erase N⟩) := by
      unfold Cell.connect
      rw [hd1]
      dsimp only
      rw [if_pos hNw, hd2]
      dsimp only
      rw [if_pos hSin, hcix, hciy, hcjx, hcjy]
    have hj1 : idxOfPos m.width (p.1, p.2 + 1) <
        (m.cells.set (idxOfPos m.width p)
          (⟨p.1, p.2, (m.cells.get ⟨idxOfPos m.width p, hi⟩).walls.erase S⟩ : Cell)).length := by
      rw [List.length_set]; exact hj
    have step1 := wallsAt_set m hwf hi
      (⟨p.1, p.2, (m.cells.get ⟨idxOfPos m.width p, hi⟩).walls.erase S⟩ : Cell)
      (by exact (congrArg Prod.fst hpi_pos).symm) (by exact (congrArg Prod.snd hpi_pos).symm)
    have step2 := wallsAt_set ⟨m.width, m.height,
        m.cells.set (idxOfPos m.width p)
          (⟨p.1, p.2, (m.cells.get ⟨idxOfPos m.width p, hi⟩).walls.erase S⟩ : Cell)⟩
      step1.1 hj1
      (⟨p.1, p.2 + 1, (m.cells.get ⟨idxOfPos m.width (p.1, p.2 + 1), hj⟩).walls.erase N⟩ : Cell)
      (by exact (congrArg Prod.fst hqi_pos).symm) (by exact (congrArg Prod.snd hqi_pos).symm)
    refine ⟨⟨m.width, m.height,
      (m.cells.set (idxOfPos m.width p)
        (⟨p.1, p.2, (m.cells.get ⟨idxOfPos m.width p, hi⟩).walls.erase S⟩ : Cell)).set
        (idxOfPos m.width (p.1, p.2 + 1))
        (⟨p.1, p.2 + 1, (m.cells.get ⟨idxOfPos m.width (p.1, p.2 + 1), hj⟩).walls.erase N⟩ : Cell)⟩,
      ?_, ?_⟩
    · unfold Maze.connectIdx
      rw [List.getD_lt _ _ hi, List.getD_lt _ _ hj, hconn]
    · have hwalls : ∀ r : Int × Int,
          Maze.wallsAt ⟨m.width, m.height,
            (m.cells.set (idxOfPos m.width p)
              (⟨p.1, p.2, (m.cells.get ⟨idxOfPos m.width p, hi⟩).walls.erase S⟩ : Cell)).set
              (idxOfPos m.width (p.1, p.2 + 1))
              (⟨p.1, p.2 + 1, (m.cells.get ⟨idxOfPos m.width (p.1, p.2 + 1), hj⟩).walls.erase N⟩ : Cell)⟩ r =
          if r = p then (m.wallsAt p).erase S
          else if r = (p.1, p.2 + 1) then (m.wallsAt (p.1, p.2 + 1)).erase N
          else m.wallsAt r := by
        intro r
        have h2 := step2.2 r
        dsimp only at h2
        rw [hqi_pos] at h2
        rw [h2]
        by_cases hr1 : r = (p.1, p.2 + 1)
        · have hrp : r ≠ p := by
            rw [hr1]
            exact fun hc => hpq hc.symm
          rw [if_pos hr1, if_neg hrp, if_pos hr1, hwj]
        · rw [if_neg hr1]
          have h1 := step1.2 r
          rw [hpi_pos] at h1
          rw [h1]
          by_cases hr2 : r = p
          · rw [if_pos hr2, if_pos hr2, hwi]
          · rw [if_neg hr2, if_neg hr2, if_neg hr1]
      obtain ⟨hsym2, hbd2⟩ := symBound_vert m ⟨m.width, m.height,
        (m.cells.set (idxOfPos m.width p)
          (⟨p.1, p.2, (m.cells.get ⟨idxOfPos m.width p, hi⟩).walls.erase S⟩ : Cell)).set
          (idxOfPos m.width (p.1, p.2 + 1))
          (⟨p.1, p.2 + 1, (m.cells.get ⟨idxOfPos m.width (p.1, p.2 + 1), hj⟩).walls.erase N⟩ : Cell)⟩
        hsym p hp' hq' rfl rfl hwalls
      exact ⟨rfl, rfl, step2.1, hsym2, hbd2⟩
  · -- the very first wall removal raises KeyError; no cell has changed
    right
    have hconn : (m.cells.get ⟨idxOfPos m.width p, hi⟩).connect
        (m.cells.get ⟨idxOfPos m.width (p.1, p.2 + 1), hj⟩) =
        .error (m.cells.get ⟨idxOfPos m.width p, hi⟩,
                m.cells.get ⟨idxOfPos m.width (p.1, p.2 + 1), hj⟩) := by
      unfold Cell.connect
      rw [hd1]
      dsimp only
      rw [if_neg hNw]
    unfold Maze.connectIdx
    rw [List.getD_lt _ _ hi, List.getD_lt _ _ hj, hconn]
    dsimp only
    rw [set_get_self m.cells _ hi]
    rw [set_get_self m.cells _ hj]

/-- As `connectIdx_gen_south`, with the lower cell first. -/
theorem connectIdx_gen_north (m : Maze) (hwf : m.WF) (hsym : m.SymWalls)
    {p q : Int × Int} (hp : m.InGrid p) (hq : m.InGrid q)
    (hrel : p = (q.1, q.2 + 1)) :
    (∃ m', m.connectIdx (idxOfPos m.width p) (idxOfPos m.width q) = .ok m' ∧
      m'.width = m.width ∧ m'.height = m.height ∧ m'.WF ∧
      m'.SymWalls ∧ (m.Boundary → m'.Boundary)) ∨
    m.connectIdx (idxOfPos m.width p) (idxOfPos m.width q) = .error (.badConnect, m) := by
  subst hrel
  obtain ⟨hp1, hp2, hp3, hp4⟩ := hp
  obtain ⟨hq1, hq2, hq3, hq4⟩ := hq
  have hp' : m.InGrid (q.1, q.2 + 1) := ⟨hp1, hp2, hp3, hp4⟩
  have hq' : m.InGrid q := ⟨hq1, hq2, hq3, hq4⟩
  have hpi_pos : posOfIdx m.width (idxOfPos m.width (q.1, q.2 + 1)) = (q.1, q.2 + 1) :=
    posOfIdx_idxOfPos m.width hp1 hp2 hp3
  have hqi_pos : posOfIdx m.width (idxOfPos m.width q) = q :=
    posOfIdx_idxOfPos m.width hq1 hq2 hq3
  obtain ⟨hi, hwi⟩ := wallsAt_eq_get m hwf hp'
  obtain ⟨hj, hwj⟩ := wallsAt_eq_get m hwf hq'
  have hcix : (m.cells.get ⟨idxOfPos m.width (q.1, q.2 + 1), hi⟩).x = q.1 := by
    rw [(hwf.2 _ hi).1]
    exact congrArg Prod.fst hpi_pos
  have hciy : (m.cells.get ⟨idxOfPos m.width (q.1, q.2 + 1), hi⟩).y = q.2 + 1 := by
    rw [(hwf.2 _ hi).2]
    exact congrArg Prod.snd hpi_pos
  have hcjx : (m.cells.get ⟨idxOfPos m.width q, hj⟩).x = q.1 := by
    rw [(hwf.2 _ hj).1]
    exact congrArg Prod.fst hqi_pos
  have hcjy : (m.cells.get ⟨idxOfPos m.width q, hj⟩).y = q.2 := by
    rw [(hwf.2 _ hj).2]
    exact congrArg Prod.snd hqi_pos
  have hd1 : (m.cells.get ⟨idxOfPos m.width q, hj⟩).wall_to
      (m.cells.get ⟨idxOfPos m.width (q.1, q.2 + 1), hi⟩) = some S := by
    unfold Cell.wall_to Cell.dist
    rw [hcix, hciy, hcjx, hcjy]
    rw [if_neg (by omega), if_neg (by omega), if_pos (by omega)]
  have hd2 : (m.cells.get ⟨idxOfPos m.width (q.1, q.2 + 1), hi⟩).wall_to
      (m.cells.get ⟨idxOfPos m.width q, hj⟩) = some N := by
    unfold Cell.wall_to Cell.dist
    rw [hcix, hciy, hcjx, hcjy]
    rw [if_neg (by omega), if_pos (by omega)]
  by_cases hSw : S ∈ (m.cells.get ⟨idxOfPos m.width q, hj⟩).walls
  · left
    have hNin : N ∈ (m.cells.get ⟨idxOfPos m.width (q.1, q.2 + 1), hi⟩).walls := by
      have hiff := ((hsym q hq').1 hp')
      rw [← hwi]
      apply hiff.mp
      rw [hwj]
      exact hSw
    have hconn : (m.cells.get ⟨idxOfPos m.width (q.1, q.2 + 1), hi⟩).connect
        (m.cells.get ⟨idxOfPos m.width q, hj⟩) =
        .ok (⟨q.1, q.2 + 1, (m.cells.get ⟨idxOfPos m.width (q.1, q.2 + 1), hi⟩).walls.erase N⟩,
             ⟨q.1, q.2, (m.cells.get ⟨idxOfPos m.width q, hj⟩).walls.erase S⟩) := by
      unfold Cell.connect
      rw [hd1]
      dsimp only
      rw [if_pos hSw, hd2]
      dsimp only
      rw [if_pos hNin, hcix, hciy, hcjx, hcjy]
    have hj1 : idxOfPos m.width q <
        (m.cells.set (idxOfPos m.width (q.1, q.2 + 1))
          (⟨q.1, q.2 + 1,
            (m.cells.get ⟨idxOfPos m.width (q.1, q.2 + 1), hi⟩).walls.erase N⟩ : Cell)).length := by
      rw [List.length_set]; exact hj
    have step1 := wallsAt_set m hwf hi
      (⟨q.1, q.2 + 1, (m.cells.get ⟨idxOfPos m.width (q.1, q.2 + 1), hi⟩).walls.erase N⟩ : Cell)
      (by exact (congrArg Prod.fst hpi_pos).symm) (by exact (congrArg Prod.snd hpi_pos).symm)
    have step2 := wallsAt_set ⟨m.width, m.height,
        m.cells.set (idxOfPos m.width (q.1, q.2 + 1))
          (⟨q.1, q.2 + 1,
            (m.cells.get ⟨idxOfPos m.width (q.1, q.2 + 1), hi⟩).walls.erase N⟩ : Cell)⟩
      step1.1 hj1
      (⟨q.1, q.2, (m.cells.get ⟨idxOfPos m.width q, hj⟩).walls.erase S⟩ : Cell)
      (by exact (congrArg Prod.fst hqi_pos).symm) (by exact (congrArg Prod.snd hqi_pos).symm)
    refine ⟨⟨m.width, m.height,
      (m.cells.set (idxOfPos m.width (q.1, q.2 + 1))
        (⟨q.1, q.2 + 1,
          (m.cells.get ⟨idxOfPos m.width (q.1, q.2 + 1), hi⟩).walls.erase N⟩ : Cell)).set
        (idxOfPos m.width q)
        (⟨q.1, q.2, (m.cells.get ⟨idxOfPos m.width q, hj⟩).walls.erase S⟩ : Cell)⟩,
      ?_, ?_⟩
    · unfold Maze.connectIdx
      rw [List.getD_lt _ _ hi, List.getD_lt _ _ hj, hconn]
    · have hwalls : ∀ r : Int × Int,
          Maze.wallsAt ⟨m.width, m.height,
            (m.cells.set (idxOfPos m.width (q.1, q.2 + 1))
              (⟨q.1, q.2 + 1,
                (m.cells.get ⟨idxOfPos m.width (q.1, q.2 + 1), hi⟩).walls.erase N⟩ : Cell)).set
              (idxOfPos m.width q)
              (⟨q.1, q.2, (m.cells.get ⟨idxOfPos m.width q, hj⟩).walls.erase S⟩ : Cell)⟩ r =
          if r = q then (m.wallsAt q).erase S
          else if r = (q.1, q.2 + 1) then (m.wallsAt (q.1, q.2 + 1)).erase N
          else m.wallsAt r := by
        intro r
        have h2 := step2.2 r
        dsimp only at h2
        rw [hqi_pos] at h2
        rw [h2]
        by_cases hr1 : r = q
        · rw [if_pos hr1, if_pos hr1, hwj]
        · rw [if_neg hr1, if_neg hr1]
          have h1 := step1.2 r
          rw [hpi_pos] at h1
          rw [h1]
          by_cases hr2 : r = (q.1, q.2 + 1)
          · rw [if_pos hr2, if_pos hr2, hwi]
          · rw [if_neg hr2, if_neg hr2]
      obtain ⟨hsym2, hbd2⟩ := symBound_vert m ⟨m.width, m.height,
        (m.cells.set (idxOfPos m.width (q.1, q.2 + 1))
          (⟨q.1, q.2 + 1,
            (m.cells.get ⟨idxOfPos m.width (q.1, q.2 + 1), hi⟩).walls.erase N⟩ : Cell)).set
          (idxOfPos m.width q)
          (⟨q.1, q.2, (m.cells.get ⟨idxOfPos m.width q, hj⟩).walls.erase S⟩ : Cell)⟩
        hsym q hq' hp' rfl rfl hwalls
      exact ⟨rfl, rfl, step2.1, hsym2, hbd2⟩
  · right
    have hconn : (m.cells.get ⟨idxOfPos m.width (q.1, q.2 + 1), hi⟩).connect
        (m.cells.get ⟨idxOfPos m.width q, hj⟩) =
        .error (m.cells.get ⟨idxOfPos m.width (q.1, q.2 + 1), hi⟩,
                m.cells.get ⟨idxOfPos m.width q, hj⟩) := by
      unfold Cell.connect
      rw [hd1]
      dsimp only
      rw [if_neg hSw]
    unfold Maze.connectIdx
    rw [List.getD_lt _ _ hi, List.getD_lt _ _ hj, hconn]
    dsimp only
    rw [set_get_self m.cells _ hi]
    rw [set_get_self m.cells _ hj]

/-- The horizontal analogue of `connectIdx_gen_south` (right cell second). -/
theorem connectIdx_gen_east (m : Maze) (hwf : m.WF) (hsym : m.SymWalls)
    {p q : Int × Int} (hp : m.InGrid p) (hq : m.InGrid q)
    (hrel : q = (p.1 + 1, p.2)) :
    (∃ m', m.connectIdx (idxOfPos m.width p) (idxOfPos m.width q) = .ok m' ∧
      m'.width = m.width ∧ m'.height = m.height ∧ m'.WF ∧
      m'.SymWalls ∧ (m.Boundary → m'.Boundary)) ∨
    m.connectIdx (idxOfPos m.width p) (idxOfPos m.width q) = .error (.badConnect, m) := by
  subst hrel
  obtain ⟨hp1, hp2, hp3, hp4⟩ := hp
  obtain ⟨hq1, hq2, hq3, hq4⟩ := hq
  have hp' : m.InGrid p := ⟨hp1, hp2, hp3, hp4⟩
  have hq' : m.InGrid (p.1 + 1, p.2) := ⟨hq1, hq2, hq3, hq4⟩
  have hpq : p ≠ (p.1 + 1, p.2) := by
    intro hc
    have := congrArg Prod.fst hc
    simp only at this
    omega
  have hpi_pos : posOfIdx m.width (idxOfPos m.width p) = p :=
    posOfIdx_idxOfPos m.width hp1 hp2 hp3
  have hqi_pos : posOfIdx m.width (idxOfPos m.width (p.1 + 1, p.2)) = (p.1 + 1, p.2) :=
    posOfIdx_idxOfPos m.width hq1 hq2 hq3
  obtain ⟨hi, hwi⟩ := wallsAt_eq_get m hwf hp'
  obtain ⟨hj, hwj⟩ := wallsAt_eq_get m hwf hq'
  have hcix : (m.cells.get ⟨idxOfPos m.width p, hi⟩).x = p.1 := by
    rw [(hwf.2 _ hi).1]
    exact congrArg Prod.fst hpi_pos
  have hciy : (m.cells.get ⟨idxOfPos m.width p, hi⟩).y = p.2 := by
    rw [(hwf.2 _ hi).2]
    exact congrArg Prod.snd hpi_pos
  have hcjx : (m.cells.get ⟨idxOfPos m.width (p.1 + 1, p.2), hj⟩).x = p.1 + 1 := by
    rw [(hwf.2 _ hj).1]
    exact congrArg Prod.fst hqi_pos
  have hcjy : (m.cells.get ⟨idxOfPos m.width (p.1 + 1, p.2), hj⟩).y = p.2 := by
    rw [(hwf.2 _ hj).2]
    exact congrArg Prod.snd hqi_pos
  have hd1 : (m.cells.get ⟨idxOfPos m.width (p.1 + 1, p.2), hj⟩).wall_to
      (m.cells.get ⟨idxOfPos m.width p, hi⟩) = some W := by
    unfold Cell.wall_to Cell.dist
    rw [hcix, hciy, hcjx, hcjy]
    rw [if_neg (by omega), if_neg (by omega), if_neg (by omega), if_pos (by omega)]
  have hd2 : (m.cells.get ⟨idxOfPos m.width p, hi⟩).wall_to
      (m.cells.get ⟨idxOfPos m.width (p.1 + 1, p.2), hj⟩) = some E := by
    unfold Cell.wall_to Cell.dist
    rw [hcix, hciy, hcjx, hcjy]
    rw [if_neg (by omega), if_neg (by omega), if_neg (by omega), if_neg (by omega),
      if_pos (by omega)]
  by_cases hWw : W ∈ (m.cells.get ⟨idxOfPos m.width (p.1 + 1, p.2), hj⟩).walls
  · left
    have hEin : E ∈ (m.cells.get ⟨idxOfPos m.width p, hi⟩).walls := by
      have hiff := ((hsym p hp').2 hq')
      rw [← hwi]
      apply hiff.mpr
      rw [hwj]
      exact hWw
    have hconn : (m.cells.get ⟨idxOfPos m.width p, hi⟩).connect
        (m.cells.get ⟨idxOfPos m.width (p.1 + 1, p.2), hj⟩) =
        .ok (⟨p.1, p.2, (m.cells.get ⟨idxOfPos m.width p, hi⟩).walls.erase E⟩,
             ⟨p.1 + 1, p.2,
               (m.cells.get ⟨idxOfPos m.width (p.1 + 1, p.2), hj⟩).walls.erase W⟩) := by
      unfold Cell.connect
      rw [hd1]
      dsimp only
      rw [if_pos hWw, hd2]
      dsimp only
      rw [if_pos hEin, hcix, hciy, hcjx, hcjy]
    have hj1 : idxOfPos m.width (p.1 + 1, p.2) <
        (m.cells.set (idxOfPos m.width p)
          (⟨p.1, p.2, (m.cells.get ⟨idxOfPos m.width p, hi⟩).walls.erase E⟩ : Cell)).length := by
      rw [List.length_set]; exact hj
    have step1 := wallsAt_set m hwf hi
      (⟨p.1, p.2, (m.cells.get ⟨idxOfPos m.width p, hi⟩).walls.erase E⟩ : Cell)
      (by exact (congrArg Prod.fst hpi_pos).symm) (by exact (congrArg Prod.snd hpi_pos).symm)
    have step2 := wallsAt_set ⟨m.width, m.height,
        m.cells.set (idxOfPos m.width p)
          (⟨p.1, p.2, (m.cells.get ⟨idxOfPos m.width p, hi⟩).walls.erase E⟩ : Cell)⟩
      step1.1 hj1
      (⟨p.1 + 1, p.2, (m.cells.get ⟨idxOfPos m.width (p.1 + 1, p.2), hj⟩).walls.erase W⟩ : Cell)
      (by exact (congrArg Prod.fst hqi_pos).symm) (by exact (congrArg Prod.snd hqi_pos).symm)
    refine ⟨⟨m.width, m.height,
      (m.cells.set (idxOfPos m.width p)
        (⟨p.1, p.2, (m.cells.get ⟨idxOfPos m.width p, hi⟩).walls.erase E⟩ : Cell)).set
        (idxOfPos m.width (p.1 + 1, p.2))
        (⟨p.1 + 1, p.2,
          (m.cells.get ⟨idxOfPos m.width (p.1 + 1, p.2), hj⟩).walls.erase W⟩ : Cell)⟩,
      ?_, ?_⟩
    · unfold Maze.connectIdx
      rw [List.getD_lt _ _ hi, List.getD_lt _ _ hj, hconn]
    · have hwalls : ∀ r : Int × Int,
          Maze.wallsAt ⟨m.width, m.height,
            (m.cells.set (idxOfPos m.width p)
              (⟨p.1, p.2, (m.cells.get ⟨idxOfPos m.width p, hi⟩).walls.erase E⟩ : Cell)).set
              (idxOfPos m.width (p.1 + 1, p.2))
              (⟨p.1 + 1, p.2,
                (m.cells.get ⟨idxOfPos m.width (p.1 + 1, p.2), hj⟩).walls.erase W⟩ : Cell)⟩ r =
          if r = p then (m.wallsAt p).erase E
          else if r = (p.1 + 1, p.2) then (m.wallsAt (p.1 + 1, p.2)).erase W
          else m.wallsAt r := by
        intro r
        have h2 := step2.2 r
        dsimp only at h2
        rw [hqi_pos] at h2
        rw [h2]
        by_cases hr1 : r = (p.1 + 1, p.2)
        · have hrp : r ≠ p := by
            rw [hr1]
            exact fun hc => hpq hc.symm
          rw [if_pos hr1, if_neg hrp, if_pos hr1, hwj]
        · rw [if_neg hr1]
          have h1 := step1.2 r
          rw [hpi_pos] at h1
          rw [h1]
          by_cases hr2 : r = p
          · rw [if_pos hr2, if_pos hr2, hwi]
          · rw [if_neg hr2, if_neg hr2, if_neg hr1]
      obtain ⟨hsym2, hbd2⟩ := symBound_horiz m ⟨m.width, m.height,
        (m.cells.set (idxOfPos m.width p)
          (⟨p.1, p.2, (m.cells.get ⟨idxOfPos m.width p, hi⟩).walls.erase E⟩ : Cell)).set
          (idxOfPos m.width (p.1 + 1, p.2))
          (⟨p.1 + 1, p.2,
            (m.cells.get ⟨idxOfPos m.width (p.1 + 1, p.2), hj⟩).walls.erase W⟩ : Cell)⟩
        hsym p hp' hq' rfl rfl hwalls
      exact ⟨rfl, rfl, step2.1, hsym2, hbd2⟩
  · right
    have hconn : (m.cells.get ⟨idxOfPos m.width p, hi⟩).connect
        (m.cells.get ⟨idxOfPos m.width (p.1 + 1, p.2), hj⟩) =
        .error (m.cells.get ⟨idxOfPos m.width p, hi⟩,
                m.cells.get ⟨idxOfPos m.width (p.1 + 1, p.2), hj⟩) := by
      unfold Cell.connect
      rw [hd1]
      dsimp only
      rw [if_neg hWw]
    unfold Maze.connectIdx
    rw [List.getD_lt _ _ hi, List.getD_lt _ _ hj, hconn]
    dsimp only
    rw [set_get_self m.cells _ hi]
    rw [set_get_self m.cells _ hj]

/-- As `connectIdx_gen_east`, with the right cell first. -/
theorem connectIdx_gen_west (m : Maze) (hwf : m.WF) (hsym : m.SymWalls)
    {p q : Int × Int} (hp : m.InGrid p) (hq : m.InGrid q)
    (hrel : p = (q.1 + 1, q.2)) :
    (∃ m', m.connectIdx (idxOfPos m.width p) (idxOfPos m.width q) = .ok m' ∧
      m'.width = m.width ∧ m'.height = m.height ∧ m'.WF ∧
      m'.SymWalls ∧ (m.Boundary → m'.Boundary)) ∨
    m.connectIdx (idxOfPos m.width p) (idxOfPos m.width q) = .error (.badConnect, m) := by
  subst hrel
  obtain ⟨hp1, hp2, hp3, hp4⟩ := hp
  obtain ⟨hq1, hq2, hq3, hq4⟩ := hq
  have hp' : m.InGrid (q.1 + 1, q.2) := ⟨hp1, hp2, hp3, hp4⟩
  have hq' : m.InGrid q := ⟨hq1, hq2, hq3, hq4⟩
  have hpi_pos : posOfIdx m.width (idxOfPos m.width (q.1 + 1, q.2)) = (q.1 + 1, q.2) :=
    posOfIdx_idxOfPos m.width hp1 hp2 hp3
  have hqi_pos : posOfIdx m.width (idxOfPos m.width q) = q :=
    posOfIdx_idxOfPos m.width hq1 hq2 hq3
  obtain ⟨hi, hwi⟩ := wallsAt_eq_get m hwf hp'
  obtain ⟨hj, hwj⟩ := wallsAt_eq_get m hwf hq'
  have hcix : (m.cells.get ⟨idxOfPos m.width (q.1 + 1, q.2), hi⟩).x = q.1 + 1 := by
    rw [(hwf.2 _ hi).1]
    exact congrArg Prod.fst hpi_pos
  have hciy : (m.cells.get ⟨idxOfPos m.width (q.1 + 1, q.2), hi⟩).y = q.2 := by
    rw [(hwf.2 _ hi).2]
    exact congrArg Prod.snd hpi_pos
  have hcjx : (m.cells.get ⟨idxOfPos m.width q, hj⟩).x = q.1 := by
    rw [(hwf.2 _ hj).1]
    exact congrArg Prod.fst hqi_pos
  have hcjy : (m.cells.get ⟨idxOfPos m.width q, hj⟩).y = q.2 := by
    rw [(hwf.2 _ hj).2]
    exact congrArg Prod.snd hqi_pos
  have hd1 : (m.cells.get ⟨idxOfPos m.width q, hj⟩).wall_to
      (m.cells.get ⟨idxOfPos m.width (q.1 + 1, q.2), hi⟩) = some E := by
    unfold Cell.wall_to Cell.dist
    rw [hcix, hciy, hcjx, hcjy]
    rw [if_neg (by omega), if_neg (by omega), if_neg (by omega), if_neg (by omega),
      if_pos (by omega)]
  have hd2 : (m.cells.get ⟨idxOfPos m.width (q.1 + 1, q.2), hi⟩).wall_to
      (m.cells.get ⟨idxOfPos m.width q, hj⟩) = some W := by
    unfold Cell.wall_to Cell.dist
    rw [hcix, hciy, hcjx, hcjy]
    rw [if_neg (by omega), if_neg (by omega), if_neg (by omega), if_pos (by omega)]
  by_cases hEw : E ∈ (m.cells.get ⟨idxOfPos m.width q, hj⟩).walls
  · left
    have hWin : W ∈ (m.cells.get ⟨idxOfPos m.width (q.1 + 1, q.2), hi⟩).walls := by
      have hiff := ((hsym q hq').2 hp')
      rw [← hwi]
      apply hiff.mp
      rw [hwj]
      exact hEw
    have hconn : (m.cells.get ⟨idxOfPos m.width (q.1 + 1, q.2), hi⟩).connect
        (m.cells.get ⟨idxOfPos m.width q, hj⟩) =
        .ok (⟨q.1 + 1, q.2,
              (m.cells.get ⟨idxOfPos m.width (q.1 + 1, q.2), hi⟩).walls.erase W⟩,
             ⟨q.1, q.2, (m.cells.get ⟨idxOfPos m.width q, hj⟩).walls.erase E⟩) := by
      unfold Cell.connect
      rw [hd1]
      dsimp only
      rw [if_pos hEw, hd2]
      dsimp only
      rw [if_pos hWin, hcix, hciy, hcjx, hcjy]
    have hj1 : idxOfPos m.width q <
        (m.cells.set (idxOfPos m.width (q.1 + 1, q.2))
          (⟨q.1 + 1, q.2,
            (m.cells.get ⟨idxOfPos m.width (q.1 + 1, q.2), hi⟩).walls.erase W⟩ : Cell)).length := by
      rw [List.length_set]; exact hj
    have step1 := wallsAt_set m hwf hi
      (⟨q.1 + 1, q.2,
        (m.cells.get ⟨idxOfPos m.width (q.1 + 1, q.2), hi⟩).walls.erase W⟩ : Cell)
      (by exact (congrArg Prod.fst hpi_pos).symm) (by exact (congrArg Prod.snd hpi_pos).symm)
    have step2 := wallsAt_set ⟨m.width, m.height,
        m.cells.set (idxOfPos m.width (q.1 + 1, q.2))
          (⟨q.1 + 1, q.2,
            (m.cells.get ⟨idxOfPos m.width (q.1 + 1, q.2), hi⟩).walls.erase W⟩ : Cell)⟩
      step1.1 hj1
      (⟨q.1, q.2, (m.cells.get ⟨idxOfPos m.width q, hj⟩).walls.erase E⟩ : Cell)
      (by exact (congrArg Prod.fst hqi_pos).symm) (by exact (congrArg Prod.snd hqi_pos).symm)
    refine ⟨⟨m.width, m.height,
      (m.cells.set (idxOfPos m.width (q.1 + 1, q.2))
        (⟨q.1 + 1, q.2,
          (m.cells.get ⟨idxOfPos m.width (q.1 + 1, q.2), hi⟩).walls.erase W⟩ : Cell)).set
        (idxOfPos m.width q)
        (⟨q.1, q.2, (m.cells.get ⟨idxOfPos m.width q, hj⟩).walls.erase E⟩ : Cell)⟩,
      ?_, ?_⟩
    · unfold Maze.connectIdx
      rw [List.getD_lt _ _ hi, List.getD_lt _ _ hj, hconn]
    · have hwalls : ∀ r : Int × Int,
          Maze.wallsAt ⟨m.width, m.height,
            (m.cells.set (idxOfPos m.width (q.1 + 1, q.2))
              (⟨q.1 + 1, q.2,
                (m.cells.get ⟨idxOfPos m.width (q.1 + 1, q.2), hi⟩).walls.erase W⟩ : Cell)).set
              (idxOfPos m.width q)
              (⟨q.1, q.2, (m.cells.get ⟨idxOfPos m.width q, hj⟩).walls.erase E⟩ : Cell)⟩ r =
          if r = q then (m.wallsAt q).erase E
          else if r = (q.1 + 1, q.2) then (m.wallsAt (q.1 + 1, q.2)).erase W
          else m.wallsAt r := by
        intro r
        have h2 := step2.2 r
        dsimp only at h2
        rw [hqi_pos] at h2
        rw [h2]
        by_cases hr1 : r = q
        · rw [if_pos hr1, if_pos hr1, hwj]
        · rw [if_neg hr1, if_neg hr1]
          have h1 := step1.2 r
          rw [hpi_pos] at h1
          rw [h1]
          by_cases hr2 : r = (q.1 + 1, q.2)
          · rw [if_pos hr2, if_pos hr2, hwi]
          · rw [if_neg hr2, if_neg hr2]
      obtain ⟨hsym2, hbd2⟩ := symBound_horiz m ⟨m.width, m.height,
        (m.cells.set (idxOfPos m.width (q.1 + 1, q.2))
          (⟨q.1 + 1, q.2,
            (m.cells.get ⟨idxOfPos m.width (q.1 + 1, q.2), hi⟩).walls.erase W⟩ : Cell)).set
          (idxOfPos m.width q)
          (⟨q.1, q.2, (m.cells.get ⟨idxOfPos m.width q, hj⟩).walls.erase E⟩ : Cell)⟩
        hsym q hq' hp' rfl rfl hwalls
      exact ⟨rfl, rfl, step2.1, hsym2, hbd2⟩
  · right
    have hconn : (m.cells.get ⟨idxOfPos m.width (q.1 + 1, q.2), hi⟩).connect
        (m.cells.get ⟨idxOfPos m.width q, hj⟩) =
        .error (m.cells.get ⟨idxOfPos m.width (q.1 + 1, q.2), hi⟩,
                m.cells.get ⟨idxOfPos m.width q, hj⟩) := by
      unfold Cell.connect
      rw [hd1]
      dsimp only
      rw [if_neg hEw]
    unfold Maze.connectIdx
    rw [List.getD_lt _ _ hi, List.getD_lt _ _ hj, hconn]
    dsimp only
    rw [set_get_self m.cells _ hi]
    rw [set_get_self m.cells _ hj]

/-- Any `connect` call on adjacent in-grid cells either succeeds preserving
well-formedness, symmetry and the boundary, or raises leaving the maze
untouched. -/
theorem connectIdx_gen (m : Maze) (hwf : m.WF) (hsym : m.SymWalls)
    {p q : Int × Int} (hp : m.InGrid p) (hq : m.InGrid q)
    (hadj : posDist p q = 1) :
    (∃ m', m.connectIdx (idxOfPos m.width p) (idxOfPos m.width q) = .ok m' ∧
      m'.width = m.width ∧ m'.height = m.height ∧ m'.WF ∧
      m'.SymWalls ∧ (m.Boundary → m'.Boundary)) ∨
    m.connectIdx (idxOfPos m.width p) (idxOfPos m.width q) = .error (.badConnect, m) := by
  rcases (posDist_eq_one_iff p q).mp hadj with ⟨h1, h2⟩ | ⟨h1, h2⟩ | ⟨h1, h2⟩ | ⟨h1, h2⟩
  · exact connectIdx_gen_south m hwf hsym hp hq (Prod.ext h1 h2)
  · exact connectIdx_gen_north m hwf hsym hp hq (Prod.ext h1 h2)
  · exact connectIdx_gen_east m hwf hsym hp hq (Prod.ext h1 h2)
  · exact connectIdx_gen_west m hwf hsym hp hq (Prod.ext h1 h2)

/-- Every maze whose walls were touched only by `connect` calls on adjacent
in-grid cells keeps its dimensions, well-formedness, wall symmetry and all
boundary walls. -/
theorem connectOnly_inv {w h : Nat} {m : Maze} (hco : ConnectOnly w h m) :
    m.width = w ∧ m.height = h ∧ m.WF ∧ m.SymWalls ∧ m.Boundary := by
  induction hco with
  | init => exact ⟨rfl, rfl, initMaze_WF w h, initMaze_SymWalls w h, initMaze_Boundary w h⟩
  | ok hco hi hj hdist hok ih =>
    obtain ⟨hW, hH, hwf, hsym, hbd⟩ := ih
    rename_i m0 m' i j
    have hw0 : 0 < m0.width := by
      rcases Nat.eq_zero_or_pos m0.width with h0 | h0
      · rw [hwf.1, h0, Nat.zero_mul] at hi
        omega
      · exact h0
    have hp : m0.InGrid (posOfIdx m0.width i) := inGrid_posOfIdx m0 hwf.1 hi
    have hq : m0.InGrid (posOfIdx m0.width j) := inGrid_posOfIdx m0 hwf.1 hj
    have hgi := hwf.2 i hi
    have hgj := hwf.2 j hj
    have hadj : posDist (posOfIdx m0.width i) (posOfIdx m0.width j) = 1 := by
      rw [List.getD_lt _ _ hi, List.getD_lt _ _ hj] at hdist
      unfold Cell.dist at hdist
      rw [hgi.1, hgi.2, hgj.1, hgj.2] at hdist
      unfold posDist posOfIdx
      dsimp only
      exact hdist
    rcases connectIdx_gen m0 hwf hsym hp hq hadj with ⟨m2, hok2, hp1, hp2, hp3, hp4, hp5⟩ | herr2
    · rw [idxOfPos_posOfIdx m0.width hw0 i, idxOfPos_posOfIdx m0.width hw0 j] at hok2
      rw [hok] at hok2
      have hm2 : m2 = m' := by
        injection hok2 with hh
        exact hh.symm
      subst hm2
      exact ⟨hp1.trans hW, hp2.trans hH, hp3, hp4, hp5 hbd⟩
    · rw [idxOfPos_posOfIdx m0.width hw0 i, idxOfPos_posOfIdx m0.width hw0 j] at herr2
      rw [hok] at herr2
      exact absurd herr2 (by intro hc; exact Except.noConfusion hc)
  | err hco hi hj hdist herr ih =>
    obtain ⟨hW, hH, hwf, hsym, hbd⟩ := ih
    rename_i m0 m' i j e
    have hw0 : 0 < m0.width := by
      rcases Nat.eq_zero_or_pos m0.width with h0 | h0
      · rw [hwf.1, h0, Nat.zero_mul] at hi
        omega
      · exact h0
    have hp : m0.InGrid (posOfIdx m0.width i) := inGrid_posOfIdx m0 hwf.1 hi
    have hq : m0.InGrid (posOfIdx m0.width j) := inGrid_posOfIdx m0 hwf.1 hj
    have hgi := hwf.2 i hi
    have hgj := hwf.2 j hj
    have hadj : posDist (posOfIdx m0.width i) (posOfIdx m0.width j) = 1 := by
      rw [List.getD_lt _ _ hi, List.getD_lt _ _ hj] at hdist
      unfold Cell.dist at hdist
      rw [hgi.1, hgi.2, hgj.1, hgj.2] at hdist
      unfold posDist posOfIdx
      dsimp only
      exact hdist
    rcases connectIdx_gen m0 hwf hsym hp hq hadj with ⟨m2, hok2, hp1, hp2, hp3, hp4, hp5⟩ | herr2
    · rw [idxOfPos_posOfIdx m0.width hw0 i, idxOfPos_posOfIdx m0.width hw0 j] at hok2
      rw [herr] at hok2
      exact absurd hok2 (by intro hc; exact Except.noConfusion hc)
    · rw [idxOfPos_posOfIdx m0.width hw0 i, idxOfPos_posOfIdx m0.width hw0 j] at herr2
      rw [herr] at herr2
      have hm2 : m' = m0 := by
        injection herr2 with hh
        exact congrArg Prod.snd hh
      rw [hm2]
      exact ⟨hW, hH, hwf, hsym, hbd⟩

/-! ## Claim C3: the text rendering -/

theorem getD_set {α : Type} (l : List α) (i : Nat) (a d : α) (i' : Nat) :
    (l.set i a).getD i' d = if i = i' ∧ i < l.length then a else l.getD i' d := by
  rw [List.getD_eq_getElem?_getD, List.getD_eq_getElem?_getD, List.getElem?_set]
  by_cases h1 : i = i'
  · subst h1
    by_cases h2 : i < l.length
    · rw [if_pos rfl, if_pos h2, if_pos ⟨rfl, h2⟩]
      rfl
    · rw [if_pos rfl, if_neg h2, if_neg (fun hc => h2 hc.2)]
      rw [List.getElem?_eq_none (by omega)]
  · rw [if_neg h1, if_neg (fun hc => h1 hc.1)]

theorem getMat_setMat (mat : List (List Char)) (i j : Nat) (ch : Char) (i' j' : Nat) :
    getMat (setMat mat i j ch) i' j' =
      if i = i' ∧ i < mat.length ∧ j = j' ∧ j < (mat.getD i []).length then ch
      else getMat mat i' j' := by
  unfold getMat setMat
  rw [getD_set]
  by_cases h1 : i = i' ∧ i < mat.length
  · rw [if_pos h1, getD_set]
    obtain ⟨h1a, h1b⟩ := h1
    subst h1a
    by_cases h2 : j = j' ∧ j < (mat.getD i []).length
    · rw [if_pos h2, if_pos ⟨rfl, h1b, h2.1, h2.2⟩]
    · rw [if_neg h2, if_neg (fun hc => h2 ⟨hc.2.2.1, hc.2.2.2⟩)]
  · rw [if_neg h1, if_neg (fun hc => h1 ⟨hc.1, hc.2.1⟩)]

theorem rectMat_init (w h : Nat) : RectMat (strMatrixInit w h) (h * 2 + 1) (w * 2 + 1) := by
  unfold strMatrixInit RectMat
  constructor
  · exact List.length_replicate _ _
  · intro k
    rw [List.getD_eq_getElem?_getD, List.getElem?_replicate]
    by_cases hk : k < h * 2 + 1
    · rw [if_pos hk, if_pos hk]
      exact List.length_replicate _ _
    · rw [if_neg hk, if_neg hk]
      rfl

theorem rectMat_setMat {mat : List (List Char)} {rows cols : Nat}
    (hrect : RectMat mat rows cols) (i j : Nat) (ch : Char) :
    RectMat (setMat mat i j ch) rows cols := by
  obtain ⟨hlen, hrow⟩ := hrect
  unfold setMat RectMat
  constructor
  · rw [List.length_set]
    exact hlen
  · intro k
    rw [getD_set]
    by_cases hk : i = k ∧ i < mat.length
    · rw [if_pos hk, List.length_set, ← hk.1]
      exact hrow i
    · rw [if_neg hk]
      exact hrow k

theorem getMat_init (w h : Nat) (i j : Nat) : getMat (strMatrixInit w h) i j = 'O' := by
  unfold getMat strMatrixInit
  have hrow : (List.replicate (h * 2 + 1) (List.replicate (w * 2 + 1) 'O')).getD i [] =
      if i < h * 2 + 1 then List.replicate (w * 2 + 1) 'O' else [] := by
    rw [List.getD_eq_getElem?_getD, List.getElem?_replicate]
    by_cases hi : i < h * 2 + 1
    · rw [if_pos hi, if_pos hi]
      rfl
    · rw [if_neg hi, if_neg hi]
      rfl
  rw [hrow]
  by_cases hi : i < h * 2 + 1
  · rw [if_pos hi, List.getD_eq_getElem?_getD, List.getElem?_replicate]
    by_cases hj : j < w * 2 + 1
    · rw [if_pos hj]
      rfl
    · rw [if_neg hj]
      rfl
  · rw [if_neg hi]
    rfl

theorem getMat_setMat_in {mat : List (List Char)} {rows cols : Nat}
    (hrect : RectMat mat rows cols) {a b : Nat} (ha : a < rows) (hb : b < cols)
    (ch : Char) (i j : Nat) :
    getMat (setMat mat a b ch) i j = if i = a ∧ j = b then ch else getMat mat i j := by
  have hlen : a < mat.length := by rw [hrect.1]; exact ha
  have hrl : b < (mat.getD a []).length := by
    rw [hrect.2 a, if_pos ha]
    exact hb
  rw [getMat_setMat]
  by_cases hij : i = a ∧ j = b
  · rw [if_pos ⟨hij.1.symm, hlen, hij.2.symm, hrl⟩, if_pos hij]
  · rw [if_neg (fun hc => hij ⟨hc.1.symm, hc.2.2.1.symm⟩), if_neg hij]

theorem getMat_condSet {mat : List (List Char)} {rows cols : Nat}
    (hrect : RectMat mat rows cols) (G : Prop) [Decidable G]
    {a b : Nat} (ha : a < rows) (hb : b < cols) (i j : Nat) :
    getMat (if G then setMat mat a b ' ' else mat) i j =
      if G ∧ i = a ∧ j = b then ' ' else getMat mat i j := by
  by_cases hg : G
  · rw [if_pos hg, getMat_setMat_in hrect ha hb]
    by_cases hij : i = a ∧ j = b
    · rw [if_pos hij, if_pos ⟨hg, hij⟩]
    · rw [if_neg hij, if_neg (fun hc => hij hc.2)]
  · rw [if_neg hg, if_neg (fun hc => hg hc.1)]

theorem rectMat_ite {mat : List (List Char)} {rows cols : Nat} (G : Prop) [Decidable G]
    (hrect : RectMat mat rows cols) (a b : Nat) :
    RectMat (if G then setMat mat a b ' ' else mat) rows cols := by
  by_cases hg : G
  · rw [if_pos hg]
    exact rectMat_setMat hrect a b ' '
  · rw [if_neg hg]
    exact hrect

theorem rectMat_renderCell {mat : List (List Char)} {rows cols : Nat}
    (hrect : RectMat mat rows cols) (w : Nat) (c : Cell) :
    RectMat (renderCell w mat c) rows cols := by
  simp only [renderCell]
  exact rectMat_ite _ (rectMat_ite _ (rectMat_ite _ (rectMat_ite _
    (rectMat_setMat hrect _ _ _) _ _) _ _) _ _) _ _

theorem ite_chain_or (A0 A1 A2 A3 A4 : Prop)
    [Decidable A0] [Decidable A1] [Decidable A2] [Decidable A3] [Decidable A4] (e : Char) :
    (if A4 then ' ' else if A3 then ' ' else if A2 then ' '
      else if A1 then ' ' else if A0 then ' ' else e) =
    if A0 ∨ A1 ∨ A2 ∨ A3 ∨ A4 then ' ' else e := by
  by_cases h4 : A4
  · rw [if_pos h4, if_pos (by tauto)]
  · rw [if_neg h4]
    by_cases h3 : A3
    · rw [if_pos h3, if_pos (by tauto)]
    · rw [if_neg h3]
      by_cases h2 : A2
      · rw [if_pos h2, if_pos (by tauto)]
      · rw [if_neg h2]
        by_cases h1 : A1
        · rw [if_pos h1, if_pos (by tauto)]
        · rw [if_neg h1]
          by_cases h0 : A0
          · rw [if_pos h0, if_pos (by tauto)]
          · rw [if_neg h0, if_neg (by tauto)]

/-- Reading the matrix after one cell's writes: blank exactly at that
cell's write positions, unchanged elsewhere. -/
theorem getMat_renderCell {mat : List (List Char)} {w h : Nat}
    (hrect : RectMat mat (h * 2 + 1) (w * 2 + 1)) {c : Cell}
    (hcx1 : 0 ≤ c.x) (hcx2 : c.x < (w : Int)) (hcy1 : 0 ≤ c.y) (hcy2 : c.y < (h : Int))
    (i j : Nat) :
    getMat (renderCell w mat c) i j =
      if cellWrites w c i j then ' ' else getMat mat i j := by
  have hb0r : (c.y * 2 + 1).toNat < h * 2 + 1 := by omega
  have hb0c : (c.x * 2 + 1).toNat < w * 2 + 1 := by omega
  have hb1r : (c.y * 2 + 1 - 1).toNat < h * 2 + 1 := by omega
  have hb2r : (c.y * 2 + 1 + 1).toNat < h * 2 + 1 := by omega
  have hb3c : (c.x * 2 + 1 - 1).toNat < w * 2 + 1 := by omega
  have hb4c : (c.x * 2 + 1 + 1).toNat < w * 2 + 1 := by omega
  have r1 : RectMat (setMat mat (c.y * 2 + 1).toNat (c.x * 2 + 1).toNat ' ')
      (h * 2 + 1) (w * 2 + 1) := rectMat_setMat hrect _ _ _
  have r2 : RectMat (if N ∉ c.walls ∧ c.y * 2 + 1 > 0 then
      setMat (setMat mat (c.y * 2 + 1).toNat (c.x * 2 + 1).toNat ' ')
        (c.y * 2 + 1 - 1).toNat (c.x * 2 + 1).toNat ' '
      else setMat mat (c.y * 2 + 1).toNat (c.x * 2 + 1).toNat ' ')
      (h * 2 + 1) (w * 2 + 1) := rectMat_ite _ r1 _ _
  have r3 := rectMat_ite (S ∉ c.walls ∧ c.y * 2 + 1 + 1 < (w : Int)) r2
    (c.y * 2 + 1 + 1).toNat (c.x * 2 + 1).toNat
  have r4 := rectMat_ite (W ∉ c.walls ∧ c.x * 2 + 1 > 0) r3
    (c.y * 2 + 1).toNat (c.x * 2 + 1 - 1).toNat
  simp only [renderCell]
  rw [getMat_condSet r4 (E ∉ c.walls ∧ c.x * 2 + 1 + 1 < (w : Int)) hb0r hb4c,
    getMat_condSet r3 (W ∉ c.walls ∧ c.x * 2 + 1 > 0) hb0r hb3c,
    getMat_condSet r2 (S ∉ c.walls ∧ c.y * 2 + 1 + 1 < (w : Int)) hb2r hb0c,
    getMat_condSet r1 (N ∉ c.walls ∧ c.y * 2 + 1 > 0) hb1r hb0c,
    getMat_setMat_in hrect hb0r hb0c]
  simp only [cellWrites]
  exact ite_chain_or _ _ _ _ _ _

/-- The whole render fold: a position is blank iff some cell writes it;
everything else keeps the initial background. -/
theorem getMat_foldl (w h : Nat) :
    ∀ (cells : List Cell) (mat : List (List Char)),
      RectMat mat (h * 2 + 1) (w * 2 + 1) →
      (∀ c ∈ cells, 0 ≤ c.x ∧ c.x < (w : Int) ∧ 0 ≤ c.y ∧ c.y < (h : Int)) →
      RectMat (cells.foldl (renderCell w) mat) (h * 2 + 1) (w * 2 + 1) ∧
      ∀ i j, getMat (cells.foldl (renderCell w) mat) i j =
        if ∃ c ∈ cells, cellWrites w c i j then ' ' else getMat mat i j
  | [], mat, hrect, _ => by
    refine ⟨hrect, fun i j => ?_⟩
    rw [List.foldl_nil, if_neg (by rintro ⟨c, hc, -⟩; exact List.not_mem_nil c hc)]
  | c :: cs, mat, hrect, hmem => by
    have hc := hmem c (List.mem_cons_self c cs)
    have hrect1 : RectMat (renderCell w mat c) (h * 2 + 1) (w * 2 + 1) :=
      rectMat_renderCell hrect w c
    obtain ⟨hrect2, hchar⟩ := getMat_foldl w h cs (renderCell w mat c) hrect1
      (fun d hd => hmem d (List.mem_cons_of_mem c hd))
    refine ⟨hrect2, fun i j => ?_⟩
    rw [List.foldl_cons] at *
    rw [hchar i j, getMat_renderCell hrect hc.1 hc.2.1 hc.2.2.1 hc.2.2.2 i j]
    by_cases hcs : ∃ d ∈ cs, cellWrites w d i j
    · rw [if_pos hcs, if_pos ⟨hcs.choose, List.mem_cons_of_mem c hcs.choose_spec.1,
        hcs.choose_spec.2⟩]
    · rw [if_neg hcs]
      by_cases hcw : cellWrites w c i j
      · rw [if_pos hcw, if_pos ⟨c, List.mem_cons_self c cs, hcw⟩]
      · rw [if_neg hcw, if_neg]
        rintro ⟨d, hd, hdw⟩
        rcases List.mem_cons.mp hd with rfl | hd'
        · exact hcw hdw
        · exact hcs ⟨d, hd', hdw⟩

/-- Cells of a well-formed maze carry in-grid coordinates. -/
theorem wf_cell_coords {m : Maze} (hwf : m.WF) :
    ∀ c ∈ m.cells, 0 ≤ c.x ∧ c.x < (m.width : Int) ∧ 0 ≤ c.y ∧ c.y < (m.height : Int) := by
  intro c hc
  obtain ⟨⟨k, hk⟩, hget⟩ := List.mem_iff_get.mp hc
  obtain ⟨hx, hy⟩ := hwf.2 k hk
  rw [hget] at hx hy
  have hw0 : 0 < m.width := by
    rcases Nat.eq_zero_or_pos m.width with h0 | h0
    · rw [hwf.1, h0, Nat.zero_mul] at hk
      omega
    · exact h0
  have hk' : k < m.width * m.height := by
    rw [← hwf.1]
    exact hk
  rw [hx, hy]
  refine ⟨Int.natCast_nonneg _, ?_, Int.natCast_nonneg _, ?_⟩
  · exact_mod_cast Nat.mod_lt k hw0
  · exact_mod_cast Nat.div_lt_of_lt_mul hk'

/-- `str_matrix` of `Maze.__repr__` for a well-formed maze: rectangular,
blank at exactly the written positions, background elsewhere. -/
theorem renderMatrix_char (m : Maze) (hwf : m.WF) :
    RectMat m.renderMatrix (m.height * 2 + 1) (m.width * 2 + 1) ∧
    ∀ i j, getMat m.renderMatrix i j =
      if ∃ c ∈ m.cells, cellWrites m.width c i j then ' ' else 'O' := by
  obtain ⟨hrect, hchar⟩ := getMat_foldl m.width m.height m.cells
    (strMatrixInit m.width m.height) (rectMat_init m.width m.height) (wf_cell_coords hwf)
  refine ⟨hrect, fun i j => ?_⟩
  rw [show m.renderMatrix = m.cells.foldl (renderCell m.width)
    (strMatrixInit m.width m.height) from rfl, hchar i j, getMat_init]

/-- `cellWrites` over natural-number coordinates: the `N`/`W` guards are
always true, the `S`/`E` guards keep the source's comparison against
`width`. -/
theorem cellWrites_nat (w : Nat) (c : Cell) (hx : 0 ≤ c.x) (hy : 0 ≤ c.y) (i j : Nat) :
    cellWrites w c i j ↔
      ((i = 2 * c.y.toNat + 1 ∧ j = 2 * c.x.toNat + 1) ∨
       (N ∉ c.walls ∧ i = 2 * c.y.toNat ∧ j = 2 * c.x.toNat + 1) ∨
       (S ∉ c.walls ∧ 2 * c.y.toNat + 2 < w ∧ i = 2 * c.y.toNat + 2 ∧ j = 2 * c.x.toNat + 1) ∨
       (W ∉ c.walls ∧ i = 2 * c.y.toNat + 1 ∧ j = 2 * c.x.toNat) ∨
       (E ∉ c.walls ∧ 2 * c.x.toNat + 2 < w ∧ i = 2 * c.y.toNat + 1 ∧ j = 2 * c.x.toNat + 2)) := by
  unfold cellWrites
  constructor
  · rintro (⟨h1, h2⟩ | ⟨⟨hn, -⟩, h1, h2⟩ | ⟨⟨hs, hg⟩, h1, h2⟩ | ⟨⟨hw, -⟩, h1, h2⟩ |
      ⟨⟨he, hg⟩, h1, h2⟩)
    · exact Or.inl ⟨by omega, by omega⟩
    · exact Or.inr (Or.inl ⟨hn, by omega, by omega⟩)
    · exact Or.inr (Or.inr (Or.inl ⟨hs, by omega, by omega, by omega⟩))
    · exact Or.inr (Or.inr (Or.inr (Or.inl ⟨hw, by omega, by omega⟩)))
    · exact Or.inr (Or.inr (Or.inr (Or.inr ⟨he, by omega, by omega, by omega⟩)))
  · rintro (⟨h1, h2⟩ | ⟨hn, h1, h2⟩ | ⟨hs, hg, h1, h2⟩ | ⟨hw, h1, h2⟩ | ⟨he, hg, h1, h2⟩)
    · exact Or.inl ⟨by omega, by omega⟩
    · exact Or.inr (Or.inl ⟨⟨hn, by omega⟩, by omega, by omega⟩)
    · exact Or.inr (Or.inr (Or.inl ⟨⟨hs, by omega⟩, by omega, by omega⟩))
    · exact Or.inr (Or.inr (Or.inr (Or.inl ⟨⟨hw, by omega⟩, by omega, by omega⟩)))
    · exact Or.inr (Or.inr (Or.inr (Or.inr ⟨⟨he, by omega⟩, by omega, by omega⟩)))

/-- Which grid positions write a given matrix position, in terms of
`wallsAt`. -/
theorem writers_iff (m : Maze) (hwf : m.WF) (i j : Nat) :
    (∃ c ∈ m.cells, cellWrites m.width c i j) ↔
    (∃ x y : Nat, x < m.width ∧ y < m.height ∧
      ((i = 2 * y + 1 ∧ j = 2 * x + 1) ∨
       (N ∉ m.wallsAt ((x : Int), (y : Int)) ∧ i = 2 * y ∧ j = 2 * x + 1) ∨
       (S ∉ m.wallsAt ((x : Int), (y : Int)) ∧ 2 * y + 2 < m.width ∧
         i = 2 * y + 2 ∧ j = 2 * x + 1) ∨
       (W ∉ m.wallsAt ((x : Int), (y : Int)) ∧ i = 2 * y + 1 ∧ j = 2 * x) ∨
       (E ∉ m.wallsAt ((x : Int), (y : Int)) ∧ 2 * x + 2 < m.width ∧
         i = 2 * y + 1 ∧ j = 2 * x + 2))) := by
  constructor
  · rintro ⟨c, hc, hcw⟩
    obtain ⟨⟨k, hk⟩, hget⟩ := List.mem_iff_get.mp hc
    obtain ⟨hcoordx, hcoordy⟩ := hwf.2 k hk
    rw [hget] at hcoordx hcoordy
    have hw0 : 0 < m.width := by
      rcases Nat.eq_zero_or_pos m.width with h0 | h0
      · rw [hwf.1, h0, Nat.zero_mul] at hk
        omega
      · exact h0
    have hk' : k < m.width * m.height := by
      rw [← hwf.1]
      exact hk
    refine ⟨k % m.width, k / m.width, Nat.mod_lt k hw0, Nat.div_lt_of_lt_mul hk', ?_⟩
    have hxt : c.x.toNat = k % m.width := by rw [hcoordx]; exact Int.toNat_natCast _
    have hyt : c.y.toNat = k / m.width := by rw [hcoordy]; exact Int.toNat_natCast _
    have hwalls : c.walls = m.wallsAt ((k % m.width : Nat), (k / m.width : Nat)) := by
      have hgrid : m.InGrid (posOfIdx m.width k) := inGrid_posOfIdx m hwf.1 hk
      obtain ⟨hlt, heq⟩ := wallsAt_eq_get m hwf hgrid
      rw [show m.wallsAt ((k % m.width : Nat), (k / m.width : Nat)) =
        m.wallsAt (posOfIdx m.width k) from rfl, heq]
      have hidx : idxOfPos m.width (posOfIdx m.width k) = k :=
        idxOfPos_posOfIdx m.width hw0 k
      have : (⟨idxOfPos m.width (posOfIdx m.width k), hlt⟩ : Fin m.cells.length) =
          ⟨k, hk⟩ := Fin.ext hidx
      rw [this, hget]
    rw [cellWrites_nat m.width c (by rw [hcoordx]; exact Int.natCast_nonneg _)
      (by rw [hcoordy]; exact Int.natCast_nonneg _), hxt, hyt, hwalls] at hcw
    exact hcw
  · rintro ⟨x, y, hx, hy, hdisj⟩
    have hgrid : m.InGrid ((x : Int), (y : Int)) := by
      refine ⟨Int.natCast_nonneg _, ?_, Int.natCast_nonneg _, ?_⟩
      · show (x : Int) < (m.width : Int)
        exact_mod_cast hx
      · show (y : Int) < (m.height : Int)
        exact_mod_cast hy
    obtain ⟨hlt, heq⟩ := wallsAt_eq_get m hwf hgrid
    refine ⟨m.cells.get ⟨idxOfPos m.width ((x : Int), (y : Int)), hlt⟩,
      List.get_mem _ _ _, ?_⟩
    obtain ⟨hcoordx, hcoordy⟩ := hwf.2 _ hlt
    have hpos : posOfIdx m.width (idxOfPos m.width ((x : Int), (y : Int))) =
        ((x : Int), (y : Int)) :=
      posOfIdx_idxOfPos m.width (Int.natCast_nonneg _)
        (by show (x : Int) < (m.width : Int); exact_mod_cast hx)
        (Int.natCast_nonneg _)
    have hcx : (m.cells.get ⟨idxOfPos m.width ((x : Int), (y : Int)), hlt⟩).x = (x : Int) := by
      rw [hcoordx]
      exact congrArg Prod.fst hpos
    have hcy : (m.cells.get ⟨idxOfPos m.width ((x : Int), (y : Int)), hlt⟩).y = (y : Int) := by
      rw [hcoordy]
      exact congrArg Prod.snd hpos
    rw [cellWrites_nat m.width _ (by rw [hcx]; exact Int.natCast_nonneg _)
      (by rw [hcy]; exact Int.natCast_nonneg _)]
    rw [show (m.cells.get ⟨idxOfPos m.width ((x : Int), (y : Int)), hlt⟩).x.toNat = x by
        rw [hcx]; exact Int.toNat_natCast _,
      show (m.cells.get ⟨idxOfPos m.width ((x : Int), (y : Int)), hlt⟩).y.toNat = y by
        rw [hcy]; exact Int.toNat_natCast _,
      show (m.cells.get ⟨idxOfPos m.width ((x : Int), (y : Int)), hlt⟩).walls =
        m.wallsAt ((x : Int), (y : Int)) from heq.symm]
    exact hdisj

theorem openBetween_south_elim {m : Maze} {a : Int × Int}
    (h : openBetween m a (a.1, a.2 + 1)) :
    S ∉ m.wallsAt a ∧ N ∉ m.wallsAt (a.1, a.2 + 1) := by
  rcases h with ⟨-, h2, h3⟩ | ⟨hc, -, -⟩ | ⟨hc, -, -⟩ | ⟨hc, -, -⟩
  · exact ⟨h2, h3⟩
  · exfalso
    have := congrArg Prod.snd hc
    simp only at this
    omega
  · exfalso
    have := congrArg Prod.snd hc
    simp only at this
    omega
  · exfalso
    have := congrArg Prod.fst hc
    simp only at this
    omega

theorem openBetween_east_elim {m : Maze} {a : Int × Int}
    (h : openBetween m a (a.1 + 1, a.2)) :
    E ∉ m.wallsAt a ∧ W ∉ m.wallsAt (a.1 + 1, a.2) := by
  rcases h with ⟨hc, -, -⟩ | ⟨hc, -, -⟩ | ⟨-, h2, h3⟩ | ⟨hc, -, -⟩
  · exfalso
    have := congrArg Prod.fst hc
    simp only at this
    omega
  · exfalso
    have := congrArg Prod.fst hc
    simp only at this
    omega
  · exact ⟨h2, h3⟩
  · exfalso
    have := congrArg Prod.fst hc
    simp only at this
    omega

/-- The centre character of every cell is blank. -/
theorem renderMatrix_center (m : Maze) (hwf : m.WF) {x y : Nat}
    (hx : x < m.width) (hy : y < m.height) :
    getMat m.renderMatrix (2 * y + 1) (2 * x + 1) = ' ' := by
  rw [(renderMatrix_char m hwf).2]
  rw [if_pos ((writers_iff m hwf _ _).mpr ⟨x, y, hx, hy, Or.inl ⟨rfl, rfl⟩⟩)]

/-- The midpoint between a cell and its south neighbour is blank exactly
when their mutual wall is open. -/
theorem renderMatrix_vert (m : Maze) (hwf : m.WF) (hsym : m.SymWalls) {x y : Nat}
    (hx : x < m.width) (hy : y + 1 < m.height) :
    getMat m.renderMatrix (2 * y + 2) (2 * x + 1) =
      if openBetween m ((x : Int), (y : Int)) ((x : Int), (y : Int) + 1) then ' '
      else 'O' := by
  have hgy : m.InGrid ((x : Int), (y : Int)) := by
    refine ⟨Int.natCast_nonneg _, ?_, Int.natCast_nonneg _, ?_⟩
    · show (x : Int) < (m.width : Int)
      exact_mod_cast hx
    · show (y : Int) < (m.height : Int)
      omega
  have hgy1 : m.InGrid ((x : Int), (y : Int) + 1) := by
    refine ⟨Int.natCast_nonneg _, ?_, by omega, ?_⟩
    · show (x : Int) < (m.width : Int)
      exact_mod_cast hx
    · show (y : Int) + 1 < (m.height : Int)
      omega
  have hsymp := (hsym ((x : Int), (y : Int)) hgy).1 hgy1
  by_cases hop : openBetween m ((x : Int), (y : Int)) ((x : Int), (y : Int) + 1)
  · rw [if_pos hop]
    obtain ⟨hS, hN⟩ := openBetween_south_elim hop
    have hN' : N ∉ m.wallsAt (((x : Nat) : Int), ((y + 1 : Nat) : Int)) := by
      push_cast
      exact hN
    rw [(renderMatrix_char m hwf).2]
    rw [if_pos ((writers_iff m hwf _ _).mpr
      ⟨x, y + 1, hx, by omega, Or.inr (Or.inl ⟨hN', by omega, rfl⟩)⟩)]
  · rw [if_neg hop, (renderMatrix_char m hwf).2, if_neg]
    intro hex
    obtain ⟨x', y', hx', hy', hdisj⟩ := (writers_iff m hwf _ _).mp hex
    rcases hdisj with ⟨h1, h2⟩ | ⟨hn, h1, h2⟩ | ⟨hs, hg, h1, h2⟩ | ⟨hw, h1, h2⟩ |
      ⟨he, hg, h1, h2⟩
    · omega
    · have hxe : x' = x := by omega
      have hye : y' = y + 1 := by omega
      subst hxe
      subst hye
      push_cast at hn
      exact hop (Or.inl ⟨rfl, fun hc => hn (hsymp.mp hc), hn⟩)
    · have hxe : x' = x := by omega
      have hye : y' = y := by omega
      subst hxe
      subst hye
      exact hop (Or.inl ⟨rfl, hs, fun hc => hs (hsymp.mpr hc)⟩)
    · omega
    · omega

/-- The midpoint between a cell and its east neighbour is blank exactly
when their mutual wall is open. -/
theorem renderMatrix_horiz (m : Maze) (hwf : m.WF) (hsym : m.SymWalls) {x y : Nat}
    (hx : x + 1 < m.width) (hy : y < m.height) :
    getMat m.renderMatrix (2 * y + 1) (2 * x + 2) =
      if openBetween m ((x : Int), (y : Int)) ((x : Int) + 1, (y : Int)) then ' '
      else 'O' := by
  have hgx : m.InGrid ((x : Int), (y : Int)) := by
    refine ⟨Int.natCast_nonneg _, ?_, Int.natCast_nonneg _, ?_⟩
    · show (x : Int) < (m.width : Int)
      omega
    · show (y : Int) < (m.height : Int)
      exact_mod_cast hy
  have hgx1 : m.InGrid ((x : Int) + 1, (y : Int)) := by
    refine ⟨by omega, ?_, Int.natCast_nonneg _, ?_⟩
    · show (x : Int) + 1 < (m.width : Int)
      omega
    · show (y : Int) < (m.height : Int)
      exact_mod_cast hy
  have hsymp := (hsym ((x : Int), (y : Int)) hgx).2 hgx1
  by_cases hop : openBetween m ((x : Int), (y : Int)) ((x : Int) + 1, (y : Int))
  · rw [if_pos hop]
    obtain ⟨hE, hW⟩ := openBetween_east_elim hop
    have hW' : W ∉ m.wallsAt (((x + 1 : Nat) : Int), ((y : Nat) : Int)) := by
      push_cast
      exact hW
    rw [(renderMatrix_char m hwf).2]
    rw [if_pos ((writers_iff m hwf _ _).mpr
      ⟨x + 1, y, by omega, hy, Or.inr (Or.inr (Or.inr (Or.inl ⟨hW', rfl, by omega⟩)))⟩)]
  · rw [if_neg hop, (renderMatrix_char m hwf).2, if_neg]
    intro hex
    obtain ⟨x', y', hx', hy', hdisj⟩ := (writers_iff m hwf _ _).mp hex
    rcases hdisj with ⟨h1, h2⟩ | ⟨hn, h1, h2⟩ | ⟨hs, hg, h1, h2⟩ | ⟨hw, h1, h2⟩ |
      ⟨he, hg, h1, h2⟩
    · omega
    · omega
    · omega
    · have hxe : x' = x + 1 := by omega
      have hye : y' = y := by omega
      subst hxe
      subst hye
      push_cast at hw
      exact hop (Or.inr (Or.inr (Or.inl ⟨rfl, fun hc => hw (hsymp.mp hc), hw⟩)))
    · have hxe : x' = x := by omega
      have hye : y' = y := by omega
      subst hxe
      subst hye
      exact hop (Or.inr (Or.inr (Or.inl ⟨rfl, he, fun hc => he (hsymp.mpr hc)⟩)))

/-- Every position that is neither a cell centre nor an interior wall
midpoint shows the solid marker (this uses that all boundary walls
stand). -/
theorem renderMatrix_other (m : Maze) (hwf : m.WF) (hbd : m.Boundary)
    {i j : Nat} (hi : i ≤ 2 * m.height) (hj : j ≤ 2 * m.width)
    (h1 : ¬(i % 2 = 1 ∧ j % 2 = 1))
    (h2 : ¬(i % 2 = 1 ∧ j % 2 = 0 ∧ 0 < j ∧ j < 2 * m.width))
    (h3 : ¬(i % 2 = 0 ∧ 0 < i ∧ i < 2 * m.height ∧ j % 2 = 1)) :
    getMat m.renderMatrix i j = 'O' := by
  rw [(renderMatrix_char m hwf).2, if_neg]
  intro hex
  obtain ⟨x', y', hx', hy', hdisj⟩ := (writers_iff m hwf i j).mp hex
  have hgrid : m.InGrid ((x' : Int), (y' : Int)) := by
    refine ⟨Int.natCast_nonneg _, ?_, Int.natCast_nonneg _, ?_⟩
    · show (x' : Int) < (m.width : Int)
      omega
    · show (y' : Int) < (m.height : Int)
      omega
  obtain ⟨hbN, hbS, hbW, hbE⟩ := hbd ((x' : Int), (y' : Int)) hgrid
  rcases hdisj with ⟨e1, e2⟩ | ⟨hn, e1, e2⟩ | ⟨hs, hg, e1, e2⟩ | ⟨hw, e1, e2⟩ |
    ⟨he, hg, e1, e2⟩
  · exact h1 ⟨by omega, by omega⟩
  · by_cases hy0 : y' = 0
    · exact hn (hbN (by omega))
    · exact h3 ⟨by omega, by omega, by omega, by omega⟩
  · by_cases hyl : y' + 1 = m.height
    · exact hs (hbS (by omega))
    · exact h3 ⟨by omega, by omega, by omega, by omega⟩
  · by_cases hx0 : x' = 0
    · exact hw (hbW (by omega))
    · exact h2 ⟨by omega, by omega, by omega, by omega⟩
  · by_cases hxl : x' + 1 = m.width
    · exact he (hbE (by omega))
    · exact h2 ⟨by omega, by omega, by omega, by omega⟩

/-- C3: for every grid whose walls have only been modified by `connect`
calls on adjacent in-grid cells, `__repr__` yields the `(2*h+1)`-line,
`(2*w+1)`-column block (joined by newline, one trailing newline): cell
centres at odd/odd positions are blank, the midpoint between two adjacent
cells is blank exactly when their mutual wall has been removed, and every
other position shows the solid marker `'O'`. -/
theorem C3_render_spec (w h : Nat) (m : Maze) (hco : ConnectOnly w h m) :
    m.renderMatrix.length = 2 * h + 1 ∧
    (∀ row ∈ m.renderMatrix, row.length = 2 * w + 1) ∧
    m.render = String.intercalate "\n" (m.renderMatrix.map fun row => String.mk row) ++ "\n" ∧
    (∀ x y : Nat, x < w → y < h →
      getMat m.renderMatrix (2 * y + 1) (2 * x + 1) = ' ') ∧
    (∀ x y : Nat, x < w → y + 1 < h →
      getMat m.renderMatrix (2 * y + 2) (2 * x + 1) =
        if openBetween m ((x : Int), (y : Int)) ((x : Int), (y : Int) + 1) then ' '
        else 'O') ∧
    (∀ x y : Nat, x + 1 < w → y < h →
      getMat m.renderMatrix (2 * y + 1) (2 * x + 2) =
        if openBetween m ((x : Int), (y : Int)) ((x : Int) + 1, (y : Int)) then ' '
        else 'O') ∧
    (∀ i j : Nat, i ≤ 2 * h → j ≤ 2 * w →
      ¬(i % 2 = 1 ∧ j % 2 = 1) →
      ¬(i % 2 = 1 ∧ j % 2 = 0 ∧ 0 < j ∧ j < 2 * w) →
      ¬(i % 2 = 0 ∧ 0 < i ∧ i < 2 * h ∧ j % 2 = 1) →
      getMat m.renderMatrix i j = 'O') := by
  obtain ⟨hW, hH, hwf, hsym, hbd⟩ := connectOnly_inv hco
  subst hW
  subst hH
  obtain ⟨⟨hlen, hrows⟩, -⟩ := renderMatrix_char m hwf
  refine ⟨by omega, ?_, rfl, ?_, ?_, ?_, ?_⟩
  · intro row hrow
    obtain ⟨⟨k, hk⟩, hget⟩ := List.mem_iff_get.mp hrow
    have hval := hrows k
    rw [List.getD_lt _ _ hk, hget] at hval
    rw [hval, if_pos (by omega)]
    omega
  · intro x y hx hy
    exact renderMatrix_center m hwf hx hy
  · intro x y hx hy
    exact renderMatrix_vert m hwf hsym hx hy
  · intro x y hx hy
    exact renderMatrix_horiz m hwf hsym hx hy
  · intro i j hi hj h1 h2 h3
    exact renderMatrix_other m hwf hbd hi hj h1 h2 h3

/-- C3 at the fresh 1×1 grid (a legitimate `ConnectOnly` maze). -/
theorem C3_witness :
    (initMaze 1 1).renderMatrix.length = 2 * 1 + 1 ∧
    (∀ row ∈ (initMaze 1 1).renderMatrix, row.length = 2 * 1 + 1) ∧
    (initMaze 1 1).render = String.intercalate "\n"
      ((initMaze 1 1).renderMatrix.map fun row => String.mk row) ++ "\n" ∧
    (∀ x y : Nat, x < 1 → y < 1 →
      getMat (initMaze 1 1).renderMatrix (2 * y + 1) (2 * x + 1) = ' ') ∧
    (∀ x y : Nat, x < 1 → y + 1 < 1 →
      getMat (initMaze 1 1).renderMatrix (2 * y + 2) (2 * x + 1) =
        if openBetween (initMaze 1 1) ((x : Int), (y : Int)) ((x : Int), (y : Int) + 1)
        then ' ' else 'O') ∧
    (∀ x y : Nat, x + 1 < 1 → y < 1 →
      getMat (initMaze 1 1).renderMatrix (2 * y + 1) (2 * x + 2) =
        if openBetween (initMaze 1 1) ((x : Int), (y : Int)) ((x : Int) + 1, (y : Int))
        then ' ' else 'O') ∧
    (∀ i j : Nat, i ≤ 2 * 1 → j ≤ 2 * 1 →
      ¬(i % 2 = 1 ∧ j % 2 = 1) →
      ¬(i % 2 = 1 ∧ j % 2 = 0 ∧ 0 < j ∧ j < 2 * 1) →
      ¬(i % 2 = 0 ∧ 0 < i ∧ i < 2 * 1 ∧ j % 2 = 1) →
      getMat (initMaze 1 1).renderMatrix i j = 'O') :=
  C3_render_spec 1 1 (initMaze 1 1) ConnectOnly.init
